import Mathlib

/-!
# Storage-layout canonicalization (`op-bindings/ast/canonicalize.go`)

A shallow embedding of `CanonicalizeASTIDs` and `replaceType`, followed by the
properties of the specification that were checked against it.

Modelling conventions.

* A Go `string` is a `List Char` (`Str`).  The inputs of interest are valid
  UTF-8, for which substring search, splitting and the bytewise order of Go
  agree with the same operations on the sequence of code points.
* A Go `map` is an association list.  For the input `Types` map the order of
  the list is the order in which `range in.Types` happens to enumerate it.
  The output `Types` map is kept sorted by key, so that two equal maps are
  equal lists.
* `range typeRemappings` inside `replaceType` visits the table in an order
  chosen by the Go runtime, anew for every loop.  `replaceType` is therefore
  given the table as the list of entries in the order of the visit, and
  `CanonicalizeASTIDs` takes a `RangeOrder` saying, for each call site, in
  which order the table is visited there.
* `lastId` is a `uint`; it is modelled by a `Nat`.  It is incremented once per
  slot and once per type key, and a slice or map with `2^63` elements does not
  fit in an address space, so the counter never wraps and `int(lastId)` is
  never negative.
* `path/filepath` is taken with its Unix behaviour (separator `/`).
-/

namespace Ast

/-- A Go string, as its sequence of characters. -/
abbrev Str := List Char

/-! ## The `strings`, `strconv`, `slices` and `path/filepath` functions used -/

/-- Go `strings.Index(s, sub)`: the position of the first occurrence of `sub`
in `s`, `none` standing for `-1`. -/
def stringsIndex : Str → Str → Option Nat
  | [], sub => if sub = [] then some 0 else none
  | c :: s, sub =>
    if sub.isPrefixOf (c :: s) then some 0 else (stringsIndex s sub).map (· + 1)

/-- Go `strings.Contains(s, sub)`, which is `Index(s, sub) >= 0`. -/
def stringsContains (s sub : Str) : Bool :=
  (stringsIndex s sub).isSome

/-- Go `strings.Replace(s, old, new, 1)`: `s` is returned when `old == new` or
when `old` does not occur; otherwise the text before the first occurrence,
then `new`, then the text after the occurrence. -/
def stringsReplace1 (s old new : Str) : Str :=
  if old = new then s
  else
    match stringsIndex s old with
    | none => s
    | some j => s.take j ++ new ++ s.drop (j + old.length)

/-- Go `strconv.Itoa` on a non-negative integer: its decimal digits. -/
def strconvItoa (n : Nat) : Str :=
  Nat.toDigits 10 n

/-- Go `strings.Split(s, "/")`. -/
def stringsSplit (s : Str) : List Str :=
  s.splitOn '/'

/-- Go `strings.Join(elems, "/")`. -/
def stringsJoin (elems : List Str) : Str :=
  ['/'].intercalate elems

/-- Go `slices.Index(elements, x)`: the first index holding `x`, `none`
standing for `-1`. -/
def slicesIndex : List Str → Str → Option Nat
  | [], _ => none
  | e :: es, x => if e = x then some 0 else (slicesIndex es x).map (· + 1)

/-- Go `filepath.IsAbs` on Unix: the path starts with a slash. -/
def filepathIsAbs (path : Str) : Bool :=
  match path with
  | '/' :: _ => true
  | _ => false

/-- The element loop of Go `filepath.Clean`: `out` holds the elements written
so far, last one first.  An empty element and `.` are dropped; `..` removes
the last written element when there is one that is not itself `..`, is
dropped at the root of a rooted path, and is written otherwise; any other
element is written. -/
def cleanElems (rooted : Bool) : List Str → List Str → List Str
  | out, [] => out.reverse
  | out, e :: es =>
    if e = [] ∨ e = ['.'] then cleanElems rooted out es
    else if e = ['.', '.'] then
      match out with
      | top :: rest =>
        if top = ['.', '.'] then cleanElems rooted (e :: out) es
        else cleanElems rooted rest es
      | [] => if rooted then cleanElems rooted [] es else cleanElems rooted [e] es
    else cleanElems rooted (e :: out) es

/-- Go `filepath.Clean` on Unix: the lexically shortest equivalent path; the
empty result is written `.`. -/
def filepathClean (path : Str) : Str :=
  if path = [] then ['.']
  else
    let rooted := filepathIsAbs path
    let body := stringsJoin (cleanElems rooted [] (stringsSplit path))
    if rooted then '/' :: body
    else if body = [] then ['.'] else body

/-- Go `filepath.Join(elems...)` on Unix: the elements from the first
non-empty one on are joined with slashes and the result is cleaned; when
there is no non-empty element the result is the empty string. -/
def filepathJoin (elems : List Str) : Str :=
  match elems.dropWhile (fun e => decide (e = [])) with
  | [] => []
  | rest => filepathClean (stringsJoin rest)

/-- A path element that `filepath.Clean` copies: not empty, not `.`, not `..`. -/
def realElem (e : Str) : Prop :=
  e ≠ [] ∧ e ≠ ['.'] ∧ e ≠ ['.', '.']

instance realElemDecidable (e : Str) : Decidable (realElem e) :=
  inferInstanceAs (Decidable (_ ∧ _))

/-- Bytewise `<` of Go strings. -/
def strLt : Str → Str → Bool
  | _, [] => false
  | [], _ :: _ => true
  | a :: as, b :: bs =>
    if a.toNat < b.toNat then true
    else if b.toNat < a.toNat then false
    else strLt as bs

/-- Bytewise `≤` of Go strings. -/
def strLe (a b : Str) : Prop :=
  strLt b a = false

instance strLeDecidable : DecidableRel strLe :=
  fun a b => inferInstanceAs (Decidable (strLt b a = false))

/-- Go `sort.StringSlice.Sort`: the strings in increasing order. -/
def sortStrings (l : List Str) : List Str :=
  l.insertionSort strLe

/-! ## Go maps -/

/-- Map lookup `m[k]`, with `zero` the zero value returned for a missing key. -/
def mapGet {κ ν : Type} [DecidableEq κ] (m : List (κ × ν)) (k : κ) (zero : ν) : ν :=
  match m with
  | [] => zero
  | (k', v) :: rest => if k' = k then v else mapGet rest k zero

/-- Map assignment `m[k] = v`: the value of an existing key is overwritten, a
new key is added. -/
def mapSet {κ ν : Type} [DecidableEq κ] (m : List (κ × ν)) (k : κ) (v : ν) : List (κ × ν) :=
  match m with
  | [] => [(k, v)]
  | (k', v') :: rest => if k' = k then (k, v) :: rest else (k', v') :: mapSet rest k v

/-- Map assignment `m[k] = v` on a map that is kept sorted by key. -/
def sortedSet {ν : Type} (m : List (Str × ν)) (k : Str) (v : ν) : List (Str × ν) :=
  match m with
  | [] => [(k, v)]
  | (k', v') :: rest =>
    if k' = k then (k, v) :: rest
    else if strLt k k' then (k, v) :: (k', v') :: rest
    else (k', v') :: sortedSet rest k v

/-- The keys of a map. -/
def mapKeys {κ ν : Type} (m : List (κ × ν)) : List κ :=
  m.map Prod.fst

/-! ## The data model (`solc.StorageLayout`) -/

/-- Modelled from the spec: `solc.StorageLayoutEntry`, one declared storage
variable; the declaration of the type is not part of the sources at hand.
`Type_` is the field `Type`. -/
structure StorageLayoutEntry where
  AstId : Nat
  Contract : Str
  Label : Str
  Offset : Nat
  Slot : Nat
  Type_ : Str
deriving DecidableEq, Repr

/-- Modelled from the spec: `solc.StorageLayoutType`, the description of one
type; the declaration of the type is not part of the sources at hand.  The
optional `Key`, `Value` and `Base` are empty when absent. -/
structure StorageLayoutType where
  Encoding : Str
  Label : Str
  NumberOfBytes : Nat
  Key : Str
  Value : Str
  Base : Str
deriving DecidableEq, Repr

/-- The zero value of `StorageLayoutType`, returned by a lookup of a missing key. -/
def StorageLayoutType.zero : StorageLayoutType :=
  { Encoding := [], Label := [], NumberOfBytes := 0, Key := [], Value := [], Base := [] }

/-- Modelled from the spec: `solc.StorageLayout`, the slots in order and the
map from type string to type description; the declaration of the type is not
part of the sources at hand. -/
structure StorageLayout where
  Storage : List StorageLayoutEntry
  Types : List (Str × StorageLayoutType)
deriving DecidableEq, Repr

/-! ## The two regular expressions -/

/-- The class `\w` of Go regular expressions: `[0-9A-Za-z_]`. -/
def isWord (c : Char) : Bool :=
  c.isAlphanum || c == '_'

/-- The submatches of `remapTypeRe`,
`^(t_[\w_]+\([\w]+\))([\d]+)(_[\w]+)?$`, on `s`: capture groups 1, 2 and 3
(group 3 empty when it does not take part), or `none` when `s` does not match.
Since neither bracket is a word character and `_` is not a digit, each of the
greedy repetitions can only stop at the end of the run of characters of its
class, so the match is found without backtracking. -/
def remapTypeRe (s : Str) : Option (Str × Str × Str) :=
  match s with
  | 't' :: '_' :: r0 =>
    let w1 := r0.takeWhile isWord
    match r0.dropWhile isWord with
    | '(' :: r1 =>
      let w2 := r1.takeWhile isWord
      match r1.dropWhile isWord with
      | ')' :: r2 =>
        let d := r2.takeWhile Char.isDigit
        let r3 := r2.dropWhile Char.isDigit
        if w1 = [] ∨ w2 = [] ∨ d = [] then none
        else
          let g1 := 't' :: '_' :: (w1 ++ '(' :: (w2 ++ [')']))
          match r3 with
          | [] => some (g1, d, [])
          | '_' :: r4 => if r4 ≠ [] ∧ r4.all isWord then some (g1, d, r3) else none
          | _ :: _ => none
      | _ => none
    | _ => none
  | _ => none

/-- A match of `\(([\w]+)\)([\d]+)_storage` at the start of `s`. -/
def storageTailAt (s : Str) : Bool :=
  match s with
  | '(' :: r1 =>
    match r1.dropWhile isWord with
    | ')' :: r2 =>
      !(r1.takeWhile isWord).isEmpty && !(r2.takeWhile Char.isDigit).isEmpty
        && "_storage".toList.isPrefixOf (r2.dropWhile Char.isDigit)
    | _ => false
  | _ => false

/-- A match of `remapAstIdStorage`,
`(t_(struct|userDefinedValueType))\(([\w]+)\)([\d]+)_storage`, at the start of `s`. -/
def remapAstIdStorageAt (s : Str) : Bool :=
  ("t_struct".toList.isPrefixOf s && storageTailAt (s.drop 8))
    || ("t_userDefinedValueType".toList.isPrefixOf s && storageTailAt (s.drop 22))

/-- Whether `remapAstIdStorage` matches somewhere in `s`, that is, whether
`remapAstIdStorage.FindAllStringSubmatch(s, -1)` is non-empty. -/
def remapAstIdStorage : Str → Bool
  | [] => false
  | c :: s => remapAstIdStorageAt (c :: s) || remapAstIdStorage s

/-! ## `replaceType` -/

/-- The table `typeRemappings`, from old type string to new type string. -/
abbrev Table := List (Str × Str)

/-- The struct `typeRemapping`: one entry of the table that matched. -/
structure typeRemapping where
  oldType : Str
  newType : Str
deriving DecidableEq, Repr

/-- The loop `for oldType, newType := range typeRemappings` of `replaceType`:
the entries whose old type occurs in `s`, in the order of the visit. -/
def collectMatches (typeRemappings : Table) (s : Str) : List typeRemapping :=
  (typeRemappings.filter (fun e => stringsContains s e.1)).map
    (fun e => { oldType := e.1, newType := e.2 })

/-- The loop `for _, match := range matches` of `replaceType`. -/
def applyMatches (ms : List typeRemapping) (s : Str) : Str :=
  ms.foldl (fun acc m => stringsReplace1 acc m.oldType m.newType) s

/-- The function `replaceType`; `typeRemappings` lists the entries of the
table in the order in which the `range` loop visits them. -/
def replaceType (typeRemappings : Table) (s : Str) : Str :=
  let remap := mapGet typeRemappings s []
  if remap ≠ [] then remap
  else applyMatches (collectMatches typeRemappings s) s

/-! ## `CanonicalizeASTIDs` -/

/-- The places where `CanonicalizeASTIDs` calls `replaceType`, each of which
runs one `range` loop over the table: the type of slot `i` (line 107), and for
the `j`-th sorted type key the key itself (line 113) and the fields `Key`,
`Value` and `Base` of its entry (lines 118, 119 and 122). -/
inductive RangeSite where
  | slotType (i : Nat)
  | typeKey (j : Nat)
  | fieldKey (j : Nat)
  | fieldValue (j : Nat)
  | fieldBase (j : Nat)
deriving DecidableEq, Repr

/-- The order in which each `range` loop over the table visits its entries. -/
abbrev RangeOrder := RangeSite → Table → Table

/-- A visiting order is one the Go runtime can produce when every loop visits
every entry of the table exactly once. -/
def RangeOrder.Valid (order : RangeOrder) : Prop :=
  ∀ site t, (order site t).Perm t

/-- The order in which every loop visits the table as it was built. -/
def RangeOrder.asBuilt : RangeOrder :=
  fun _ t => t

/-- The first loop (lines 44 to 47): each slot's `AstId` is mapped to the
current `lastId`, which is then incremented.  Returns the map and the counter. -/
def assignSlotIds : List StorageLayoutEntry → List (Nat × Nat) → Nat → List (Nat × Nat) × Nat
  | [], astIDRemappings, lastId => (astIDRemappings, lastId)
  | slot :: rest, astIDRemappings, lastId =>
    assignSlotIds rest (mapSet astIDRemappings slot.AstId lastId) (lastId + 1)

/-- The variables the loop over `sortedOldTypes` (lines 58 to 83) updates. -/
structure TypeLoopState where
  lastId : Nat
  typeRemappings : Table
  seenTypes : List Str
deriving DecidableEq, Repr

/-- One iteration of the loop over `sortedOldTypes` (lines 58 to 83). -/
def typeLoopStep (st : TypeLoopState) (oldType : Str) : TypeLoopState :=
  if oldType ∈ st.seenTypes ∨ oldType = [] then st
  else
    match remapTypeRe oldType with
    | none => st
    | some groups =>
      let skip := !remapAstIdStorage oldType
      if stringsContains oldType "storage".toList && skip then st
      else
        let replaceAstID := groups.2.1
        let newType := stringsReplace1 oldType replaceAstID (strconvItoa st.lastId)
        { lastId := st.lastId + 1
          typeRemappings := mapSet st.typeRemappings oldType newType
          seenTypes := oldType :: st.seenTypes }

/-- The keys of the input type map, sorted (lines 51 to 55). -/
def sortedOldTypes (input : StorageLayout) : List Str :=
  sortStrings (mapKeys input.Types)

/-- The state after the loop over `sortedOldTypes`, which starts with the
counter left by the slots, an empty table and nothing seen. -/
def typeLoop (input : StorageLayout) : TypeLoopState :=
  (sortedOldTypes input).foldl typeLoopStep
    { lastId := (assignSlotIds input.Storage [] 1000).2, typeRemappings := [], seenTypes := [] }

/-- The table `typeRemappings` at the end of the first pass. -/
def typeRemappings (input : StorageLayout) : Table :=
  (typeLoop input).typeRemappings

/-- The map `astIDRemappings` at the end of the first pass. -/
def astIDRemappings (input : StorageLayout) : List (Nat × Nat) :=
  (assignSlotIds input.Storage [] 1000).1

/-- The normalization of a slot's contract name (lines 89 to 99). -/
def normalizeContract (contract : Str) : Str :=
  if filepathIsAbs contract then
    let elements := stringsSplit contract
    match slicesIndex elements "optimism".toList with
    | some idx => filepathJoin (elements.drop (idx + 1))
    | none => contract
  else contract

/-- The slot appended to the output for slot number `i` (lines 101 to 108). -/
def outSlot (order : RangeOrder) (ids : List (Nat × Nat)) (table : Table) (i : Nat)
    (slot : StorageLayoutEntry) : StorageLayoutEntry :=
  { AstId := mapGet ids slot.AstId 0
    Contract := normalizeContract slot.Contract
    Label := slot.Label
    Offset := slot.Offset
    Slot := slot.Slot
    Type_ := replaceType (order (.slotType i) table) slot.Type_ }

/-- The loop over the slots (lines 88 to 109), from slot number `i` on. -/
def outSlots (order : RangeOrder) (ids : List (Nat × Nat)) (table : Table) :
    Nat → List StorageLayoutEntry → List StorageLayoutEntry
  | _, [] => []
  | i, slot :: rest => outSlot order ids table i slot :: outSlots order ids table (i + 1) rest

/-- The key and the entry written to the output type map for the `j`-th
sorted type key (lines 112 to 123). -/
def outType (order : RangeOrder) (types : List (Str × StorageLayoutType)) (table : Table)
    (j : Nat) (oldType : Str) : Str × StorageLayoutType :=
  let value := mapGet types oldType StorageLayoutType.zero
  let newType := replaceType (order (.typeKey j) table) oldType
  (newType,
    { Encoding := value.Encoding
      Label := value.Label
      NumberOfBytes := value.NumberOfBytes
      Key := replaceType (order (.fieldKey j) table) value.Key
      Value := replaceType (order (.fieldValue j) table) value.Value
      Base := if value.Base ≠ [] then replaceType (order (.fieldBase j) table) value.Base
        else [] })

/-- The loop that fills the output type map (lines 111 to 126), from the
`j`-th sorted type key on; `out` is the map filled so far. -/
def outTypes (order : RangeOrder) (types : List (Str × StorageLayoutType)) (table : Table) :
    Nat → List Str → List (Str × StorageLayoutType) → List (Str × StorageLayoutType)
  | _, [], out => out
  | j, oldType :: rest, out =>
    let kv := outType order types table j oldType
    outTypes order types table (j + 1) rest (sortedSet out kv.1 kv.2)

/-- The function `CanonicalizeASTIDs`. -/
def CanonicalizeASTIDs (order : RangeOrder) (input : StorageLayout) : StorageLayout :=
  let table := typeRemappings input
  { Storage := outSlots order (astIDRemappings input) table 0 input.Storage
    Types := outTypes order input.Types table 0 (sortedOldTypes input) [] }

/-! ## Properties of layouts, and the layouts used as examples -/

/-- Referential closure of a layout: the type of every slot, and every
non-empty `Key`, `Value` and `Base` of a type entry, is a key of the type map. -/
def StorageLayout.Closed (L : StorageLayout) : Prop :=
  (∀ slot ∈ L.Storage, slot.Type_ ∈ mapKeys L.Types) ∧
    ∀ kv ∈ L.Types,
      (kv.2.Key ≠ [] → kv.2.Key ∈ mapKeys L.Types) ∧
      (kv.2.Value ≠ [] → kv.2.Value ∈ mapKeys L.Types) ∧
      (kv.2.Base ≠ [] → kv.2.Base ∈ mapKeys L.Types)

instance StorageLayout.closedDecidable (L : StorageLayout) : Decidable L.Closed :=
  inferInstanceAs (Decidable (_ ∧ _))

/-- The `AstId`s of the slots of a layout, in slot order. -/
def StorageLayout.slotIds (L : StorageLayout) : List Nat :=
  L.Storage.map (fun slot => slot.AstId)

/-- The order in which every loop visits the table from its last entry to its first. -/
def RangeOrder.reversed : RangeOrder :=
  fun _ t => t.reverse

/-- The order in which the loops run for the slots visit the table from its
last entry to its first, and all other loops visit it as it was built. -/
def RangeOrder.slotsReversed : RangeOrder :=
  fun site t =>
    match site with
    | .slotType _ => t.reverse
    | _ => t

/-- A type entry with the given label and size and no `Key`, `Value` or `Base`. -/
def plainType (label : String) (size : Nat) : StorageLayoutType :=
  { Encoding := "inplace".toList, Label := label.toList, NumberOfBytes := size
    Key := [], Value := [], Base := [] }

/-- A layout with two contracts named `A`, of ids 12 and 123, and a mapping
to the second one: the old type string of the first contract occurs inside
the old type string of the second. -/
def overlapLayout : StorageLayout :=
  { Storage :=
      [ { AstId := 5, Contract := "src/C.sol:C".toList, Label := "registry".toList
          Offset := 0, Slot := 0, Type_ := "t_mapping(t_address,t_contract(A)123)".toList },
        { AstId := 9, Contract := "src/C.sol:C".toList, Label := "first".toList
          Offset := 0, Slot := 1, Type_ := "t_contract(A)12".toList } ]
    Types :=
      [ ("t_address".toList, plainType "address" 20),
        ("t_contract(A)12".toList, plainType "contract A" 20),
        ("t_contract(A)123".toList, plainType "contract A" 20),
        ("t_mapping(t_address,t_contract(A)123)".toList,
          { Encoding := "mapping".toList, Label := "mapping(address => contract A)".toList
            NumberOfBytes := 32, Key := "t_address".toList
            Value := "t_contract(A)123".toList, Base := [] }) ] }

/-- A layout whose two slots carry the same `AstId`. -/
def sameIdLayout : StorageLayout :=
  { Storage :=
      [ { AstId := 7, Contract := "src/C.sol:C".toList, Label := "a".toList
          Offset := 0, Slot := 0, Type_ := "t_uint256".toList },
        { AstId := 7, Contract := "src/C.sol:C".toList, Label := "b".toList
          Offset := 0, Slot := 1, Type_ := "t_uint256".toList } ]
    Types := [ ("t_uint256".toList, plainType "uint256" 32) ] }

/-- The second output slot of `sameIdLayout`. -/
def sameIdOutSlot : StorageLayoutEntry :=
  { AstId := 1001, Contract := "src/C.sol:C".toList, Label := "b".toList
    Offset := 0, Slot := 1, Type_ := "t_uint256".toList }

/-- A layout with a single slot. -/
def oneSlotLayout : StorageLayout :=
  { Storage :=
      [ { AstId := 42, Contract := "/home/user/build/optimism/packages/contracts/Foo.sol:Foo".toList
          Label := "owner".toList, Offset := 0, Slot := 0, Type_ := "t_address".toList } ]
    Types := [ ("t_address".toList, plainType "address" 20) ] }

/-- A layout with a dynamic storage array of contracts: the type string of the
array contains `storage`, carries no struct or user-defined-value-type marker,
and embeds the type string of the contract. -/
def contractArrayLayout : StorageLayout :=
  { Storage :=
      [ { AstId := 3, Contract := "src/C.sol:C".toList, Label := "tokens".toList
          Offset := 0, Slot := 0, Type_ := "t_array(t_contract(A)12)dyn_storage".toList } ]
    Types :=
      [ ("t_array(t_contract(A)12)dyn_storage".toList,
          { Encoding := "dynamic_array".toList, Label := "contract A[]".toList
            NumberOfBytes := 32, Key := [], Value := [], Base := "t_contract(A)12".toList }),
        ("t_contract(A)12".toList, plainType "contract A" 20) ] }

/-- A layout with a fixed-size storage array, whose type string ends in a
length that looks like an id, and a struct. -/
def fixedArrayLayout : StorageLayout :=
  { Storage :=
      [ { AstId := 3, Contract := "contracts/Foo.sol".toList, Label := "gap".toList
          Offset := 0, Slot := 0, Type_ := "t_array(t_uint256)10_storage".toList },
        { AstId := 8, Contract := "contracts/Foo.sol".toList, Label := "foo".toList
          Offset := 0, Slot := 10, Type_ := "t_struct(Foo)500_storage".toList } ]
    Types :=
      [ ("t_array(t_uint256)10_storage".toList,
          { Encoding := "inplace".toList, Label := "uint256[10]".toList
            NumberOfBytes := 320, Key := [], Value := [], Base := "t_uint256".toList }),
        ("t_struct(Foo)500_storage".toList, plainType "struct Foo" 32),
        ("t_uint256".toList, plainType "uint256" 32) ] }

/-- The filters of the loop over the sorted type keys: a key enters the table
when it is not empty, matches `remapTypeRe`, and does not both contain
`storage` and fail to match `remapAstIdStorage`. -/
def passesFilters (k : Str) : Prop :=
  k ≠ [] ∧ (remapTypeRe k).isSome = true ∧
    ¬ (stringsContains k "storage".toList = true ∧ remapAstIdStorage k = false)

instance passesFiltersDecidable (k : Str) : Decidable (passesFilters k) :=
  inferInstanceAs (Decidable (_ ∧ _))

/-- A layout with one slot whose contract is the given path. -/
def pathLayout (contract : String) : StorageLayout :=
  { Storage :=
      [ { AstId := 1, Contract := contract.toList, Label := "x".toList
          Offset := 0, Slot := 0, Type_ := "t_uint256".toList } ]
    Types := [ ("t_uint256".toList, plainType "uint256" 32) ] }

/-- Capture group 2 of `remapTypeRe` on `k`, the digits that the first pass
replaces; empty when `k` does not match. -/
def capturedId (k : Str) : Str :=
  match remapTypeRe k with
  | some groups => groups.2.1
  | none => []

/-- The keys of the input type map that pass the filters of the first pass,
in sorted order. -/
def filteredKeys (input : StorageLayout) : List Str :=
  (sortedOldTypes input).filter (fun k => decide (passesFilters k))

/-- The table as the specification describes it: the `j`-th sorted key that
passes the filters is mapped to itself with the first occurrence of its
captured digits replaced by the decimal form of `1000 + n + j`, where `n` is
the number of slots. -/
def expectedTable (input : StorageLayout) : Table :=
  (List.enumFrom (1000 + input.Storage.length) (filteredKeys input)).map
    (fun e => (e.2, stringsReplace1 e.2 (capturedId e.2) (strconvItoa e.1)))

/-- The layout `overlapLayout` with its type map enumerated in the opposite order. -/
def overlapLayoutReversed : StorageLayout :=
  { Storage := overlapLayout.Storage, Types := overlapLayout.Types.reverse }

/-- Map lookup `v, ok := m[k]`: the value stored under `k`, if the key is present. -/
def mapFind {κ ν : Type} [DecidableEq κ] (m : List (κ × ν)) (k : κ) : Option ν :=
  match m with
  | [] => none
  | (k', v) :: rest => if k' = k then some v else mapFind rest k

/-- A layout in which two type keys are rewritten to the same string: the
table has the single old type `t_contract(A)12`, mapped to
`t_contract(A)1001`, so `t_array(t_contract(A)12)dyn_storage` is rewritten to
`t_array(t_contract(A)1001)dyn_storage`, which is itself a key and is left
as it is. -/
def collisionLayout : StorageLayout :=
  { Storage :=
      [ { AstId := 3, Contract := "src/C.sol:C".toList, Label := "tokens".toList
          Offset := 0, Slot := 0, Type_ := "t_array(t_contract(A)12)dyn_storage".toList } ]
    Types :=
      [ ("t_array(t_contract(A)1001)dyn_storage".toList,
          { Encoding := "dynamic_array".toList, Label := "contract A[] (previous)".toList
            NumberOfBytes := 64, Key := [], Value := [], Base := "t_contract(A)12".toList }),
        ("t_array(t_contract(A)12)dyn_storage".toList,
          { Encoding := "dynamic_array".toList, Label := "contract A[]".toList
            NumberOfBytes := 32, Key := [], Value := [], Base := "t_contract(A)12".toList }),
        ("t_contract(A)12".toList, plainType "contract A" 20) ] }

/-! ## `CanonicalizeASTIDs` with its partial steps made explicit -/

/-- The value of `remapTypeRe.FindAllStringSubmatch(s, -1)`: the list of the
matches, each one the list of the whole match and the three capture groups.
The expression is anchored at both ends, so there is at most one match, and it
is the whole of `s`. -/
def remapTypeReFindAll (s : Str) : List (List Str) :=
  match remapTypeRe s with
  | none => []
  | some groups => [[s, groups.1, groups.2.1, groups.2.2]]

/-- The Go slice expression `l[lo:]`, which fails when `lo` exceeds the length of `l`. -/
def sliceFrom (l : List Str) (lo : Nat) : Option (List Str) :=
  if lo ≤ l.length then some (l.drop lo) else none

/-- One iteration of the loop over `sortedOldTypes` (lines 58 to 83), failing
where the index expression `matches[0][2]` would be out of range. -/
def typeLoopStepChecked (st : TypeLoopState) (oldType : Str) : Option TypeLoopState :=
  if oldType ∈ st.seenTypes ∨ oldType = [] then some st
  else
    let found := remapTypeReFindAll oldType
    if found.length = 0 then some st
    else
      let skip := !remapAstIdStorage oldType
      if stringsContains oldType "storage".toList && skip then some st
      else
        match found[0]? with
        | none => none
        | some first =>
          match first[2]? with
          | none => none
          | some replaceAstID =>
            let newType := stringsReplace1 oldType replaceAstID (strconvItoa st.lastId)
            some
              { lastId := st.lastId + 1
                typeRemappings := mapSet st.typeRemappings oldType newType
                seenTypes := oldType :: st.seenTypes }

/-- The loop over `sortedOldTypes`, failing as soon as one iteration fails. -/
def typeLoopChecked : List Str → TypeLoopState → Option TypeLoopState
  | [], st => some st
  | oldType :: rest, st =>
    match typeLoopStepChecked st oldType with
    | none => none
    | some next => typeLoopChecked rest next

/-- The normalization of a slot's contract name (lines 89 to 99), failing
where the slice expression `elements[idx+1:]` would be out of range. -/
def normalizeContractChecked (contract : Str) : Option Str :=
  if filepathIsAbs contract then
    let elements := stringsSplit contract
    match slicesIndex elements "optimism".toList with
    | some idx => (sliceFrom elements (idx + 1)).map filepathJoin
    | none => some contract
  else some contract

/-- The loop over the slots (lines 88 to 109), failing where the contract
normalization fails or where a slot's `AstId` is missing from the id table. -/
def outSlotsChecked (order : RangeOrder) (ids : List (Nat × Nat)) (table : Table) :
    Nat → List StorageLayoutEntry → Option (List StorageLayoutEntry)
  | _, [] => some []
  | i, slot :: rest =>
    match mapFind ids slot.AstId, normalizeContractChecked slot.Contract,
      outSlotsChecked order ids table (i + 1) rest with
    | some astId, some contract, some tail =>
      some
        ({ AstId := astId
           Contract := contract
           Label := slot.Label
           Offset := slot.Offset
           Slot := slot.Slot
           Type_ := replaceType (order (.slotType i) table) slot.Type_ } :: tail)
    | _, _, _ => none

/-- The function `CanonicalizeASTIDs` with its partial steps checked: the
result is `none` when reading `matches[0][2]`, slicing `elements[idx+1:]` or
looking up a slot's `AstId` in the id table fails. -/
def CanonicalizeASTIDsChecked (order : RangeOrder) (input : StorageLayout) :
    Option StorageLayout :=
  match typeLoopChecked (sortedOldTypes input)
      { lastId := (assignSlotIds input.Storage [] 1000).2, typeRemappings := [],
        seenTypes := [] } with
  | none => none
  | some st =>
    match outSlotsChecked order (astIDRemappings input) st.typeRemappings 0 input.Storage with
    | none => none
    | some storage =>
      some
        { Storage := storage
          Types := outTypes order input.Types st.typeRemappings 0 (sortedOldTypes input) [] }

/-! ## Further layouts used as examples -/

/-- A layout with a contract named `ERC20` whose id is 20: the digits of the
id also occur in the name. -/
def erc20Layout : StorageLayout :=
  { Storage :=
      [ { AstId := 7, Contract := "src/Vault.sol:Vault".toList, Label := "token".toList
          Offset := 0, Slot := 0, Type_ := "t_contract(ERC20)20".toList } ]
    Types := [ ("t_contract(ERC20)20".toList, plainType "contract ERC20" 20) ] }

/-- A layout with two contracts named `A`, of ids 12 and 1002, and a mapping
from the first to the second: the table maps `t_contract(A)1002` to
`t_contract(A)1001` and `t_contract(A)12` to `t_contract(A)1002`, so the new
type of the second entry is the old type of the first. -/
def chainLayout : StorageLayout :=
  { Storage :=
      [ { AstId := 4, Contract := "src/C.sol:C".toList, Label := "links".toList
          Offset := 0, Slot := 0
          Type_ := "t_mapping(t_contract(A)12,t_contract(A)1002)".toList } ]
    Types :=
      [ ("t_contract(A)1002".toList, plainType "contract A" 20),
        ("t_contract(A)12".toList, plainType "contract A" 20),
        ("t_mapping(t_contract(A)12,t_contract(A)1002)".toList,
          { Encoding := "mapping".toList, Label := "mapping(contract A => contract A)".toList
            NumberOfBytes := 32, Key := "t_contract(A)12".toList
            Value := "t_contract(A)1002".toList, Base := [] }) ] }

/-- The positions of `s` at which `old` occurs. -/
def occurrences (s old : Str) : List Nat :=
  (List.range (s.length + 1)).filter (fun i => old.isPrefixOf (s.drop i))

/-- The old strings of the entries of `t` occur in `s` at pairwise
non-overlapping positions: an occurrence of the old string of one entry and an
occurrence of the old string of another entry have no position in common. -/
def nonOverlapping (t : Table) (s : Str) : Prop :=
  ∀ e₁ ∈ t, ∀ e₂ ∈ t, e₁ ≠ e₂ →
    ∀ i ∈ occurrences s e₁.1, ∀ j ∈ occurrences s e₂.1,
      i + e₁.1.length ≤ j ∨ j + e₂.1.length ≤ i

instance nonOverlappingDecidable (t : Table) (s : Str) : Decidable (nonOverlapping t s) :=
  inferInstanceAs (Decidable (∀ e₁ ∈ t, _))

/-- The rewritten keys of the type map, one for each sorted type key: the
strings under which the loop of lines 111 to 126 writes its entries. -/
def rewrittenKeys (order : RangeOrder) (input : StorageLayout) : List Str :=
  (sortedOldTypes input).enum.map
    (fun e => replaceType (order (.typeKey e.1) (typeRemappings input)) e.2)

/-- The table built for a layout with `n` slots and the type map `types`. -/
def tableFor (n : Nat) (types : List (Str × StorageLayoutType)) : Table :=
  ((sortStrings (mapKeys types)).foldl typeLoopStep
    { lastId := 1000 + n, typeRemappings := [], seenTypes := [] }).typeRemappings

/-- The output type map for a layout with `n` slots and the type map `types`. -/
def typesFor (order : RangeOrder) (n : Nat) (types : List (Str × StorageLayoutType)) :
    List (Str × StorageLayoutType) :=
  outTypes order types (tableFor n types) 0 (sortStrings (mapKeys types)) []

/-- A layout with `n` slots, of `AstId`s `0` to `n - 1`, and two contracts named `A`. -/
def slotsLayout (n : Nat) : StorageLayout :=
  { Storage :=
      (List.range n).map (fun i =>
        { AstId := i, Contract := "src/C.sol:C".toList, Label := "x".toList
          Offset := 0, Slot := i, Type_ := "t_contract(A)1".toList })
    Types :=
      [ ("t_contract(A)1".toList, plainType "contract A (first)" 20),
        ("t_contract(A)2".toList, plainType "contract A (second)" 20) ] }

/-- A layout with 8999 slots and two contracts named `A`: the two contract
types get the ids 9999 and 10000. -/
def manySlotsLayout : StorageLayout :=
  slotsLayout 8999

/-- A non-empty run of word characters. -/
def WordRun (w : Str) : Prop :=
  w ≠ [] ∧ ∀ c ∈ w, isWord c = true

/-- A non-empty run of digits. -/
def DigitRun (d : Str) : Prop :=
  d ≠ [] ∧ ∀ c ∈ d, c.isDigit = true

/-- What capture group 3 of `remapTypeRe` can be: nothing, or an underscore
followed by a non-empty run of word characters. -/
def SuffixShape (g3 : Str) : Prop :=
  g3 = [] ∨ ∃ r, g3 = '_' :: r ∧ WordRun r

/-- Capture group 1 of `remapTypeRe` with the kind `w1` and the name `w2`. -/
def typePrefix (w1 w2 : Str) : Str :=
  't' :: '_' :: (w1 ++ '(' :: (w2 ++ [')']))

/-- Capture group 1 of `remapTypeRe` on `k`, the kind and the name; empty when
`k` does not match. -/
def capturedPrefix (k : Str) : Str :=
  match remapTypeRe k with
  | some groups => groups.1
  | none => []

/-- Capture group 3 of `remapTypeRe` on `k`; empty when `k` does not match or
the group does not take part. -/
def capturedSuffix (k : Str) : Str :=
  match remapTypeRe k with
  | some groups => groups.2.2
  | none => []

/-- The type string `k` with its id replaced by `id`: capture group 1, the
decimal form of `id`, capture group 3. -/
def renumbered (k : Str) (id : Nat) : Str :=
  capturedPrefix k ++ strconvItoa id ++ capturedSuffix k

/-- The first occurrence of the captured digits of `k` in `k` is capture group 2
itself: the digits do not occur earlier, in the kind or the name. -/
def idAtCapture (k : Str) : Prop :=
  stringsIndex k (capturedId k) = some (capturedPrefix k).length

instance idAtCaptureDecidable (k : Str) : Decidable (idAtCapture k) :=
  inferInstanceAs (Decidable (_ = _))

/-- No key of the type map that fails the filters of the first pass contains a
key that passes them: no type string that carries no id of its own embeds the
type string of a type that carries one. -/
def StorageLayout.NoEmbeddedKey (L : StorageLayout) : Prop :=
  ∀ k ∈ mapKeys L.Types, ¬ passesFilters k →
    ∀ f ∈ mapKeys L.Types, passesFilters f → stringsContains k f = false

instance StorageLayout.noEmbeddedKeyDecidable (L : StorageLayout) :
    Decidable L.NoEmbeddedKey :=
  inferInstanceAs (Decidable (∀ k ∈ mapKeys L.Types, _))

/-- In every key of the type map that passes the filters of the first pass the
captured digits first occur at the position of the id. -/
def StorageLayout.IdsAtCapture (L : StorageLayout) : Prop :=
  ∀ f ∈ mapKeys L.Types, passesFilters f → idAtCapture f

instance StorageLayout.idsAtCaptureDecidable (L : StorageLayout) :
    Decidable L.IdsAtCapture :=
  inferInstanceAs (Decidable (∀ f ∈ mapKeys L.Types, _))

/-- The keys that pass the filters of the first pass, each with its id
replaced by the one the first pass gives it: the `j`-th of them gets
`1000 + n + j`, where `n` is the number of slots. -/
def renumberedKeys (input : StorageLayout) : List Str :=
  (List.enumFrom (1000 + input.Storage.length) (filteredKeys input)).map
    (fun e => renumbered e.2 e.1)

/-- A layout with a struct and a pointer to it, a contract, an enum and a
fixed-size array. -/
def mixedLayout : StorageLayout :=
  { Storage :=
      [ { AstId := 31, Contract := "/home/user/optimism/src/Vault.sol:Vault".toList
          Label := "config".toList, Offset := 0, Slot := 0
          Type_ := "t_struct(Config)812_storage".toList },
        { AstId := 35, Contract := "src/Vault.sol:Vault".toList, Label := "token".toList
          Offset := 0, Slot := 2, Type_ := "t_contract(IERC20)77".toList },
        { AstId := 38, Contract := "src/Vault.sol:Vault".toList, Label := "state".toList
          Offset := 20, Slot := 2, Type_ := "t_enum(State)1203".toList },
        { AstId := 41, Contract := "src/Vault.sol:Vault".toList, Label := "gap".toList
          Offset := 0, Slot := 3, Type_ := "t_array(t_uint256)10_storage".toList } ]
    Types :=
      [ ("t_struct(Config)812_storage".toList, plainType "struct Config" 64),
        ("t_struct(Config)812_storage_ptr".toList, plainType "struct Config" 32),
        ("t_enum(State)1203".toList, plainType "enum State" 1),
        ("t_contract(IERC20)77".toList, plainType "contract IERC20" 20),
        ("t_array(t_uint256)10_storage".toList,
          { Encoding := "inplace".toList, Label := "uint256[10]".toList
            NumberOfBytes := 320, Key := [], Value := [], Base := "t_uint256".toList }),
        ("t_uint256".toList, plainType "uint256" 32) ] }

/-- A layout with two contracts of id 7 whose names contain the digit 7: the
digits of the id first occur in the name. -/
def idInNameLayout : StorageLayout :=
  { Storage :=
      [ { AstId := 2, Contract := "src/C.sol:C".toList, Label := "a".toList
          Offset := 0, Slot := 0, Type_ := "t_contract(A10027)7".toList } ]
    Types :=
      [ ("t_contract(A10027)7".toList, plainType "contract A10027" 20),
        ("t_contract(A71001)7".toList, plainType "contract A71001" 20) ] }

/-! ## The models of the regular expressions and of `filepath.Clean` on examples -/

/-- The capture groups of `remapTypeRe` on type strings of each shape. -/
theorem remapTypeRe_examples :
    remapTypeRe "t_struct(Foo)500_storage".toList
        = some ("t_struct(Foo)".toList, "500".toList, "_storage".toList) ∧
      remapTypeRe "t_contract(A)12".toList = some ("t_contract(A)".toList, "12".toList, []) ∧
      remapTypeRe "t_array(t_uint256)10_storage".toList
        = some ("t_array(t_uint256)".toList, "10".toList, "_storage".toList) ∧
      remapTypeRe "t_mapping(t_address,t_contract(A)123)".toList = none ∧
      remapTypeRe "t_array(t_contract(A)12)dyn_storage".toList = none ∧
      remapTypeRe "t_contract(A)12_".toList = none ∧
      remapTypeRe "t_uint256".toList = none := by
  refine ⟨?_, ?_, ?_, ?_, ?_, ?_, ?_⟩ <;> decide

/-- The strings in which `remapAstIdStorage` finds a match. -/
theorem remapAstIdStorage_examples :
    remapAstIdStorage "t_struct(Foo)500_storage".toList = true ∧
      remapAstIdStorage "t_array(t_struct(Foo)500_storage)dyn_storage".toList = true ∧
      remapAstIdStorage "t_userDefinedValueType(Id)77_storage".toList = true ∧
      remapAstIdStorage "t_array(t_uint256)10_storage".toList = false ∧
      remapAstIdStorage "t_array(t_contract(A)12)dyn_storage".toList = false ∧
      remapAstIdStorage "t_struct(Foo)_storage".toList = false := by
  decide

/-- The model of `filepath.Clean` on cases of the Go documentation and tests. -/
theorem filepathClean_examples :
    filepathClean "abc//def//ghi".toList = "abc/def/ghi".toList ∧
      filepathClean "abc/./def".toList = "abc/def".toList ∧
      filepathClean "abc/def/../ghi/../jkl".toList = "abc/jkl".toList ∧
      filepathClean "abc/../../././../def".toList = "../../def".toList ∧
      filepathClean "/../abc".toList = "/abc".toList ∧
      filepathClean "abc/def/".toList = "abc/def".toList ∧
      filepathClean "abc/..".toList = ".".toList ∧
      filepathClean "/".toList = "/".toList ∧
      filepathClean "".toList = ".".toList := by
  decide

/-! ## Substring search -/

theorem stringsIndex_eq_some {s sub : Str} {j : Nat} (h : stringsIndex s sub = some j) :
    j ≤ s.length ∧ s = s.take j ++ sub ++ s.drop (j + sub.length) ∧
      ∀ a b, s = a ++ sub ++ b → j ≤ a.length := by
  induction s generalizing j with
  | nil =>
    unfold stringsIndex at h
    split at h
    · next hs =>
      cases h
      subst hs
      simp
    · cases h
  | cons c s ih =>
    unfold stringsIndex at h
    split at h
    · next hp =>
      cases h
      obtain ⟨t, ht⟩ := List.isPrefixOf_iff_prefix.mp hp
      refine ⟨Nat.zero_le _, ?_, fun _ _ _ => Nat.zero_le _⟩
      rw [← ht]
      simp
    · next hp =>
      cases hj : stringsIndex s sub with
      | none => rw [hj] at h; cases h
      | some j' =>
        rw [hj] at h
        cases h
        obtain ⟨h1, h2, h3⟩ := ih hj
        refine ⟨by simpa using h1, ?_, ?_⟩
        · have : j' + 1 + sub.length = (j' + sub.length) + 1 := by omega
          rw [this, List.take_succ_cons, List.drop_succ_cons]
          simpa using h2
        · intro a b hab
          cases a with
          | nil =>
            exfalso
            apply hp
            rw [List.isPrefixOf_iff_prefix]
            exact ⟨b, by simpa using hab.symm⟩
          | cons x a =>
            simp only [List.cons_append, List.cons.injEq] at hab
            have := h3 a b (by simpa using hab.2)
            simpa using this

theorem stringsIndex_eq_none {s sub : Str} (h : stringsIndex s sub = none) (a b : Str) :
    s ≠ a ++ sub ++ b := by
  induction s generalizing a with
  | nil =>
    unfold stringsIndex at h
    split at h
    · cases h
    · next hs =>
      intro hab
      apply hs
      have := congrArg List.length hab
      simp at this
      exact List.eq_nil_of_length_eq_zero (by omega)
  | cons c s ih =>
    unfold stringsIndex at h
    split at h
    · cases h
    · next hp =>
      cases hj : stringsIndex s sub with
      | some j' => rw [hj] at h; cases h
      | none =>
        intro hab
        cases a with
        | nil =>
          apply hp
          rw [List.isPrefixOf_iff_prefix]
          exact ⟨b, by simpa using hab.symm⟩
        | cons x a =>
          simp only [List.cons_append, List.cons.injEq] at hab
          exact ih hj a (by simpa using hab.2)

theorem stringsContains_iff {s sub : Str} :
    stringsContains s sub = true ↔ ∃ a b, s = a ++ sub ++ b := by
  unfold stringsContains
  constructor
  · intro h
    cases hj : stringsIndex s sub with
    | none => rw [hj] at h; cases h
    | some j => exact ⟨_, _, (stringsIndex_eq_some hj).2.1⟩
  · rintro ⟨a, b, hab⟩
    cases hj : stringsIndex s sub with
    | none => exact absurd hab (stringsIndex_eq_none hj a b)
    | some j => rfl

/-! ## Maps and the slot loop -/

theorem mapGet_mapSet {κ ν : Type} [DecidableEq κ] (m : List (κ × ν)) (k k' : κ) (v z : ν) :
    mapGet (mapSet m k v) k' z = if k = k' then v else mapGet m k' z := by
  induction m with
  | nil => simp [mapSet, mapGet]
  | cons e rest ih =>
    obtain ⟨a, b⟩ := e
    by_cases hak : a = k
    · subst hak
      by_cases hk : a = k' <;> simp [mapSet, mapGet, hk]
    · by_cases hk : k = k'
      · subst hk
        simp [mapSet, mapGet, hak, ih]
      · by_cases hak' : a = k'
        · subst hak'
          simp [mapSet, mapGet, hak, hk]
        · simp [mapSet, mapGet, hak, hak', hk, ih]

theorem assignSlotIds_lastId (l : List StorageLayoutEntry) (m : List (Nat × Nat)) (b : Nat) :
    (assignSlotIds l m b).2 = b + l.length := by
  induction l generalizing m b with
  | nil => simp [assignSlotIds]
  | cons slot rest ih =>
    simp only [assignSlotIds, ih, List.length_cons]
    omega

theorem mapGet_assignSlotIds_of_not_mem (l : List StorageLayoutEntry) (m : List (Nat × Nat))
    (b a z : Nat) (ha : a ∉ l.map (fun slot => slot.AstId)) :
    mapGet (assignSlotIds l m b).1 a z = mapGet m a z := by
  induction l generalizing m b with
  | nil => simp [assignSlotIds]
  | cons slot rest ih =>
    simp only [List.map_cons, List.mem_cons, not_or] at ha
    simp only [assignSlotIds]
    rw [ih _ _ ha.2, mapGet_mapSet, if_neg (fun h => ha.1 h.symm)]

theorem mapGet_assignSlotIds_getElem (l : List StorageLayoutEntry) (m : List (Nat × Nat))
    (b z : Nat) (hd : (l.map (fun slot => slot.AstId)).Nodup) (i : Nat) (hi : i < l.length) :
    mapGet (assignSlotIds l m b).1 l[i].AstId z = b + i := by
  induction l generalizing m b i with
  | nil => simp at hi
  | cons slot rest ih =>
    simp only [List.map_cons, List.nodup_cons] at hd
    simp only [assignSlotIds]
    cases i with
    | zero =>
      simp only [List.getElem_cons_zero]
      rw [mapGet_assignSlotIds_of_not_mem _ _ _ _ _ hd.1, mapGet_mapSet]
      simp
    | succ i =>
      simp only [List.getElem_cons_succ]
      rw [ih _ _ hd.2 i (by simpa using hi)]
      omega

theorem mapGet_assignSlotIds_bounds (l : List StorageLayoutEntry) (m : List (Nat × Nat))
    (b a z : Nat) (ha : a ∈ l.map (fun slot => slot.AstId)) :
    b ≤ mapGet (assignSlotIds l m b).1 a z ∧ mapGet (assignSlotIds l m b).1 a z < b + l.length := by
  induction l generalizing m b with
  | nil => simp at ha
  | cons slot rest ih =>
    simp only [assignSlotIds, List.length_cons]
    by_cases hr : a ∈ rest.map (fun slot => slot.AstId)
    · have := ih (mapSet m slot.AstId b) (b + 1) hr
      omega
    · simp only [List.map_cons, List.mem_cons] at ha
      have hs : a = slot.AstId := ha.resolve_right hr
      rw [mapGet_assignSlotIds_of_not_mem _ _ _ _ _ hr, mapGet_mapSet, if_pos hs.symm]
      omega

theorem outSlots_getElem? (order : RangeOrder) (ids : List (Nat × Nat)) (table : Table)
    (i : Nat) (l : List StorageLayoutEntry) (k : Nat) :
    (outSlots order ids table i l)[k]? = (l[k]?).map (outSlot order ids table (i + k)) := by
  induction l generalizing i k with
  | nil => simp [outSlots]
  | cons slot rest ih =>
    cases k with
    | zero => simp [outSlots]
    | succ k =>
      simp only [outSlots, List.getElem?_cons_succ, ih]
      have : i + 1 + k = i + (k + 1) := by omega
      rw [this]

theorem outSlots_length (order : RangeOrder) (ids : List (Nat × Nat)) (table : Table)
    (i : Nat) (l : List StorageLayoutEntry) :
    (outSlots order ids table i l).length = l.length := by
  induction l generalizing i with
  | nil => simp [outSlots]
  | cons slot rest ih => simp [outSlots, ih]

theorem outSlots_ids (order : RangeOrder) (ids : List (Nat × Nat)) (table : Table)
    (i : Nat) (l : List StorageLayoutEntry) :
    (outSlots order ids table i l).map (fun slot => slot.AstId)
      = l.map (fun slot => mapGet ids slot.AstId 0) := by
  induction l generalizing i with
  | nil => simp [outSlots]
  | cons slot rest ih => simp [outSlots, outSlot, ih]

/-- With pairwise distinct input ids the output ids are `1000, 1001, ...`. -/
theorem slotIds_canonicalize (order : RangeOrder) (input : StorageLayout)
    (hd : input.slotIds.Nodup) :
    (CanonicalizeASTIDs order input).slotIds = List.range' 1000 input.Storage.length := by
  unfold StorageLayout.slotIds CanonicalizeASTIDs
  simp only [outSlots_ids]
  apply List.ext_getElem
  · simp
  · intro i h1 h2
    simp only [List.getElem_map, List.getElem_range']
    unfold astIDRemappings
    rw [mapGet_assignSlotIds_getElem _ _ _ _ hd]
    omega

/-! ## Paths -/

theorem slicesIndex_eq_none {l : List Str} {x : Str} (h : x ∉ l) : slicesIndex l x = none := by
  induction l with
  | nil => rfl
  | cons e es ih =>
    simp only [List.mem_cons, not_or] at h
    simp [slicesIndex, Ne.symm h.1, ih h.2]

theorem slicesIndex_first (a b : List Str) (x : Str) (h : x ∉ a) :
    slicesIndex (a ++ x :: b) x = some a.length := by
  induction a with
  | nil => simp [slicesIndex]
  | cons e es ih =>
    simp only [List.mem_cons, not_or] at h
    simp [slicesIndex, Ne.symm h.1, ih h.2]

theorem splitOnP_no_sep (p : Char → Bool) (xs : Str) :
    ∀ e ∈ xs.splitOnP p, ∀ c ∈ e, p c = false := by
  induction xs with
  | nil => simp
  | cons x xs ih =>
    rw [List.splitOnP_cons]
    by_cases hx : p x = true
    · rw [if_pos hx]
      intro e he
      rcases List.mem_cons.mp he with rfl | he
      · simp
      · exact ih e he
    · rw [if_neg hx]
      cases hs : xs.splitOnP p with
      | nil => simp
      | cons hd tl =>
        rw [hs] at ih
        intro e he
        simp only [List.modifyHead_cons, List.mem_cons] at he
        rcases he with rfl | he
        · intro c hc
          rcases List.mem_cons.mp hc with rfl | hc
          · simpa using hx
          · exact ih hd (List.mem_cons_self _ _) c hc
        · exact ih e (List.mem_cons_of_mem _ he)

theorem stringsSplit_no_slash (s : Str) : ∀ e ∈ stringsSplit s, '/' ∉ e := by
  intro e he hc
  have := splitOnP_no_sep (fun x => x == '/') s e he '/' hc
  simp at this

theorem cleanElems_real (rooted : Bool) (out es : List Str) (h : ∀ e ∈ es, realElem e) :
    cleanElems rooted out es = out.reverse ++ es := by
  induction es generalizing out with
  | nil => simp [cleanElems]
  | cons e es ih =>
    obtain ⟨h1, h2, h3⟩ := h e (List.mem_cons_self _ _)
    have h12 : ¬ (e = [] ∨ e = ['.']) := by simp [h1, h2]
    simp only [cleanElems, if_neg h12, if_neg h3]
    rw [ih _ (fun x hx => h x (List.mem_cons_of_mem _ hx))]
    simp

theorem stringsJoin_cons_cons (e e' : Str) (es : List Str) :
    stringsJoin (e :: e' :: es) = e ++ '/' :: stringsJoin (e' :: es) := by
  simp [stringsJoin, List.intercalate, List.intersperse]

theorem stringsJoin_head (e : Str) (es : List Str) (c : Char) (r : Str) (he : e = c :: r) :
    ∃ t, stringsJoin (e :: es) = c :: t := by
  subst he
  cases es with
  | nil => exact ⟨r, by simp [stringsJoin, List.intercalate]⟩
  | cons e' es => exact ⟨_, by rw [stringsJoin_cons_cons]; rfl⟩

theorem filepathJoin_real (es : List Str) (h : ∀ e ∈ es, realElem e) (hs : ∀ e ∈ es, '/' ∉ e) :
    filepathJoin es = stringsJoin es := by
  cases es with
  | nil => rfl
  | cons e es =>
    have he := (h e (List.mem_cons_self _ _)).1
    obtain ⟨c, r, hcr⟩ := List.exists_cons_of_ne_nil he
    have hc : c ≠ '/' := by
      rintro rfl
      exact hs e (List.mem_cons_self _ _) (by simp [hcr])
    obtain ⟨t, ht⟩ := stringsJoin_head e es c r hcr
    have hdw : (e :: es).dropWhile (fun e => decide (e = [])) = e :: es := by
      simp [List.dropWhile, he]
    unfold filepathJoin
    rw [hdw]
    simp only
    unfold filepathClean
    have hsplit : stringsSplit (stringsJoin (e :: es)) = e :: es :=
      List.splitOn_intercalate _ '/' hs (by simp)
    have habs : filepathIsAbs (stringsJoin (e :: es)) = false := by
      rw [ht]
      unfold filepathIsAbs
      split
      · next heq => simp at heq; exact absurd heq.1 hc
      · rfl
    rw [if_neg (by rw [ht]; simp), hsplit, habs]
    simp only [cleanElems_real _ _ _ h]
    simp [ht]

theorem canonicalize_storage_getElem? (order : RangeOrder) (input : StorageLayout) (i : Nat) :
    (CanonicalizeASTIDs order input).Storage[i]?
      = (input.Storage[i]?).map
          (outSlot order (astIDRemappings input) (typeRemappings input) i) := by
  unfold CanonicalizeASTIDs
  simp only [outSlots_getElem?, Nat.zero_add]

theorem normalizeContract_unchanged (contract : Str)
    (h : filepathIsAbs contract = false ∨ "optimism".toList ∉ stringsSplit contract) :
    normalizeContract contract = contract := by
  unfold normalizeContract
  rcases h with h | h
  · simp [h]
  · simp only [slicesIndex_eq_none h]
    split <;> rfl

theorem normalizeContract_marked (contract : Str) (before after : List Str)
    (habs : filepathIsAbs contract = true)
    (hsplit : stringsSplit contract = before ++ "optimism".toList :: after)
    (hfirst : "optimism".toList ∉ before) (hreal : ∀ e ∈ after, realElem e) :
    normalizeContract contract = stringsJoin after := by
  unfold normalizeContract
  rw [if_pos habs]
  simp only [hsplit, slicesIndex_first _ _ _ hfirst]
  have hdrop : (before ++ "optimism".toList :: after).drop (before.length + 1) = after := by
    rw [show before ++ "optimism".toList :: after = (before ++ ["optimism".toList]) ++ after by simp]
    exact List.drop_left' (by simp)
  rw [hdrop]
  apply filepathJoin_real _ hreal
  intro e he
  apply stringsSplit_no_slash contract
  rw [hsplit]
  simp [he]

/-! ## The table and `replaceType` -/

theorem RangeOrder.asBuilt_valid : RangeOrder.asBuilt.Valid :=
  fun _ t => List.Perm.refl t

theorem RangeOrder.reversed_valid : RangeOrder.reversed.Valid :=
  fun _ t => List.reverse_perm t

theorem RangeOrder.slotsReversed_valid : RangeOrder.slotsReversed.Valid := by
  intro site t
  cases site <;> first | exact List.reverse_perm t | exact List.Perm.refl t

theorem mapKeys_mapSet {κ ν : Type} [DecidableEq κ] (m : List (κ × ν)) (k : κ) (v : ν)
    (x : κ) (hx : x ∈ mapKeys (mapSet m k v)) : x = k ∨ x ∈ mapKeys m := by
  induction m with
  | nil =>
    simp only [mapSet, mapKeys, List.map_cons, List.map_nil, List.mem_singleton] at hx
    exact Or.inl hx
  | cons e rest ih =>
    obtain ⟨a, b⟩ := e
    unfold mapSet at hx
    split at hx
    · next hak =>
      simp only [mapKeys, List.map_cons, List.mem_cons] at hx ⊢
      rcases hx with hx | hx
      · exact Or.inl hx
      · exact Or.inr (Or.inr hx)
    · next hak =>
      simp only [mapKeys, List.map_cons, List.mem_cons] at hx ⊢
      rcases hx with hx | hx
      · exact Or.inr (Or.inl hx)
      · rcases ih hx with h | h
        · exact Or.inl h
        · exact Or.inr (Or.inr h)

theorem mapGet_of_not_mem {κ ν : Type} [DecidableEq κ] (m : List (κ × ν)) (k : κ) (z : ν)
    (hk : k ∉ mapKeys m) : mapGet m k z = z := by
  induction m with
  | nil => rfl
  | cons e rest ih =>
    obtain ⟨a, b⟩ := e
    simp only [mapKeys, List.map_cons, List.mem_cons, not_or] at hk
    simp only [mapGet, if_neg (Ne.symm hk.1)]
    exact ih hk.2

theorem typeLoopStep_keys (st : TypeLoopState) (oldType : Str)
    (h : ∀ k ∈ mapKeys st.typeRemappings, passesFilters k) :
    ∀ k ∈ mapKeys (typeLoopStep st oldType).typeRemappings, passesFilters k := by
  unfold typeLoopStep
  split
  · exact h
  · next hseen =>
    split
    · exact h
    · next groups hm =>
      dsimp only
      split
      · exact h
      · next hskip =>
        intro k hk
        rcases mapKeys_mapSet _ _ _ _ hk with rfl | hk
        · refine ⟨fun he => hseen (Or.inr he), by simp [hm], ?_⟩
          rintro ⟨h1, h2⟩
          exact hskip (by rw [h1, h2]; rfl)
        · exact h k hk

theorem foldl_typeLoopStep_keys (l : List Str) (st : TypeLoopState)
    (h : ∀ k ∈ mapKeys st.typeRemappings, passesFilters k) :
    ∀ k ∈ mapKeys (l.foldl typeLoopStep st).typeRemappings, passesFilters k := by
  induction l generalizing st with
  | nil => exact h
  | cons a l ih => exact ih _ (typeLoopStep_keys st a h)

/-- Every key of the table passed the filters of the first pass. -/
theorem typeRemappings_keys (input : StorageLayout) :
    ∀ k ∈ mapKeys (typeRemappings input), passesFilters k := by
  unfold typeRemappings typeLoop
  apply foldl_typeLoopStep_keys
  intro k hk
  simp [mapKeys] at hk

theorem stringsContains_self (s : Str) : stringsContains s s = true :=
  stringsContains_iff.mpr ⟨[], [], by simp⟩

/-- When no old type of the table occurs in `s`, `replaceType` returns `s`. -/
theorem replaceType_of_no_match (t : Table) (s : Str)
    (h : ∀ old ∈ mapKeys t, stringsContains s old = false) : replaceType t s = s := by
  have hk : s ∉ mapKeys t := by
    intro hs
    have := h s hs
    rw [stringsContains_self] at this
    cases this
  have hnone : collectMatches t s = [] := by
    unfold collectMatches
    rw [List.map_eq_nil_iff, List.filter_eq_nil_iff]
    intro e he
    have := h e.1 (List.mem_map_of_mem _ he)
    simp [this]
  unfold replaceType
  simp only [mapGet_of_not_mem t s [] hk, hnone]
  simp [applyMatches]

theorem mapKeys_sortedSet {ν : Type} (m : List (Str × ν)) (k : Str) (v : ν) (x : Str) :
    x ∈ mapKeys (sortedSet m k v) ↔ x = k ∨ x ∈ mapKeys m := by
  induction m with
  | nil => simp [sortedSet, mapKeys]
  | cons e rest ih =>
    obtain ⟨a, b⟩ := e
    unfold sortedSet
    split
    · next hak =>
      subst hak
      simp only [mapKeys, List.map_cons, List.mem_cons]
      tauto
    · split
      · simp only [mapKeys, List.map_cons, List.mem_cons]
      · simp only [mapKeys, List.map_cons, List.mem_cons] at ih ⊢
        rw [ih]
        tauto

/-- The keys of the output type map: those already written and the rewritten
key of every remaining sorted type key. -/
theorem mapKeys_outTypes (order : RangeOrder) (types : List (Str × StorageLayoutType))
    (table : Table) (j : Nat) (rest : List Str) (out : List (Str × StorageLayoutType))
    (x : Str) :
    x ∈ mapKeys (outTypes order types table j rest out) ↔
      x ∈ mapKeys out ∨
        ∃ n oldType, rest[n]? = some oldType ∧
          x = replaceType (order (.typeKey (j + n)) table) oldType := by
  induction rest generalizing j out with
  | nil => simp [outTypes]
  | cons a rest ih =>
    simp only [outTypes]
    rw [ih, mapKeys_sortedSet]
    constructor
    · rintro (⟨h | h⟩ | ⟨n, old, hn, hx⟩)
      · exact Or.inr ⟨0, a, by simp, by simpa [outType] using h⟩
      · exact Or.inl h
      · refine Or.inr ⟨n + 1, old, by simpa using hn, ?_⟩
        rw [hx]
        congr 3
        omega
    · rintro (h | ⟨n, old, hn, hx⟩)
      · exact Or.inl (Or.inr h)
      · cases n with
        | zero =>
          simp only [List.getElem?_cons_zero, Option.some.injEq] at hn
          subst hn
          exact Or.inl (Or.inl (by simpa [outType] using hx))
        | succ n =>
          refine Or.inr ⟨n, old, by simpa using hn, ?_⟩
          rw [hx]
          congr 3
          omega

theorem mem_sortedOldTypes (input : StorageLayout) (k : Str) :
    k ∈ sortedOldTypes input ↔ k ∈ mapKeys input.Types := by
  unfold sortedOldTypes sortStrings
  exact (List.perm_insertionSort strLe _).mem_iff

/-! ## The order of strings and sorting -/

theorem strLt_irrefl (a : Str) : strLt a a = false := by
  induction a with
  | nil => rfl
  | cons c a ih => simp [strLt, ih]

theorem strLt_asymm {a b : Str} (h : strLt a b = true) : strLt b a = false := by
  induction a generalizing b with
  | nil => cases b <;> simp [strLt] at h ⊢
  | cons c a ih =>
    cases b with
    | nil => simp [strLt] at h
    | cons d b =>
      simp only [strLt] at h ⊢
      by_cases h1 : c.toNat < d.toNat
      · have h2 : ¬ d.toNat < c.toNat := by omega
        simp [h1, h2]
      · by_cases h2 : d.toNat < c.toNat
        · simp [h1, h2] at h
        · simp only [h1, h2, if_false] at h ⊢
          exact ih h

theorem strLt_trans {a b c : Str} (hab : strLt a b = true) (hbc : strLt b c = true) :
    strLt a c = true := by
  induction a generalizing b c with
  | nil =>
    cases c with
    | nil => cases b <;> simp [strLt] at hbc
    | cons z c => rfl
  | cons x a ih =>
    cases b with
    | nil => simp [strLt] at hab
    | cons y b =>
      cases c with
      | nil => simp [strLt] at hbc
      | cons z c =>
        simp only [strLt] at hab hbc ⊢
        by_cases h1 : x.toNat < y.toNat
        · by_cases h2 : y.toNat < z.toNat
          · have : x.toNat < z.toNat := by omega
            simp [this]
          · by_cases h3 : z.toNat < y.toNat
            · simp [h2, h3] at hbc
            · have : x.toNat < z.toNat := by omega
              simp [this]
        · by_cases h1' : y.toNat < x.toNat
          · simp [h1, h1'] at hab
          · simp only [h1, h1', if_false] at hab
            by_cases h2 : y.toNat < z.toNat
            · have : x.toNat < z.toNat := by omega
              simp [this]
            · by_cases h3 : z.toNat < y.toNat
              · simp [h2, h3] at hbc
              · simp only [h2, h3, if_false] at hbc
                have e1 : ¬ x.toNat < z.toNat := by omega
                have e2 : ¬ z.toNat < x.toNat := by omega
                simp only [e1, e2, if_false]
                exact ih hab hbc

theorem charToNat_inj {x y : Char} (h : x.toNat = y.toNat) : x = y := by
  apply Char.ext
  apply UInt32.ext
  exact h

/-- Two strings neither of which is below the other are equal. -/
theorem strLt_connex {a b : Str} (hab : strLt a b = false) (hba : strLt b a = false) :
    a = b := by
  induction a generalizing b with
  | nil => cases b <;> simp [strLt] at hab ⊢
  | cons x a ih =>
    cases b with
    | nil => simp [strLt] at hba
    | cons y b =>
      simp only [strLt] at hab hba
      by_cases h1 : x.toNat < y.toNat
      · simp [h1] at hab
      · by_cases h2 : y.toNat < x.toNat
        · simp [h2] at hba
        · simp only [h1, h2, if_false] at hab hba
          have hxy : x = y := charToNat_inj (by omega)
          rw [hxy, ih hab hba]

instance strLe_isTotal : IsTotal Str strLe :=
  ⟨fun a b => by
    unfold strLe
    cases h : strLt b a with
    | false => exact Or.inl rfl
    | true => exact Or.inr (strLt_asymm h)⟩

instance strLe_isTrans : IsTrans Str strLe :=
  ⟨fun a b c hab hbc => by
    unfold strLe at *
    cases h : strLt c a with
    | false => rfl
    | true =>
      cases h2 : strLt a b with
      | true => rw [strLt_trans h h2] at hbc; cases hbc
      | false =>
        have := strLt_connex h2 hab
        subst this
        rw [h] at hbc
        cases hbc⟩

instance strLe_isAntisymm : IsAntisymm Str strLe :=
  ⟨fun _ _ hab hba => strLt_connex hba hab⟩

theorem sortStrings_sorted (l : List Str) : (sortStrings l).Sorted strLe :=
  List.sorted_insertionSort strLe l

theorem sortStrings_perm (l : List Str) : (sortStrings l).Perm l :=
  List.perm_insertionSort strLe l

/-- Sorting gives the same list for every enumeration of the same strings. -/
theorem sortStrings_eq_of_perm {l₁ l₂ : List Str} (h : l₁.Perm l₂) :
    sortStrings l₁ = sortStrings l₂ :=
  List.eq_of_perm_of_sorted
    (((sortStrings_perm l₁).trans h).trans (sortStrings_perm l₂).symm)
    (sortStrings_sorted l₁) (sortStrings_sorted l₂)

/-- A sorted list of distinct strings is strictly increasing. -/
theorem sorted_strLt_of_nodup {l : List Str} (hs : l.Sorted strLe) (hn : l.Nodup) :
    l.Pairwise (fun a b => strLt a b = true) := by
  induction l with
  | nil => exact List.Pairwise.nil
  | cons a l ih =>
    rw [List.sorted_cons] at hs
    rw [List.nodup_cons] at hn
    refine List.Pairwise.cons ?_ (ih hs.2 hn.2)
    intro b hb
    cases h : strLt a b with
    | true => rfl
    | false =>
      have := strLt_connex h (hs.1 b hb)
      subst this
      exact absurd hb hn.1

/-! ## The first pass -/

theorem typeLoop_eq (input : StorageLayout) :
    typeLoop input = (sortedOldTypes input).foldl typeLoopStep
      { lastId := 1000 + input.Storage.length, typeRemappings := [], seenTypes := [] } := by
  unfold typeLoop
  rw [assignSlotIds_lastId]

theorem mapSet_of_not_mem {κ ν : Type} [DecidableEq κ] (m : List (κ × ν)) (k : κ) (v : ν)
    (hk : k ∉ mapKeys m) : mapSet m k v = m ++ [(k, v)] := by
  induction m with
  | nil => rfl
  | cons e rest ih =>
    obtain ⟨a, b⟩ := e
    simp only [mapKeys, List.map_cons, List.mem_cons, not_or] at hk
    simp only [mapSet, if_neg (Ne.symm hk.1), List.cons_append]
    rw [ih hk.2]

/-- One iteration of the loop on a key that was not seen before: the key
enters the table exactly when it passes the filters. -/
theorem typeLoopStep_eq (st : TypeLoopState) (a : Str) (hseen : a ∉ st.seenTypes) :
    typeLoopStep st a =
      if passesFilters a then
        { lastId := st.lastId + 1
          typeRemappings := mapSet st.typeRemappings a
            (stringsReplace1 a (capturedId a) (strconvItoa st.lastId))
          seenTypes := a :: st.seenTypes }
      else st := by
  unfold typeLoopStep
  by_cases he : a = []
  · have hp : ¬ passesFilters a := fun h => h.1 he
    rw [if_pos (Or.inr he), if_neg hp]
  · rw [if_neg (by simp [hseen, he])]
    cases hm : remapTypeRe a with
    | none =>
      have hp : ¬ passesFilters a := fun h => by simpa [hm] using h.2.1
      rw [if_neg hp]
    | some groups =>
      have hcap : capturedId a = groups.2.1 := by simp [capturedId, hm]
      dsimp only
      by_cases hst : stringsContains a "storage".toList = true
      · by_cases hr : remapAstIdStorage a = true
        · have hp : passesFilters a := ⟨he, by simp [hm], by rw [hr]; simp⟩
          rw [if_neg (by rw [hst, hr]; simp), if_pos hp, hcap]
        · have hr' : remapAstIdStorage a = false := by simpa using hr
          have hp : ¬ passesFilters a := fun h => h.2.2 ⟨hst, hr'⟩
          rw [if_pos (by rw [hst, hr']; rfl), if_neg hp]
      · have hst' : stringsContains a "storage".toList = false := by simpa using hst
        have hp : passesFilters a := ⟨he, by simp [hm], fun h => hst h.1⟩
        rw [if_neg (by rw [hst']; simp), if_pos hp, hcap]

/-- The loop over distinct keys none of which was seen or is in the table:
the keys that pass the filters are appended to the table in order, each with
the next value of the counter. -/
theorem foldl_typeLoopStep_eq (l : List Str) (st : TypeLoopState) (hnd : l.Nodup)
    (hseen : ∀ k ∈ l, k ∉ st.seenTypes) (hkeys : ∀ k ∈ l, k ∉ mapKeys st.typeRemappings) :
    (l.foldl typeLoopStep st).typeRemappings =
      st.typeRemappings ++
        (List.enumFrom st.lastId (l.filter (fun k => decide (passesFilters k)))).map
          (fun e => (e.2, stringsReplace1 e.2 (capturedId e.2) (strconvItoa e.1))) := by
  induction l generalizing st with
  | nil => simp
  | cons a l ih =>
    rw [List.nodup_cons] at hnd
    have ha : a ∉ st.seenTypes := hseen a (List.mem_cons_self _ _)
    have hak : a ∉ mapKeys st.typeRemappings := hkeys a (List.mem_cons_self _ _)
    rw [List.foldl_cons, typeLoopStep_eq st a ha]
    by_cases hp : passesFilters a
    · rw [if_pos hp, ih _ hnd.2]
      · simp only [List.filter_cons, hp, decide_True, if_true, List.enumFrom_cons, List.map_cons]
        rw [mapSet_of_not_mem _ _ _ hak]
        simp
      · intro k hk hmem
        rcases List.mem_cons.mp hmem with h | h
        · exact hnd.1 (h ▸ hk)
        · exact hseen k (List.mem_cons_of_mem _ hk) h
      · intro k hk hmem
        rcases mapKeys_mapSet _ _ _ _ hmem with h | h
        · exact hnd.1 (h ▸ hk)
        · exact hkeys k (List.mem_cons_of_mem _ hk) h
    · rw [if_neg hp, ih _ hnd.2 (fun k hk => hseen k (List.mem_cons_of_mem _ hk))
        (fun k hk => hkeys k (List.mem_cons_of_mem _ hk))]
      simp [List.filter_cons, hp]

theorem sortedOldTypes_nodup (input : StorageLayout) (hnd : (mapKeys input.Types).Nodup) :
    (sortedOldTypes input).Nodup :=
  (sortStrings_perm _).nodup_iff.mpr hnd

/-- For a type map with distinct keys the table is the one the specification describes. -/
theorem typeRemappings_eq_expected (input : StorageLayout)
    (hnd : (mapKeys input.Types).Nodup) : typeRemappings input = expectedTable input := by
  unfold typeRemappings expectedTable filteredKeys
  rw [typeLoop_eq, foldl_typeLoopStep_eq _ _ (sortedOldTypes_nodup input hnd)]
  · simp
  · simp
  · simp [mapKeys]

/-! ## Lookups -/

theorem mapGet_of_mem {κ ν : Type} [DecidableEq κ] (m : List (κ × ν)) (k : κ) (v z : ν)
    (hnd : (mapKeys m).Nodup) (hmem : (k, v) ∈ m) : mapGet m k z = v := by
  induction m with
  | nil => cases hmem
  | cons e rest ih =>
    obtain ⟨a, b⟩ := e
    simp only [mapKeys, List.map_cons, List.nodup_cons] at hnd
    rcases List.mem_cons.mp hmem with h | h
    · cases h
      simp [mapGet]
    · have hak : a ≠ k := by
        rintro rfl
        exact hnd.1 (List.mem_map_of_mem Prod.fst h)
      simp only [mapGet, if_neg hak]
      exact ih hnd.2 h

theorem mapFind_sortedSet {ν : Type} (m : List (Str × ν)) (k : Str) (v : ν) (x : Str) :
    mapFind (sortedSet m k v) x = if k = x then some v else mapFind m x := by
  induction m with
  | nil => simp [sortedSet, mapFind]
  | cons e rest ih =>
    obtain ⟨a, b⟩ := e
    unfold sortedSet
    by_cases hak : a = k
    · subst hak
      by_cases hx : a = x <;> simp [mapFind, hx]
    · rw [if_neg hak]
      by_cases hlt : strLt k a = true
      · rw [if_pos hlt]
        by_cases hx : k = x <;> simp [mapFind, hx]
      · rw [if_neg hlt]
        by_cases hx : k = x
        · subst hx
          simp [mapFind, hak, ih]
        · by_cases hax : a = x
          · subst hax
            simp [mapFind, hx]
          · simp [mapFind, hax, hx, ih]

/-- A key that none of the remaining type keys is rewritten to keeps what the
output type map held for it. -/
theorem mapFind_outTypes_of_not_written (order : RangeOrder)
    (types : List (Str × StorageLayoutType)) (table : Table) (j : Nat) (rest : List Str)
    (out : List (Str × StorageLayoutType)) (x : Str)
    (h : ∀ n k, rest[n]? = some k → (outType order types table (j + n) k).1 ≠ x) :
    mapFind (outTypes order types table j rest out) x = mapFind out x := by
  induction rest generalizing j out with
  | nil => rfl
  | cons a rest ih =>
    simp only [outTypes]
    rw [ih, mapFind_sortedSet, if_neg]
    · simpa using h 0 a (by simp)
    · intro n k hn
      have := h (n + 1) k (by simpa using hn)
      rwa [show j + (n + 1) = j + 1 + n by omega] at this

/-- The entry written for a type key is the one the output type map holds
under its rewritten key, when no later type key is rewritten to the same key. -/
theorem mapFind_outTypes_of_last (order : RangeOrder)
    (types : List (Str × StorageLayoutType)) (table : Table) (j : Nat) (rest : List Str)
    (out : List (Str × StorageLayoutType)) (n : Nat) (k : Str) (hk : rest[n]? = some k)
    (h : ∀ n' k', n < n' → rest[n']? = some k' →
      (outType order types table (j + n') k').1 ≠ (outType order types table (j + n) k).1) :
    mapFind (outTypes order types table j rest out) (outType order types table (j + n) k).1
      = some (outType order types table (j + n) k).2 := by
  induction rest generalizing j out n with
  | nil => simp at hk
  | cons a rest ih =>
    simp only [outTypes]
    cases n with
    | zero =>
      simp only [List.getElem?_cons_zero, Option.some.injEq] at hk
      subst hk
      rw [mapFind_outTypes_of_not_written, mapFind_sortedSet]
      · simp
      · intro n k hn
        have := h (n + 1) k (by omega) (by simpa using hn)
        rwa [show j + (n + 1) = j + 1 + n by omega] at this
    | succ n =>
      have := ih (j + 1) (sortedSet out (outType order types table j a).1
        (outType order types table j a).2) n (by simpa using hk)
        (by
          intro n' k' hn' hk'
          have := h (n' + 1) k' (by omega) (by simpa using hk')
          rwa [show j + (n' + 1) = j + 1 + n' by omega,
            show j + (n + 1) = j + 1 + n by omega] at this)
      rwa [show j + 1 + n = j + (n + 1) by omega] at this

/-! ## The values of the table -/

theorem toDigitsCore_ne_nil (b fuel n : Nat) (ds : List Char) (h : 0 < fuel ∨ ds ≠ []) :
    Nat.toDigitsCore b fuel n ds ≠ [] := by
  induction fuel generalizing n ds with
  | zero =>
    rcases h with h | h
    · omega
    · simpa [Nat.toDigitsCore] using h
  | succ fuel ih =>
    simp only [Nat.toDigitsCore]
    split
    · simp
    · exact ih _ _ (Or.inr (by simp))

theorem strconvItoa_ne_nil (n : Nat) : strconvItoa n ≠ [] :=
  toDigitsCore_ne_nil 10 (n + 1) n [] (Or.inl (by omega))

/-- Replacing by a non-empty string in a non-empty string gives a non-empty string. -/
theorem stringsReplace1_ne_nil (s old new : Str) (hs : s ≠ []) (hn : new ≠ []) :
    stringsReplace1 s old new ≠ [] := by
  unfold stringsReplace1
  split
  · exact hs
  · split
    · exact hs
    · simp [hn]

theorem mapSet_values {κ ν : Type} [DecidableEq κ] (m : List (κ × ν)) (k : κ) (v : ν)
    (e : κ × ν) (he : e ∈ mapSet m k v) : e = (k, v) ∨ e ∈ m := by
  induction m with
  | nil =>
    simp only [mapSet, List.mem_singleton] at he
    exact Or.inl he
  | cons a rest ih =>
    obtain ⟨a, b⟩ := a
    unfold mapSet at he
    split at he
    · rcases List.mem_cons.mp he with h | h
      · exact Or.inl h
      · exact Or.inr (List.mem_cons_of_mem _ h)
    · rcases List.mem_cons.mp he with h | h
      · exact Or.inr (h ▸ List.mem_cons_self _ _)
      · rcases ih h with h | h
        · exact Or.inl h
        · exact Or.inr (List.mem_cons_of_mem _ h)

theorem mapSet_nodup {κ ν : Type} [DecidableEq κ] (m : List (κ × ν)) (k : κ) (v : ν)
    (hnd : (mapKeys m).Nodup) : (mapKeys (mapSet m k v)).Nodup := by
  induction m with
  | nil => simp [mapSet, mapKeys]
  | cons a rest ih =>
    obtain ⟨a, b⟩ := a
    simp only [mapKeys, List.map_cons, List.nodup_cons] at hnd
    unfold mapSet
    split
    · next hak =>
      subst hak
      simpa [mapKeys] using hnd
    · next hak =>
      simp only [mapKeys, List.map_cons, List.nodup_cons]
      refine ⟨fun hmem => ?_, ih hnd.2⟩
      rcases mapKeys_mapSet rest k v a hmem with h | h
      · exact hak h
      · exact hnd.1 h

theorem typeLoopStep_table (st : TypeLoopState) (oldType : Str)
    (hnd : (mapKeys st.typeRemappings).Nodup) (hv : ∀ e ∈ st.typeRemappings, e.2 ≠ []) :
    (mapKeys (typeLoopStep st oldType).typeRemappings).Nodup ∧
      ∀ e ∈ (typeLoopStep st oldType).typeRemappings, e.2 ≠ [] := by
  unfold typeLoopStep
  split
  · exact ⟨hnd, hv⟩
  · next hseen =>
    split
    · exact ⟨hnd, hv⟩
    · dsimp only
      split
      · exact ⟨hnd, hv⟩
      · refine ⟨mapSet_nodup _ _ _ hnd, fun e he => ?_⟩
        rcases mapSet_values _ _ _ e he with h | h
        · rw [h]
          exact stringsReplace1_ne_nil _ _ _ (fun h0 => hseen (Or.inr h0))
            (strconvItoa_ne_nil _)
        · exact hv e h

theorem foldl_typeLoopStep_table (l : List Str) (st : TypeLoopState)
    (hnd : (mapKeys st.typeRemappings).Nodup) (hv : ∀ e ∈ st.typeRemappings, e.2 ≠ []) :
    (mapKeys (l.foldl typeLoopStep st).typeRemappings).Nodup ∧
      ∀ e ∈ (l.foldl typeLoopStep st).typeRemappings, e.2 ≠ [] := by
  induction l generalizing st with
  | nil => exact ⟨hnd, hv⟩
  | cons a l ih =>
    obtain ⟨h1, h2⟩ := typeLoopStep_table st a hnd hv
    exact ih _ h1 h2

/-- The table has distinct keys and no empty value. -/
theorem typeRemappings_wellFormed (input : StorageLayout) :
    (mapKeys (typeRemappings input)).Nodup ∧ ∀ e ∈ typeRemappings input, e.2 ≠ [] := by
  unfold typeRemappings typeLoop
  apply foldl_typeLoopStep_table
  · simp [mapKeys]
  · simp

/-! ## The partial steps do not fail -/

theorem typeLoopStepChecked_eq (st : TypeLoopState) (oldType : Str) :
    typeLoopStepChecked st oldType = some (typeLoopStep st oldType) := by
  unfold typeLoopStepChecked typeLoopStep remapTypeReFindAll
  split
  · rfl
  · cases remapTypeRe oldType with
    | none => rfl
    | some groups =>
      dsimp only
      rw [if_neg (by simp)]
      split
      · rfl
      · rfl

theorem typeLoopChecked_eq (l : List Str) (st : TypeLoopState) :
    typeLoopChecked l st = some (l.foldl typeLoopStep st) := by
  induction l generalizing st with
  | nil => rfl
  | cons a l ih => simp only [typeLoopChecked, typeLoopStepChecked_eq, List.foldl_cons, ih]

theorem slicesIndex_lt {l : List Str} {x : Str} {idx : Nat} (h : slicesIndex l x = some idx) :
    idx < l.length := by
  induction l generalizing idx with
  | nil => cases h
  | cons e es ih =>
    unfold slicesIndex at h
    split at h
    · cases h
      simp
    · cases hi : slicesIndex es x with
      | none => rw [hi] at h; cases h
      | some i =>
        rw [hi] at h
        cases h
        have := ih hi
        simpa using this

theorem normalizeContractChecked_eq (contract : Str) :
    normalizeContractChecked contract = some (normalizeContract contract) := by
  unfold normalizeContractChecked normalizeContract
  split
  · dsimp only
    cases hi : slicesIndex (stringsSplit contract) "optimism".toList with
    | none => rfl
    | some idx =>
      have := slicesIndex_lt hi
      simp only [sliceFrom]
      rw [if_pos (by omega)]
      rfl
  · rfl

theorem mapFind_of_mem {κ ν : Type} [DecidableEq κ] (m : List (κ × ν)) (k : κ) (z : ν)
    (hk : k ∈ mapKeys m) : mapFind m k = some (mapGet m k z) := by
  induction m with
  | nil => simp [mapKeys] at hk
  | cons e rest ih =>
    obtain ⟨a, b⟩ := e
    by_cases hak : a = k
    · simp [mapFind, mapGet, hak]
    · simp only [mapKeys, List.map_cons, List.mem_cons] at hk
      simp only [mapFind, mapGet, if_neg hak]
      exact ih (hk.resolve_left (fun h => hak h.symm))

theorem mem_mapKeys_mapSet {κ ν : Type} [DecidableEq κ] (m : List (κ × ν)) (k : κ) (v : ν)
    (x : κ) (hx : x = k ∨ x ∈ mapKeys m) : x ∈ mapKeys (mapSet m k v) := by
  induction m with
  | nil =>
    rcases hx with hx | hx
    · simp [mapSet, mapKeys, hx]
    · simp [mapKeys] at hx
  | cons e rest ih =>
    obtain ⟨a, b⟩ := e
    unfold mapSet
    split
    · next hak =>
      simp only [mapKeys, List.map_cons, List.mem_cons] at hx ⊢
      rcases hx with hx | hx | hx
      · exact Or.inl hx
      · exact Or.inl (hx.trans hak)
      · exact Or.inr hx
    · next hak =>
      simp only [mapKeys, List.map_cons, List.mem_cons] at hx ⊢
      rcases hx with hx | hx | hx
      · exact Or.inr (ih (Or.inl hx))
      · exact Or.inl hx
      · exact Or.inr (ih (Or.inr hx))

theorem mapKeys_assignSlotIds (l : List StorageLayoutEntry) (m : List (Nat × Nat)) (b a : Nat)
    (ha : a ∈ l.map (fun slot => slot.AstId) ∨ a ∈ mapKeys m) :
    a ∈ mapKeys (assignSlotIds l m b).1 := by
  induction l generalizing m b with
  | nil => simpa [assignSlotIds] using ha
  | cons slot rest ih =>
    simp only [assignSlotIds]
    apply ih
    rcases ha with ha | ha
    · simp only [List.map_cons, List.mem_cons] at ha
      rcases ha with ha | ha
      · exact Or.inr (mem_mapKeys_mapSet _ _ _ _ (Or.inl ha))
      · exact Or.inl ha
    · exact Or.inr (mem_mapKeys_mapSet _ _ _ _ (Or.inr ha))

theorem outSlotsChecked_eq (order : RangeOrder) (ids : List (Nat × Nat)) (table : Table)
    (i : Nat) (l : List StorageLayoutEntry) (h : ∀ slot ∈ l, slot.AstId ∈ mapKeys ids) :
    outSlotsChecked order ids table i l = some (outSlots order ids table i l) := by
  induction l generalizing i with
  | nil => rfl
  | cons slot rest ih =>
    simp only [outSlotsChecked, outSlots, outSlot,
      mapFind_of_mem ids slot.AstId 0 (h slot (List.mem_cons_self _ _)),
      normalizeContractChecked_eq, ih (i + 1) (fun s hs => h s (List.mem_cons_of_mem _ hs))]

/-! ## The output type map -/

/-- Assignment on a map kept sorted by key keeps the keys strictly increasing. -/
theorem sortedSet_sorted {ν : Type} (m : List (Str × ν)) (k : Str) (v : ν)
    (h : (mapKeys m).Pairwise (fun a b => strLt a b = true)) :
    (mapKeys (sortedSet m k v)).Pairwise (fun a b => strLt a b = true) := by
  induction m with
  | nil => simp [sortedSet, mapKeys]
  | cons e rest ih =>
    obtain ⟨a, b⟩ := e
    simp only [mapKeys, List.map_cons, List.pairwise_cons] at h
    unfold sortedSet
    split
    · next hak =>
      subst hak
      simp only [mapKeys, List.map_cons, List.pairwise_cons]
      exact h
    · next hak =>
      split
      · next hlt =>
        simp only [mapKeys, List.map_cons, List.pairwise_cons, List.mem_cons]
        refine ⟨?_, h.1, h.2⟩
        rintro x (rfl | hx)
        · exact hlt
        · exact strLt_trans hlt (h.1 x hx)
      · next hlt =>
        have hka : strLt a k = true := by
          cases hh : strLt a k with
          | true => rfl
          | false =>
            exact absurd (strLt_connex hh (by simpa using hlt)) hak
        simp only [mapKeys, List.map_cons, List.pairwise_cons]
        refine ⟨?_, ih h.2⟩
        intro x hx
        rcases (mapKeys_sortedSet rest k v x).mp hx with rfl | hx
        · exact hka
        · exact h.1 x hx

theorem outTypes_sorted (order : RangeOrder) (types : List (Str × StorageLayoutType))
    (table : Table) (j : Nat) (rest : List Str) (out : List (Str × StorageLayoutType))
    (h : (mapKeys out).Pairwise (fun a b => strLt a b = true)) :
    (mapKeys (outTypes order types table j rest out)).Pairwise
      (fun a b => strLt a b = true) := by
  induction rest generalizing j out with
  | nil => exact h
  | cons a rest ih => exact ih _ _ (sortedSet_sorted _ _ _ h)

/-- The keys of the output type map are strictly increasing. -/
theorem canonicalize_types_sorted (order : RangeOrder) (input : StorageLayout) :
    (mapKeys (CanonicalizeASTIDs order input).Types).Pairwise
      (fun a b => strLt a b = true) :=
  outTypes_sorted order _ _ 0 _ [] (by simp [mapKeys])

theorem nodup_of_strLt {l : List Str} (h : l.Pairwise (fun a b => strLt a b = true)) :
    l.Nodup :=
  h.imp (fun hab heq => by
    subst heq
    rw [strLt_irrefl] at hab
    cases hab)

theorem mem_rewrittenKeys (order : RangeOrder) (input : StorageLayout) (x : Str) :
    x ∈ rewrittenKeys order input ↔
      ∃ n oldType, (sortedOldTypes input)[n]? = some oldType ∧
        x = replaceType (order (.typeKey n) (typeRemappings input)) oldType := by
  unfold rewrittenKeys
  simp only [List.mem_map, Prod.exists]
  constructor
  · rintro ⟨n, k, hmem, rfl⟩
    exact ⟨n, k, List.mk_mem_enum_iff_getElem?.mp hmem, rfl⟩
  · rintro ⟨n, k, hk, rfl⟩
    exact ⟨n, k, List.mk_mem_enum_iff_getElem?.mpr hk, rfl⟩

/-- The keys of the output type map are the rewritten keys. -/
theorem mem_canonicalize_types (order : RangeOrder) (input : StorageLayout) (x : Str) :
    x ∈ mapKeys (CanonicalizeASTIDs order input).Types ↔ x ∈ rewrittenKeys order input := by
  rw [mem_rewrittenKeys]
  unfold CanonicalizeASTIDs
  rw [mapKeys_outTypes]
  simp [mapKeys]

theorem rewrittenKeys_length (order : RangeOrder) (input : StorageLayout) :
    (rewrittenKeys order input).length = input.Types.length := by
  unfold rewrittenKeys sortedOldTypes sortStrings mapKeys
  simp [List.length_insertionSort]

/-- The output type map never has more entries than the input type map. -/
theorem canonicalize_types_length_le (order : RangeOrder) (input : StorageLayout) :
    (CanonicalizeASTIDs order input).Types.length ≤ input.Types.length := by
  have h := (List.subperm_of_subset (nodup_of_strLt (canonicalize_types_sorted order input))
    (fun x hx => (mem_canonicalize_types order input x).mp hx)).length_le
  rw [rewrittenKeys_length] at h
  simpa [mapKeys] using h

/-! ## A second run -/

theorem typeRemappings_eq_tableFor (input : StorageLayout) :
    typeRemappings input = tableFor input.Storage.length input.Types := by
  unfold typeRemappings tableFor
  rw [typeLoop_eq]
  rfl

theorem canonicalize_types_eq_typesFor (order : RangeOrder) (input : StorageLayout) :
    (CanonicalizeASTIDs order input).Types
      = typesFor order input.Storage.length input.Types := by
  unfold CanonicalizeASTIDs typesFor
  simp only [typeRemappings_eq_tableFor]
  rfl

theorem canonicalize_storage_length (order : RangeOrder) (input : StorageLayout) :
    (CanonicalizeASTIDs order input).Storage.length = input.Storage.length := by
  unfold CanonicalizeASTIDs
  simp only [outSlots_length]

theorem StorageLayout.eq_of_fields (A B : StorageLayout) (h₁ : A.Storage = B.Storage)
    (h₂ : A.Types = B.Types) : A = B := by
  cases A
  cases B
  simp_all

theorem stringsReplace1_same (s old : Str) : stringsReplace1 s old old = s := by
  simp [stringsReplace1]

theorem applyMatches_identity (ms : List typeRemapping) (s : Str)
    (h : ∀ m ∈ ms, m.newType = m.oldType) : applyMatches ms s = s := by
  unfold applyMatches
  induction ms generalizing s with
  | nil => rfl
  | cons m ms ih =>
    rw [List.foldl_cons, h m (List.mem_cons_self _ _), stringsReplace1_same]
    exact ih s (fun x hx => h x (List.mem_cons_of_mem _ hx))

theorem mapGet_identity (t : Table) (s : Str) (hid : ∀ e ∈ t, e.2 = e.1) :
    mapGet t s [] = s ∨ mapGet t s [] = [] := by
  induction t with
  | nil => exact Or.inr rfl
  | cons e rest ih =>
    obtain ⟨a, b⟩ := e
    by_cases hak : a = s
    · left
      have := hid (a, b) (List.mem_cons_self _ _)
      simp only at this
      simp [mapGet, hak, this]
    · simp only [mapGet, if_neg hak]
      exact ih (fun x hx => hid x (List.mem_cons_of_mem _ hx))

/-- With a table that maps every old type to itself `replaceType` changes nothing. -/
theorem replaceType_identity (t : Table) (s : Str) (hid : ∀ e ∈ t, e.2 = e.1) :
    replaceType t s = s := by
  have happ : applyMatches (collectMatches t s) s = s := by
    apply applyMatches_identity
    intro m hm
    unfold collectMatches at hm
    obtain ⟨e, he, rfl⟩ := List.mem_map.mp hm
    exact hid e (List.mem_filter.mp he).1
  unfold replaceType
  rcases mapGet_identity t s hid with h | h
  · simp only [h]
    split
    · rfl
    · exact happ
  · simp only [h]
    simpa using happ

theorem filepathIsAbs_cons (c : Char) (t : Str) (hc : c ≠ '/') :
    filepathIsAbs (c :: t) = false := by
  unfold filepathIsAbs
  split
  · next heq =>
    simp only [List.cons.injEq] at heq
    exact absurd heq.1 hc
  · rfl

theorem cleanElems_elems (rooted : Bool) (out es : List Str)
    (hout : ∀ e ∈ out, e ≠ [] ∧ '/' ∉ e) (hes : ∀ e ∈ es, '/' ∉ e) :
    ∀ e ∈ cleanElems rooted out es, e ≠ [] ∧ '/' ∉ e := by
  induction es generalizing out with
  | nil => simpa [cleanElems] using hout
  | cons a es ih =>
    have hes' : ∀ e ∈ es, '/' ∉ e := fun e he => hes e (List.mem_cons_of_mem _ he)
    have ha : '/' ∉ a := hes a (List.mem_cons_self _ _)
    simp only [cleanElems]
    split
    · exact ih out hout hes'
    · next h1 =>
      have hne : a ≠ [] := fun h => h1 (Or.inl h)
      have hpush : ∀ e ∈ a :: out, e ≠ [] ∧ '/' ∉ e := by
        intro e he
        rcases List.mem_cons.mp he with rfl | he
        · exact ⟨hne, ha⟩
        · exact hout e he
      split
      · cases out with
        | nil =>
          dsimp only
          split
          · exact ih [] hout hes'
          · exact ih [a] (by simpa using ⟨hne, ha⟩) hes'
        | cons top rest =>
          dsimp only
          split
          · exact ih _ hpush hes'
          · exact ih rest (fun e he => hout e (List.mem_cons_of_mem _ he)) hes'
      · exact ih _ hpush hes'

theorem stringsJoin_not_abs (es : List Str) (h : ∀ e ∈ es, e ≠ [] ∧ '/' ∉ e) :
    filepathIsAbs (stringsJoin es) = false := by
  cases es with
  | nil => rfl
  | cons e es =>
    obtain ⟨hne, hs⟩ := h e (List.mem_cons_self _ _)
    obtain ⟨c, r, hcr⟩ := List.exists_cons_of_ne_nil hne
    obtain ⟨t, ht⟩ := stringsJoin_head e es c r hcr
    rw [ht]
    apply filepathIsAbs_cons
    rintro rfl
    exact hs (by simp [hcr])

theorem filepathClean_not_abs (path : Str) (hp : filepathIsAbs path = false) :
    filepathIsAbs (filepathClean path) = false := by
  unfold filepathClean
  split
  · rfl
  · simp only [hp]
    have hbody := stringsJoin_not_abs (cleanElems false [] (stringsSplit path))
      (cleanElems_elems false [] _ (by simp) (stringsSplit_no_slash path))
    rw [if_neg (by simp)]
    split
    · rfl
    · exact hbody

theorem filepathJoin_not_abs (es : List Str) (hes : ∀ e ∈ es, '/' ∉ e) :
    filepathIsAbs (filepathJoin es) = false := by
  induction es with
  | nil => rfl
  | cons e es ih =>
    by_cases he : e = []
    · have : filepathJoin (e :: es) = filepathJoin es := by
        simp [filepathJoin, List.dropWhile, he]
      rw [this]
      exact ih (fun x hx => hes x (List.mem_cons_of_mem _ hx))
    · have hdw : (e :: es).dropWhile (fun e => decide (e = [])) = e :: es := by
        simp [List.dropWhile, he]
      unfold filepathJoin
      rw [hdw]
      apply filepathClean_not_abs
      obtain ⟨c, r, hcr⟩ := List.exists_cons_of_ne_nil he
      obtain ⟨t, ht⟩ := stringsJoin_head e es c r hcr
      rw [ht]
      apply filepathIsAbs_cons
      rintro rfl
      exact hes e (List.mem_cons_self _ _) (by simp [hcr])

/-- A normalized contract name is left as it is by a second normalization. -/
theorem normalizeContract_idem (contract : Str) :
    normalizeContract (normalizeContract contract) = normalizeContract contract := by
  have key : filepathIsAbs (normalizeContract contract) = false ∨
      normalizeContract contract = contract := by
    unfold normalizeContract
    split
    · dsimp only
      cases hi : slicesIndex (stringsSplit contract) "optimism".toList with
      | none => exact Or.inr rfl
      | some idx =>
        left
        apply filepathJoin_not_abs
        intro e he
        exact stringsSplit_no_slash contract e (List.mem_of_mem_drop he)
    · exact Or.inr rfl
  rcases key with h | h
  · exact normalizeContract_unchanged _ (Or.inl h)
  · rw [h]
    exact h

theorem sortedSet_append {ν : Type} (m : List (Str × ν)) (k : Str) (v : ν)
    (h : ∀ a ∈ mapKeys m, strLt a k = true) : sortedSet m k v = m ++ [(k, v)] := by
  induction m with
  | nil => rfl
  | cons e rest ih =>
    obtain ⟨a, b⟩ := e
    have hak : strLt a k = true := h a (List.mem_cons_self _ _)
    have hne : a ≠ k := by
      rintro rfl
      rw [strLt_irrefl] at hak
      cases hak
    have hka : ¬ strLt k a = true := by
      rw [strLt_asymm hak]
      simp
    unfold sortedSet
    rw [if_neg hne, if_neg hka, ih (fun x hx => h x (by
      simp only [mapKeys, List.map_cons, List.mem_cons]
      exact Or.inr hx))]
    rfl

/-- Writing the entries of a map with strictly increasing keys again, in key
order and unchanged, rebuilds the map. -/
theorem outTypes_rebuild (order : RangeOrder) (table : Table)
    (hrt : ∀ site s, replaceType (order site table) s = s)
    (pre post : List (Str × StorageLayoutType)) (j : Nat)
    (hs : (mapKeys (pre ++ post)).Pairwise (fun a b => strLt a b = true)) :
    outTypes order (pre ++ post) table j (mapKeys post) pre = pre ++ post := by
  induction post generalizing pre j with
  | nil => simp [mapKeys, outTypes]
  | cons e post ih =>
    obtain ⟨k, v⟩ := e
    have hget : mapGet (pre ++ (k, v) :: post) k StorageLayoutType.zero = v :=
      mapGet_of_mem _ k v _ (nodup_of_strLt hs) (by simp)
    have hkv : outType order (pre ++ (k, v) :: post) table j k = (k, v) := by
      unfold outType
      simp only [hget, hrt]
      cases v
      simp
    have hpre : ∀ a ∈ mapKeys pre, strLt a k = true := by
      intro a ha
      simp only [mapKeys, List.map_append, List.map_cons] at hs
      exact (List.pairwise_append.mp hs).2.2 a ha k (List.mem_cons_self _ _)
    simp only [mapKeys, List.map_cons, outTypes]
    have hkv' := hkv
    simp only [mapKeys] at hkv'
    rw [hkv', sortedSet_append pre k v hpre]
    have := ih (pre ++ [(k, v)]) (j + 1) (by simpa using hs)
    simpa [mapKeys] using this

theorem slotsLayout_length (n : Nat) : (slotsLayout n).Storage.length = n := by
  simp [slotsLayout]

theorem slotsLayout_slotIds (n : Nat) : (slotsLayout n).slotIds = List.range n := by
  simp [slotsLayout, StorageLayout.slotIds, List.map_map, Function.comp_def]

theorem slotsLayout_types (n : Nat) : (slotsLayout n).Types = (slotsLayout 0).Types :=
  rfl

theorem slotsLayout_closed (n : Nat) : (slotsLayout n).Closed := by
  refine ⟨?_, ?_⟩
  · intro slot hs
    have ht : slot.Type_ = "t_contract(A)1".toList := by
      unfold slotsLayout at hs
      rw [List.mem_map] at hs
      obtain ⟨i, _, h⟩ := hs
      rw [← h]
    rw [ht]
    exact List.mem_cons_self _ _
  · intro kv hkv
    have hb : kv.2.Key = [] ∧ kv.2.Value = [] ∧ kv.2.Base = [] := by
      unfold slotsLayout at hkv
      simp only [List.mem_cons, List.mem_singleton, List.not_mem_nil, or_false] at hkv
      rcases hkv with rfl | rfl <;> exact ⟨rfl, rfl, rfl⟩
    exact ⟨fun h => absurd hb.1 h, fun h => absurd hb.2.1 h, fun h => absurd hb.2.2 h⟩

/-- A second run on `erc20Layout` changes the result of the first: the first
run leaves the id 20 in `t_contract(ERC1001)20`, and the second run replaces it. -/
theorem second_run_changes_erc20Layout :
    mapKeys (CanonicalizeASTIDs RangeOrder.asBuilt erc20Layout).Types
        = ["t_contract(ERC1001)20".toList] ∧
      mapKeys (CanonicalizeASTIDs RangeOrder.asBuilt
          (CanonicalizeASTIDs RangeOrder.asBuilt erc20Layout)).Types
        = ["t_contract(ERC1001)1001".toList] := by
  refine ⟨?_, ?_⟩ <;> decide

/-! ## Referential closure when every loop visits the table in the same order -/

theorem mem_sortedSet {ν : Type} (m : List (Str × ν)) (k : Str) (v : ν) (e : Str × ν)
    (he : e ∈ sortedSet m k v) : e = (k, v) ∨ e ∈ m := by
  induction m with
  | nil =>
    simp only [sortedSet, List.mem_singleton] at he
    exact Or.inl he
  | cons a rest ih =>
    obtain ⟨a, b⟩ := a
    unfold sortedSet at he
    split at he
    · rcases List.mem_cons.mp he with h | h
      · exact Or.inl h
      · exact Or.inr (List.mem_cons_of_mem _ h)
    · split at he
      · rcases List.mem_cons.mp he with h | h
        · exact Or.inl h
        · exact Or.inr h
      · rcases List.mem_cons.mp he with h | h
        · exact Or.inr (h ▸ List.mem_cons_self _ _)
        · rcases ih h with h | h
          · exact Or.inl h
          · exact Or.inr (List.mem_cons_of_mem _ h)

/-- Every entry of the output type map was written for one of the type keys. -/
theorem mem_outTypes (order : RangeOrder) (types : List (Str × StorageLayoutType))
    (table : Table) (j : Nat) (rest : List Str) (out : List (Str × StorageLayoutType))
    (e : Str × StorageLayoutType) (he : e ∈ outTypes order types table j rest out) :
    e ∈ out ∨ ∃ n k, rest[n]? = some k ∧ e = outType order types table (j + n) k := by
  induction rest generalizing j out with
  | nil => exact Or.inl he
  | cons a rest ih =>
    simp only [outTypes] at he
    rcases ih _ _ he with h | ⟨n, k, hn, hk⟩
    · rcases mem_sortedSet _ _ _ _ h with h | h
      · exact Or.inr ⟨0, a, by simp, h⟩
      · exact Or.inl h
    · refine Or.inr ⟨n + 1, k, by simpa using hn, ?_⟩
      rw [hk, show j + 1 + n = j + (n + 1) by omega]

theorem mapGet_mem_or_zero {κ ν : Type} [DecidableEq κ] (m : List (κ × ν)) (k : κ) (z : ν)
    (hk : k ∈ mapKeys m) : (k, mapGet m k z) ∈ m := by
  induction m with
  | nil => simp [mapKeys] at hk
  | cons e rest ih =>
    obtain ⟨a, b⟩ := e
    by_cases hak : a = k
    · subst hak
      simp [mapGet]
    · simp only [mapKeys, List.map_cons, List.mem_cons] at hk
      simp only [mapGet, if_neg hak]
      exact List.mem_cons_of_mem _ (ih (hk.resolve_left (fun h => hak h.symm)))

theorem stringsContains_nil_left (old : Str) (h : old ≠ []) : stringsContains [] old = false := by
  simp [stringsContains, stringsIndex, h]

/-- The empty string is left empty by `replaceType` on the table of a layout,
in whatever order the table is visited. -/
theorem replaceType_nil (order : RangeOrder) (hv : order.Valid) (input : StorageLayout)
    (site : RangeSite) : replaceType (order site (typeRemappings input)) [] = [] := by
  apply replaceType_of_no_match
  intro old hold
  have hmem : old ∈ mapKeys (typeRemappings input) :=
    ((hv site (typeRemappings input)).map Prod.fst).mem_iff.mp hold
  exact stringsContains_nil_left old (typeRemappings_keys input old hmem).1

/-- When every loop of `replaceType` visits the table in the same order,
referential closure is preserved. -/
theorem closed_of_uniform_order (order : RangeOrder) (hv : order.Valid)
    (huni : ∀ site site' t, order site t = order site' t) (input : StorageLayout)
    (hc : input.Closed) : (CanonicalizeASTIDs order input).Closed := by
  have hkey : ∀ site k, k ∈ mapKeys input.Types →
      replaceType (order site (typeRemappings input)) k
        ∈ mapKeys (CanonicalizeASTIDs order input).Types := by
    intro site k hk
    obtain ⟨n, hn⟩ := List.mem_iff_getElem?.mp ((mem_sortedOldTypes input k).mpr hk)
    rw [mem_canonicalize_types, mem_rewrittenKeys]
    exact ⟨n, k, hn, by rw [huni site (.typeKey n)]⟩
  have hfield : ∀ site (s : Str), (s ≠ [] → s ∈ mapKeys input.Types) →
      replaceType (order site (typeRemappings input)) s ≠ [] →
      replaceType (order site (typeRemappings input)) s
        ∈ mapKeys (CanonicalizeASTIDs order input).Types := by
    intro site s hs hne
    by_cases h0 : s = []
    · subst h0
      exact absurd (replaceType_nil order hv input site) hne
    · exact hkey site s (hs h0)
  refine ⟨?_, ?_⟩
  · intro slot hs
    obtain ⟨i, hi⟩ := List.mem_iff_getElem?.mp hs
    rw [canonicalize_storage_getElem?] at hi
    cases hin : input.Storage[i]? with
    | none => rw [hin] at hi; cases hi
    | some src =>
      rw [hin] at hi
      simp only [Option.map_some', Option.some.injEq] at hi
      subst hi
      exact hkey _ _ (hc.1 src (List.getElem?_mem hin))
  · intro kv hkv
    have hmem := mem_outTypes order input.Types (typeRemappings input) 0
      (sortedOldTypes input) [] kv hkv
    rcases hmem with h | ⟨n, k, hn, hk⟩
    · cases h
    · have hkin : k ∈ mapKeys input.Types :=
        (mem_sortedOldTypes input k).mp (List.getElem?_mem hn)
      have hent := hc.2 _ (mapGet_mem_or_zero input.Types k StorageLayoutType.zero hkin)
      subst hk
      refine ⟨hfield _ _ hent.1, hfield _ _ hent.2.1, ?_⟩
      simp only [outType]
      split
      · exact hfield _ _ hent.2.2
      · intro h
        exact absurd rfl h

/-- The slot ids after a second run are again `1000, 1001, ...`. -/
theorem slotIds_second_run (order₁ order₂ : RangeOrder) (input : StorageLayout)
    (hd : input.slotIds.Nodup) :
    (CanonicalizeASTIDs order₂ (CanonicalizeASTIDs order₁ input)).slotIds
      = List.range' 1000 input.Storage.length := by
  have h₁ := slotIds_canonicalize order₁ input hd
  have hnd : (CanonicalizeASTIDs order₁ input).slotIds.Nodup := by
    rw [h₁]
    exact List.nodup_range' 1000 _
  rw [slotIds_canonicalize order₂ _ hnd, canonicalize_storage_length]

/-! ## The shape of the strings `remapTypeRe` matches -/

/-- A run of characters of a class followed by a character outside it (or by
nothing) is what `takeWhile` takes and `dropWhile` leaves. -/
theorem takeWhile_dropWhile_run (p : Char → Bool) (w rest : Str)
    (hw : ∀ c ∈ w, p c = true) (hr : ∀ c r, rest = c :: r → p c = false) :
    (w ++ rest).takeWhile p = w ∧ (w ++ rest).dropWhile p = rest := by
  induction w with
  | nil =>
    cases rest with
    | nil => simp
    | cons c r => simp [List.takeWhile, List.dropWhile, hr c r rfl]
  | cons x w ih =>
    have hx : p x = true := hw x (List.mem_cons_self _ _)
    have := ih (fun c hc => hw c (List.mem_cons_of_mem _ hc))
    simp [List.takeWhile, List.dropWhile, hx, this.1, this.2]

theorem mem_takeWhile_prop (p : Char → Bool) (l : Str) : ∀ c ∈ l.takeWhile p, p c = true := by
  induction l with
  | nil => simp
  | cons x l ih =>
    intro c hc
    by_cases hx : p x = true
    · simp only [List.takeWhile, hx, List.mem_cons] at hc
      rcases hc with rfl | hc
      · exact hx
      · exact ih c hc
    · simp [List.takeWhile, hx] at hc

theorem isWord_paren_open : isWord '(' = false := by decide

theorem isWord_paren_close : isWord ')' = false := by decide

theorem isDigit_underscore : Char.isDigit '_' = false := by decide

theorem typePrefix_append (w1 w2 rest : Str) :
    typePrefix w1 w2 ++ rest = 't' :: '_' :: (w1 ++ '(' :: (w2 ++ ')' :: rest)) := by
  simp [typePrefix]

/-- A string matched by `remapTypeRe` is its three capture groups one after
the other, and they have the shape the expression describes. -/
theorem remapTypeRe_some {s g1 d g3 : Str} (h : remapTypeRe s = some (g1, d, g3)) :
    ∃ w1 w2, g1 = typePrefix w1 w2 ∧ s = g1 ++ d ++ g3 ∧ WordRun w1 ∧ WordRun w2 ∧
      DigitRun d ∧ SuffixShape g3 := by
  unfold remapTypeRe at h
  split at h
  · next r0 =>
    split at h
    · next r1 hr0 =>
      split at h
      · next r2 hr1 =>
        dsimp only at h
        split at h
        · cases h
        · next hne =>
          simp only [not_or] at hne
          have e0 := List.takeWhile_append_dropWhile isWord r0
          have e1 := List.takeWhile_append_dropWhile isWord r1
          have e2 := List.takeWhile_append_dropWhile Char.isDigit r2
          rw [hr0] at e0
          rw [hr1] at e1
          have hw1 : WordRun (r0.takeWhile isWord) := ⟨hne.1, mem_takeWhile_prop _ _⟩
          have hw2 : WordRun (r1.takeWhile isWord) := ⟨hne.2.1, mem_takeWhile_prop _ _⟩
          have hd : DigitRun (r2.takeWhile Char.isDigit) := ⟨hne.2.2, mem_takeWhile_prop _ _⟩
          split at h
          · next hr3 =>
            simp only [Option.some.injEq, Prod.mk.injEq] at h
            obtain ⟨rfl, rfl, rfl⟩ := h
            refine ⟨_, _, rfl, ?_, hw1, hw2, hd, Or.inl rfl⟩
            rw [hr3] at e2
            conv_lhs => rw [← e0, ← e1, ← e2]
            simp [typePrefix]
          · next r4 hr3 =>
            split at h
            · next hr4 =>
              simp only [Option.some.injEq, Prod.mk.injEq] at h
              obtain ⟨rfl, rfl, rfl⟩ := h
              refine ⟨_, _, rfl, ?_, hw1, hw2, hd, Or.inr ⟨r4, hr3, hr4.1, ?_⟩⟩
              · conv_lhs => rw [← e0, ← e1, ← e2]
                simp [typePrefix]
              · intro c hc
                exact List.all_eq_true.mp hr4.2 c hc
            · cases h
          · cases h
      · cases h
    · cases h
  · cases h

/-- A string of the shape the expression describes is matched by
`remapTypeRe`, with its parts as the capture groups. -/
theorem remapTypeRe_of_shape (w1 w2 d g3 : Str) (hw1 : WordRun w1) (hw2 : WordRun w2)
    (hd : DigitRun d) (hg : SuffixShape g3) :
    remapTypeRe (typePrefix w1 w2 ++ d ++ g3) = some (typePrefix w1 w2, d, g3) := by
  have hg3 : ∀ c r, g3 = c :: r → Char.isDigit c = false := by
    intro c r hcr
    rcases hg with h | ⟨r', h, _⟩
    · rw [h] at hcr; cases hcr
    · rw [h] at hcr
      cases hcr
      exact isDigit_underscore
  have t2 := takeWhile_dropWhile_run Char.isDigit d g3 hd.2 hg3
  have t1 := takeWhile_dropWhile_run isWord w2 (')' :: (d ++ g3)) hw2.2
    (by intro c r h; cases h; exact isWord_paren_close)
  have t0 := takeWhile_dropWhile_run isWord w1 ('(' :: (w2 ++ ')' :: (d ++ g3))) hw1.2
    (by intro c r h; cases h; exact isWord_paren_open)
  rw [List.append_assoc, typePrefix_append]
  unfold remapTypeRe
  simp only [t0.1, t0.2, t1.1, t1.2, t2.1, t2.2]
  rw [if_neg (by simp [hw1.1, hw2.1, hd.1])]
  rcases hg with h | ⟨r, h, hr⟩
  · subst h
    simp [typePrefix]
  · subst h
    simp only [typePrefix]
    rw [if_pos ⟨hr.1, List.all_eq_true.mpr hr.2⟩]

/-! ## The decimal form of the ids -/

theorem digitChar_isDigit : ∀ m, m < 10 → (Nat.digitChar m).isDigit = true := by decide

theorem toDigitsCore_digits (fuel n : Nat) (ds : List Char)
    (hds : ∀ c ∈ ds, c.isDigit = true) :
    ∀ c ∈ Nat.toDigitsCore 10 fuel n ds, c.isDigit = true := by
  induction fuel generalizing n ds with
  | zero => simpa [Nat.toDigitsCore] using hds
  | succ fuel ih =>
    have hd : (Nat.digitChar (n % 10)).isDigit = true :=
      digitChar_isDigit _ (Nat.mod_lt _ (by omega))
    have hcons : ∀ c ∈ Nat.digitChar (n % 10) :: ds, c.isDigit = true := by
      intro c hc
      rcases List.mem_cons.mp hc with rfl | hc
      · exact hd
      · exact hds c hc
    simp only [Nat.toDigitsCore]
    split
    · exact hcons
    · exact ih _ _ hcons

/-- The decimal form of a number is a non-empty run of digits. -/
theorem strconvItoa_digitRun (n : Nat) : DigitRun (strconvItoa n) :=
  ⟨strconvItoa_ne_nil n, toDigitsCore_digits (n + 1) n [] (by simp)⟩

theorem stringsReplace1_at (g1 d g3 new : Str)
    (hidx : stringsIndex (g1 ++ d ++ g3) d = some g1.length) :
    stringsReplace1 (g1 ++ d ++ g3) d new = g1 ++ new ++ g3 := by
  unfold stringsReplace1
  split
  · next h => rw [h]
  · rw [hidx]
    simp [List.take_append_eq_append_take, List.drop_append_eq_append_drop]

/-- A key that passes the filters, seen through its capture groups. -/
theorem passesFilters_shape {f : Str} (hp : passesFilters f) :
    ∃ w1 w2 d g3, f = typePrefix w1 w2 ++ d ++ g3 ∧ WordRun w1 ∧ WordRun w2 ∧ DigitRun d ∧
      SuffixShape g3 ∧ capturedPrefix f = typePrefix w1 w2 ∧ capturedId f = d ∧
      capturedSuffix f = g3 := by
  have hsome := hp.2.1
  cases hm : remapTypeRe f with
  | none => rw [hm] at hsome; cases hsome
  | some g =>
    obtain ⟨g1, d, g3⟩ := g
    obtain ⟨w1, w2, rfl, hs, hw1, hw2, hd, hg⟩ := remapTypeRe_some hm
    exact ⟨w1, w2, d, g3, hs, hw1, hw2, hd, hg, by simp [capturedPrefix, hm],
      by simp [capturedId, hm], by simp [capturedSuffix, hm]⟩

/-! ## The filters do not depend on the digits of the id -/

theorem append_split_unique (c : Char) (a b a' b' : Str) (h : a ++ c :: b = a' ++ c :: b')
    (ha : c ∉ a) (hb : c ∉ b) : a = a' ∧ b = b' := by
  induction a generalizing a' with
  | nil =>
    cases a' with
    | nil => simpa using h
    | cons y a'' =>
      simp only [List.nil_append, List.cons_append, List.cons.injEq] at h
      exact absurd (h.2 ▸ (by simp : c ∈ a'' ++ c :: b')) hb
  | cons x a ih =>
    simp only [List.mem_cons, not_or] at ha
    cases a' with
    | nil =>
      simp only [List.nil_append, List.cons_append, List.cons.injEq] at h
      exact absurd h.1.symm ha.1
    | cons y a'' =>
      simp only [List.cons_append, List.cons.injEq] at h
      obtain ⟨h1, h2⟩ := ih a'' h.2 ha.2
      exact ⟨by rw [h.1, h1], h2⟩

/-- An occurrence of `sub` in `a ++ m ++ b`, where `m` is not empty and shares
no character with `sub`, lies in `a` or in `b`. -/
theorem stringsContains_around (a m b sub : Str) (hm : m ≠ []) (hsub : sub ≠ [])
    (hdis : ∀ c ∈ m, c ∉ sub) (h : stringsContains (a ++ m ++ b) sub = true) :
    stringsContains a sub = true ∨ stringsContains b sub = true := by
  obtain ⟨x, y, hxy⟩ := stringsContains_iff.mp h
  obtain ⟨m0, mt, rfl⟩ := List.exists_cons_of_ne_nil hm
  obtain ⟨s0, st, rfl⟩ := List.exists_cons_of_ne_nil hsub
  have hm0 : m0 ∉ s0 :: st := hdis m0 (List.mem_cons_self _ _)
  rw [List.append_assoc, List.append_assoc] at hxy
  rcases List.append_eq_append_iff.mp hxy with ⟨a', hx, hrest⟩ | ⟨c', ha, hrest⟩
  · -- the occurrence starts at or after the end of `a`
    right
    rcases List.append_eq_append_iff.mp hrest with ⟨a'', ha', hb⟩ | ⟨c'', hmm, hb⟩
    · exact stringsContains_iff.mpr ⟨a'', y, by simpa using hb⟩
    · cases c'' with
      | nil =>
        simp only [List.nil_append] at hb
        exact stringsContains_iff.mpr ⟨[], y, by simp [← hb]⟩
      | cons q c''t =>
        simp only [List.cons_append, List.cons.injEq] at hb
        have hq : q ∈ m0 :: mt := by rw [hmm]; simp
        exact absurd (hb.1 ▸ List.mem_cons_self _ _) (hdis q hq)
  · -- the occurrence starts inside `a`
    left
    rcases List.append_eq_append_iff.mp hrest with ⟨e, hc', hy⟩ | ⟨e, hs, hmb⟩
    · exact stringsContains_iff.mpr ⟨x, e, by rw [ha, hc']; simp⟩
    · cases e with
      | nil =>
        simp only [List.append_nil] at hs
        exact stringsContains_iff.mpr ⟨x, [], by rw [ha, hs]; simp⟩
      | cons q et =>
        simp only [List.cons_append, List.cons.injEq] at hmb
        have hq : q ∈ s0 :: st := by rw [hs]; simp
        exact absurd (hmb.1 ▸ hq) hm0

theorem remapAstIdStorage_iff (s : Str) :
    remapAstIdStorage s = true ↔ ∃ u t, s = u ++ t ∧ remapAstIdStorageAt t = true := by
  induction s with
  | nil =>
    constructor
    · intro h
      cases h
    · rintro ⟨u, t, hs, ht⟩
      have : t = [] := (List.append_eq_nil.mp hs.symm).2
      subst this
      exact absurd ht (by decide)
  | cons c s ih =>
    simp only [remapAstIdStorage, Bool.or_eq_true]
    constructor
    · rintro (h | h)
      · exact ⟨[], c :: s, rfl, h⟩
      · obtain ⟨u, t, hs, ht⟩ := ih.mp h
        exact ⟨c :: u, t, by rw [hs]; rfl, ht⟩
    · rintro ⟨u, t, hs, ht⟩
      cases u with
      | nil =>
        left
        rw [hs]
        exact ht
      | cons x u =>
        right
        simp only [List.cons_append, List.cons.injEq] at hs
        exact ih.mpr ⟨u, t, hs.2, ht⟩

theorem remapAstIdStorageAt_iff (t : Str) :
    remapAstIdStorageAt t = true ↔
      ∃ h rest, (h = "t_struct".toList ∨ h = "t_userDefinedValueType".toList) ∧
        t = h ++ rest ∧ storageTailAt rest = true := by
  unfold remapAstIdStorageAt
  simp only [Bool.or_eq_true, Bool.and_eq_true, List.isPrefixOf_iff_prefix]
  constructor
  · rintro (⟨⟨rest, hr⟩, h2⟩ | ⟨⟨rest, hr⟩, h2⟩)
    · refine ⟨_, rest, Or.inl rfl, hr.symm, ?_⟩
      rw [← hr, List.drop_left' (by decide)] at h2
      exact h2
    · refine ⟨_, rest, Or.inr rfl, hr.symm, ?_⟩
      rw [← hr, List.drop_left' (by decide)] at h2
      exact h2
  · rintro ⟨h, rest, hh | hh, ht, hs⟩
    · left
      subst hh ht
      exact ⟨⟨rest, rfl⟩, by rw [List.drop_left' (by decide)]; exact hs⟩
    · right
      subst hh ht
      exact ⟨⟨rest, rfl⟩, by rw [List.drop_left' (by decide)]; exact hs⟩

theorem storageTailAt_start {rest : Str} (h : storageTailAt rest = true) :
    ∃ r1, rest = '(' :: r1 := by
  unfold storageTailAt at h
  split at h
  · next r1 => exact ⟨r1, rfl⟩
  · cases h

theorem suffixShape_head {g3 : Str} (hg : SuffixShape g3) (c : Char) (r : Str)
    (h : g3 = c :: r) : Char.isDigit c = false := by
  rcases hg with h0 | ⟨r', h1, _⟩
  · rw [h0] at h
    cases h
  · rw [h1] at h
    cases h
    exact isDigit_underscore

/-- On the text after the kind, `storageTailAt` does not look at which digits
the id has. -/
theorem storageTailAt_shape (w2 d g3 : Str) (hw2 : ∀ c ∈ w2, isWord c = true)
    (hd : ∀ c ∈ d, c.isDigit = true) (hg : SuffixShape g3) :
    storageTailAt ('(' :: (w2 ++ ')' :: (d ++ g3)))
      = (!w2.isEmpty && !d.isEmpty && "_storage".toList.isPrefixOf g3) := by
  have t2 := takeWhile_dropWhile_run Char.isDigit d g3 hd (suffixShape_head hg)
  have t1 := takeWhile_dropWhile_run isWord w2 (')' :: (d ++ g3)) hw2
    (by intro c r h; cases h; exact isWord_paren_close)
  simp only [storageTailAt, t1.1, t1.2, t2.1, t2.2]

theorem paren_not_mem_shape (w1 w2 d g3 : Str) (hw1 : WordRun w1) (hw2 : WordRun w2)
    (hd : DigitRun d) (hg : SuffixShape g3) :
    '(' ∉ 't' :: '_' :: w1 ∧ '(' ∉ w2 ++ ')' :: (d ++ g3) := by
  have hword : ∀ w : Str, (∀ c ∈ w, isWord c = true) → '(' ∉ w := by
    intro w hw hmem
    have := hw _ hmem
    rw [isWord_paren_open] at this
    cases this
  have hdig : '(' ∉ d := by
    intro hmem
    have := hd.2 _ hmem
    revert this
    decide
  have hg3 : '(' ∉ g3 := by
    rcases hg with h | ⟨r, h, hr⟩
    · rw [h]
      simp
    · rw [h]
      intro hmem
      rcases List.mem_cons.mp hmem with h' | h'
      · revert h'
        decide
      · exact hword r hr.2 h'
  refine ⟨?_, ?_⟩
  · intro hmem
    rcases List.mem_cons.mp hmem with h | h
    · revert h; decide
    · rcases List.mem_cons.mp h with h | h
      · revert h; decide
      · exact hword w1 hw1.2 h
  · intro hmem
    rcases List.mem_append.mp hmem with h | h
    · exact hword w2 hw2.2 h
    · rcases List.mem_cons.mp h with h | h
      · revert h; decide
      · rcases List.mem_append.mp h with h | h
        · exact hdig h
        · exact hg3 h

/-- Whether `remapAstIdStorage` matches does not depend on the digits of the id. -/
theorem remapAstIdStorage_renumber (w1 w2 d d' g3 : Str) (hw1 : WordRun w1)
    (hw2 : WordRun w2) (hd : DigitRun d) (hd' : DigitRun d') (hg : SuffixShape g3)
    (h : remapAstIdStorage (typePrefix w1 w2 ++ d ++ g3) = true) :
    remapAstIdStorage (typePrefix w1 w2 ++ d' ++ g3) = true := by
  obtain ⟨u, t, hs, ht⟩ := (remapAstIdStorage_iff _).mp h
  obtain ⟨hh, rest, hhh, rfl, htail⟩ := (remapAstIdStorageAt_iff t).mp ht
  obtain ⟨r1, rfl⟩ := storageTailAt_start htail
  obtain ⟨hp1, hp2⟩ := paren_not_mem_shape w1 w2 d g3 hw1 hw2 hd hg
  rw [List.append_assoc, typePrefix_append] at hs
  have hs' : ('t' :: '_' :: w1) ++ '(' :: (w2 ++ ')' :: (d ++ g3))
      = (u ++ hh) ++ '(' :: r1 := by
    rw [List.append_assoc]
    exact hs
  obtain ⟨hu, hr1⟩ := append_split_unique '(' _ _ _ _ hs' hp1 hp2
  subst hr1
  rw [storageTailAt_shape w2 d g3 hw2.2 hd.2 hg] at htail
  have hd0 : d.isEmpty = false := by
    cases d with
    | nil => exact absurd rfl hd.1
    | cons _ _ => rfl
  have hd0' : d'.isEmpty = false := by
    cases d' with
    | nil => exact absurd rfl hd'.1
    | cons _ _ => rfl
  apply (remapAstIdStorage_iff _).mpr
  refine ⟨u, hh ++ '(' :: (w2 ++ ')' :: (d' ++ g3)), ?_, ?_⟩
  · rw [List.append_assoc, typePrefix_append, ← List.append_assoc, ← hu]
    rfl
  · apply (remapAstIdStorageAt_iff _).mpr
    refine ⟨hh, _, hhh, rfl, ?_⟩
    rw [storageTailAt_shape w2 d' g3 hw2.2 hd'.2 hg]
    rw [hd0] at htail
    rw [hd0']
    exact htail

theorem digit_not_in_storage : ∀ c ∈ "storage".toList, Char.isDigit c = false := by decide

/-- A key that passes the filters still passes them when the digits of its id
are replaced by other digits. -/
theorem passesFilters_renumber (w1 w2 d d' g3 : Str) (hw1 : WordRun w1) (hw2 : WordRun w2)
    (hd : DigitRun d) (hd' : DigitRun d') (hg : SuffixShape g3)
    (hp : passesFilters (typePrefix w1 w2 ++ d ++ g3)) :
    passesFilters (typePrefix w1 w2 ++ d' ++ g3) := by
  refine ⟨by simp [typePrefix], ?_, ?_⟩
  · rw [remapTypeRe_of_shape w1 w2 d' g3 hw1 hw2 hd' hg]
    rfl
  · rintro ⟨hc, hr⟩
    apply hp.2.2
    constructor
    · have hdis : ∀ c ∈ d', c ∉ "storage".toList := by
        intro c hc' hmem
        have h1 := hd'.2 c hc'
        rw [digit_not_in_storage c hmem] at h1
        cases h1
      rcases stringsContains_around (typePrefix w1 w2) d' g3 "storage".toList hd'.1
        (by decide) hdis hc with h | h
      · obtain ⟨x, y, hxy⟩ := stringsContains_iff.mp h
        exact stringsContains_iff.mpr ⟨x, y ++ d ++ g3, by rw [hxy]; simp⟩
      · obtain ⟨x, y, hxy⟩ := stringsContains_iff.mp h
        exact stringsContains_iff.mpr ⟨typePrefix w1 w2 ++ d ++ x, y, by rw [hxy]; simp⟩
    · cases hre : remapAstIdStorage (typePrefix w1 w2 ++ d ++ g3) with
      | false => rfl
      | true =>
        rw [remapAstIdStorage_renumber w1 w2 d d' g3 hw1 hw2 hd hd' hg hre] at hr
        cases hr

/-! ## The rewritten keys of a layout without embedded keys -/

/-- For a key that passes the filters and whose digits first occur at the id,
the first pass replaces the id and nothing else. -/
theorem stringsReplace1_renumbered {f : Str} (hp : passesFilters f) (hc : idAtCapture f)
    (id : Nat) : stringsReplace1 f (capturedId f) (strconvItoa id) = renumbered f id := by
  obtain ⟨w1, w2, d, g3, hf, _, _, _, _, hpre, hid, hsuf⟩ := passesFilters_shape hp
  unfold idAtCapture at hc
  unfold renumbered
  rw [hpre, hid] at hc
  rw [hpre, hid, hsuf]
  rw [hf] at hc ⊢
  exact stringsReplace1_at _ _ _ _ hc

/-- A renumbered key passes the filters and carries the new id after the same
kind and name. -/
theorem renumbered_spec {f : Str} (hp : passesFilters f) (id : Nat) :
    passesFilters (renumbered f id) ∧ capturedId (renumbered f id) = strconvItoa id ∧
      capturedPrefix (renumbered f id) = capturedPrefix f ∧
      capturedSuffix (renumbered f id) = capturedSuffix f := by
  obtain ⟨w1, w2, d, g3, hf, hw1, hw2, hd, hg, hpre, hid, hsuf⟩ := passesFilters_shape hp
  have hre := remapTypeRe_of_shape w1 w2 (strconvItoa id) g3 hw1 hw2 (strconvItoa_digitRun id) hg
  unfold renumbered
  rw [hpre, hsuf]
  refine ⟨?_, by simp only [capturedId, hre], by simp only [capturedPrefix, hre],
    by simp only [capturedSuffix, hre]⟩
  rw [hf] at hp
  exact passesFilters_renumber w1 w2 d _ g3 hw1 hw2 hd (strconvItoa_digitRun id) hg hp

/-- The entries of the table of a layout whose type map has distinct keys and
whose ids are at the capture: the `j`-th filtered key with its id replaced by
`1000 + n + j`. -/
theorem typeRemappings_entry (input : StorageLayout) (hnd : (mapKeys input.Types).Nodup)
    (hcap : input.IdsAtCapture) (j : Nat) (f : Str)
    (hj : (filteredKeys input)[j]? = some f) :
    (f, renumbered f (1000 + input.Storage.length + j)) ∈ typeRemappings input := by
  have hmem : f ∈ filteredKeys input := List.getElem?_mem hj
  have hfp : f ∈ mapKeys input.Types ∧ passesFilters f := by
    unfold filteredKeys at hmem
    rw [List.mem_filter, mem_sortedOldTypes] at hmem
    exact ⟨hmem.1, by simpa using hmem.2⟩
  rw [typeRemappings_eq_expected input hnd]
  unfold expectedTable
  apply List.mem_iff_getElem?.mpr
  refine ⟨j, ?_⟩
  rw [List.getElem?_map, List.getElem?_enumFrom, hj]
  simp only [Option.map_some']
  rw [stringsReplace1_renumbered hfp.2 (hcap f hfp.1 hfp.2)]

theorem mem_filteredKeys (input : StorageLayout) (k : Str) :
    k ∈ filteredKeys input ↔ k ∈ mapKeys input.Types ∧ passesFilters k := by
  unfold filteredKeys
  rw [List.mem_filter, mem_sortedOldTypes]
  simp

/-- The fast path of `replaceType`: a key with a non-empty value is replaced
by that value. -/
theorem replaceType_of_key (t : Table) (s v : Str) (hnd : (mapKeys t).Nodup)
    (hmem : (s, v) ∈ t) (hv : v ≠ []) : replaceType t s = v := by
  unfold replaceType
  simp only [mapGet_of_mem t s v [] hnd hmem]
  rw [if_pos hv]

/-- A key that passes the filters is rewritten to itself with the id the
first pass gave it, in whatever order the table is visited. -/
theorem replaceType_filtered (order : RangeOrder) (hv : order.Valid) (input : StorageLayout)
    (hnd : (mapKeys input.Types).Nodup) (hcap : input.IdsAtCapture) (site : RangeSite)
    (j : Nat) (f : Str) (hj : (filteredKeys input)[j]? = some f) :
    replaceType (order site (typeRemappings input)) f
      = renumbered f (1000 + input.Storage.length + j) := by
  have hperm := hv site (typeRemappings input)
  have hp : passesFilters f := ((mem_filteredKeys input f).mp (List.getElem?_mem hj)).2
  apply replaceType_of_key
  · exact (hperm.map Prod.fst).nodup_iff.mpr (typeRemappings_wellFormed input).1
  · exact hperm.mem_iff.mpr (typeRemappings_entry input hnd hcap j f hj)
  · exact (renumbered_spec hp _).1.1

/-- For a layout whose slots have pairwise distinct `AstId`s,
when the table built from the result of a first run maps each of its keys to
itself (the second run gives every type key the id it carries), a second run
returns the result of the first. -/
theorem second_run_of_identity_table (order₁ order₂ : RangeOrder) (input : StorageLayout)
    (hv : order₂.Valid) (hd : input.slotIds.Nodup)
    (hid : ∀ e ∈ typeRemappings (CanonicalizeASTIDs order₁ input), e.2 = e.1) :
    CanonicalizeASTIDs order₂ (CanonicalizeASTIDs order₁ input)
      = CanonicalizeASTIDs order₁ input := by
  have hrt : ∀ site s,
      replaceType (order₂ site (typeRemappings (CanonicalizeASTIDs order₁ input))) s = s :=
    fun site s => replaceType_identity _ s (fun e he => hid e ((hv site _).mem_iff.mp he))
  have hids₁ := slotIds_canonicalize order₁ input hd
  have hnd : (CanonicalizeASTIDs order₁ input).slotIds.Nodup := by
    rw [hids₁]
    exact List.nodup_range' 1000 _
  have hids₂ := slotIds_canonicalize order₂ (CanonicalizeASTIDs order₁ input) hnd
  rw [canonicalize_storage_length, ← hids₁] at hids₂
  apply StorageLayout.eq_of_fields
  · apply List.ext_getElem?
    intro i
    have hi := congrArg (fun l => l[i]?) hids₂
    simp only [StorageLayout.slotIds, List.getElem?_map] at hi
    rw [canonicalize_storage_getElem?] at hi ⊢
    cases hs : (CanonicalizeASTIDs order₁ input).Storage[i]? with
    | none => rfl
    | some slot =>
      rw [hs] at hi
      simp only [Option.map_some', Option.some.injEq] at hi ⊢
      have hc : normalizeContract slot.Contract = slot.Contract := by
        rw [canonicalize_storage_getElem?] at hs
        cases hsrc : input.Storage[i]? with
        | none => rw [hsrc] at hs; cases hs
        | some src =>
          rw [hsrc] at hs
          simp only [Option.map_some', Option.some.injEq] at hs
          rw [← hs]
          exact normalizeContract_idem src.Contract
      simp only [outSlot] at hi ⊢
      rw [hi, hc, hrt]
  · have hs := canonicalize_types_sorted order₁ input
    have hsorted : sortedOldTypes (CanonicalizeASTIDs order₁ input)
        = mapKeys (CanonicalizeASTIDs order₁ input).Types := by
      unfold sortedOldTypes sortStrings
      apply List.Sorted.insertionSort_eq
      exact hs.imp (fun hab => strLt_asymm hab)
    have := outTypes_rebuild order₂ (typeRemappings (CanonicalizeASTIDs order₁ input)) hrt []
      (CanonicalizeASTIDs order₁ input).Types 0 (by simpa using hs)
    show outTypes order₂ _ _ 0 (sortedOldTypes (CanonicalizeASTIDs order₁ input)) [] = _
    rw [hsorted]
    simpa using this

/-! ## The order of renumbered keys -/

theorem strLt_append_left (p x y : Str) : strLt (p ++ x) (p ++ y) = strLt x y := by
  induction p with
  | nil => rfl
  | cons c p ih => simp [strLt, ih]

/-- Two strings neither of which is a prefix of the other compare as they do
with anything appended. -/
theorem strLt_append_of_not_prefix (a b x y : Str) (hab : ¬ a <+: b) (hba : ¬ b <+: a) :
    strLt (a ++ x) (b ++ y) = strLt a b := by
  induction a generalizing b with
  | nil => exact absurd (List.nil_prefix) hab
  | cons c a ih =>
    cases b with
    | nil => exact absurd (List.nil_prefix) hba
    | cons d b =>
      simp only [List.cons_append, strLt]
      by_cases h1 : c.toNat < d.toNat
      · simp [h1]
      · by_cases h2 : d.toNat < c.toNat
        · simp [h1, h2]
        · simp only [h1, h2, if_false]
          have hcd : c = d := charToNat_inj (by omega)
          subst hcd
          apply ih
          · intro h
            exact hab ((List.prefix_cons_inj c).mpr h)
          · intro h
            exact hba ((List.prefix_cons_inj c).mpr h)

/-- Capture group 1 ends at its only closing bracket, so one capture group 1
is a prefix of another only when they are equal. -/
theorem typePrefix_initial (w1 w2 w1' w2' : Str) (hw1' : WordRun w1') (hw2' : WordRun w2')
    (h : typePrefix w1 w2 <+: typePrefix w1' w2') : typePrefix w1 w2 = typePrefix w1' w2' := by
  obtain ⟨r, hr⟩ := h
  have hword : ∀ (c : Char) (w : Str), isWord c = false → (∀ x ∈ w, isWord x = true) → c ∉ w := by
    intro c w hc hw hmem
    rw [hw c hmem] at hc
    cases hc
  have e : ('t' :: '_' :: w1') ++ '(' :: (w2' ++ [')'])
      = ('t' :: '_' :: w1) ++ '(' :: (w2 ++ ')' :: r) := by
    rw [typePrefix_append] at hr
    simp only [typePrefix] at hr
    simpa using hr.symm
  have h1 := append_split_unique '(' _ _ _ _ e
    (by
      intro hm
      simp only [List.mem_cons] at hm
      rcases hm with hm | hm | hm
      · cases hm
      · cases hm
      · exact hword _ _ isWord_paren_open hw1'.2 hm)
    (by
      intro hm
      rw [List.mem_append] at hm
      rcases hm with hm | hm
      · exact hword _ _ isWord_paren_open hw2'.2 hm
      · simp at hm)
  have h2 := append_split_unique ')' _ _ _ _ h1.2
    (hword _ _ isWord_paren_close hw2'.2) (by simp)
  have ew1 : w1' = w1 := by simpa using h1.1
  rw [ew1, h2.1]

theorem digitChar_toNat : ∀ m, m < 10 → (Nat.digitChar m).toNat = 48 + m := by decide

/-- The decimal form of a number of four digits. -/
theorem strconvItoa_four (n : Nat) (h1 : 1000 ≤ n) (h2 : n ≤ 9999) :
    strconvItoa n = [Nat.digitChar (n / 1000), Nat.digitChar (n / 100 % 10),
      Nat.digitChar (n / 10 % 10), Nat.digitChar (n % 10)] := by
  obtain ⟨m, rfl⟩ : ∃ m, n = m + 3 := ⟨n - 3, by omega⟩
  unfold strconvItoa Nat.toDigits
  have e1 : ¬ (m + 3) / 10 = 0 := by omega
  have e2 : ¬ (m + 3) / 10 / 10 = 0 := by omega
  have e3 : ¬ (m + 3) / 10 / 10 / 10 = 0 := by omega
  have e4 : (m + 3) / 10 / 10 / 10 / 10 = 0 := by omega
  simp only [Nat.toDigitsCore, e1, e2, e3, e4, if_false, if_true]
  have d3 : (m + 3) / 10 / 10 / 10 % 10 = (m + 3) / 1000 := by omega
  have d2 : (m + 3) / 10 / 10 % 10 = (m + 3) / 100 % 10 := by omega
  rw [d3, d2]

/-- Among numbers of four digits the order of the decimal forms is the order
of the numbers. -/
theorem strLt_strconvItoa (a b : Nat) (x y : Str) (h1 : 1000 ≤ a) (hab : a < b)
    (h2 : b ≤ 9999) : strLt (strconvItoa a ++ x) (strconvItoa b ++ y) = true := by
  rw [strconvItoa_four a h1 (by omega), strconvItoa_four b (by omega) h2]
  simp only [List.cons_append, List.nil_append, strLt]
  rw [digitChar_toNat (a / 1000) (by omega), digitChar_toNat (b / 1000) (by omega),
    digitChar_toNat (a / 100 % 10) (by omega), digitChar_toNat (b / 100 % 10) (by omega),
    digitChar_toNat (a / 10 % 10) (by omega), digitChar_toNat (b / 10 % 10) (by omega),
    digitChar_toNat (a % 10) (by omega), digitChar_toNat (b % 10) (by omega)]
  split_ifs <;> first | rfl | omega

/-- Renumbering with ids of four digits keeps the order of two keys that pass
the filters. -/
theorem strLt_renumbered {f f' : Str} (hp : passesFilters f) (hp' : passesFilters f')
    (hlt : strLt f f' = true) (a b : Nat) (h1 : 1000 ≤ a) (hab : a < b) (h2 : b ≤ 9999) :
    strLt (renumbered f a) (renumbered f' b) = true := by
  obtain ⟨w1, w2, d, g3, hf, hw1, hw2, _, _, hpre, _, _⟩ := passesFilters_shape hp
  obtain ⟨w1', w2', d', g3', hf', hw1', hw2', _, _, hpre', _, _⟩ := passesFilters_shape hp'
  unfold renumbered
  rw [hpre, hpre']
  by_cases hP : typePrefix w1 w2 = typePrefix w1' w2'
  · rw [hP, List.append_assoc, List.append_assoc, strLt_append_left]
    exact strLt_strconvItoa a b _ _ h1 hab h2
  · have n1 : ¬ typePrefix w1 w2 <+: typePrefix w1' w2' :=
      fun h => hP (typePrefix_initial _ _ _ _ hw1' hw2' h)
    have n2 : ¬ typePrefix w1' w2' <+: typePrefix w1 w2 :=
      fun h => hP (typePrefix_initial _ _ _ _ hw1 hw2 h).symm
    rw [List.append_assoc, List.append_assoc, strLt_append_of_not_prefix _ _ _ _ n1 n2]
    rw [hf, hf', List.append_assoc, List.append_assoc,
      strLt_append_of_not_prefix _ _ _ _ n1 n2] at hlt
    exact hlt

/-! ## Replacements keep a string that fails the filters failing them -/

/-- A run of digits followed by a suffix, with the run replaced by another. -/
theorem digits_tail_swap (d d' D G R : Str) (hd : DigitRun d) (hd' : DigitRun d')
    (hD : DigitRun D) (hG : ∀ c r, G = c :: r → Char.isDigit c = false)
    (h : D ++ G = d' ++ R) : ∃ D2, DigitRun D2 ∧ d ++ R = D2 ++ G := by
  have h1 := (takeWhile_dropWhile_run Char.isDigit D G hD.2 hG).2
  rw [h, List.dropWhile_append_of_pos hd'.2] at h1
  refine ⟨d ++ R.takeWhile Char.isDigit, ⟨by simp [hd.1], ?_⟩, ?_⟩
  · intro c hc
    rcases List.mem_append.mp hc with hc | hc
    · exact hd.2 c hc
    · exact mem_takeWhile_prop _ _ c hc
  · rw [List.append_assoc, ← h1, List.takeWhile_append_dropWhile]

/-- When a string passes the filters, so does the string with an id in it,
after a kind and a name, replaced by another. -/
theorem passesFilters_in_context (A B w1 w2 d d' g : Str) (hd : DigitRun d)
    (hd' : DigitRun d')
    (hp : passesFilters (A ++ (typePrefix w1 w2 ++ d' ++ g) ++ B)) :
    passesFilters (A ++ (typePrefix w1 w2 ++ d ++ g) ++ B) := by
  obtain ⟨W1, W2, D, G, hs, hW1, hW2, hD, hG, _, _, _⟩ := passesFilters_shape hp
  have hword : ∀ (c : Char) (w : Str), isWord c = false → (∀ x ∈ w, isWord x = true) → c ∉ w := by
    intro c w hc hw hmem
    rw [hw c hmem] at hc
    cases hc
  have hGword : ∀ c ∈ G, isWord c = true := by
    rcases hG with h | ⟨r, h, hr⟩
    · rw [h]; simp
    · rw [h]
      intro c hc
      rcases List.mem_cons.mp hc with rfl | hc
      · decide
      · exact hr.2 c hc
  have hDword : ∀ c ∈ D, isWord c = true := by
    intro c hc
    have := hD.2 c hc
    simp only [isWord, Char.isAlphanum, this, Bool.or_true, Bool.true_or]
  have e : ('t' :: '_' :: W1) ++ '(' :: (W2 ++ ')' :: (D ++ G))
      = (A ++ 't' :: '_' :: w1) ++ '(' :: (w2 ++ ')' :: (d' ++ (g ++ B))) := by
    have := hs.symm
    simp only [typePrefix, List.append_assoc, List.cons_append, List.nil_append] at this ⊢
    exact this
  have hp1 := paren_not_mem_shape W1 W2 D G hW1 hW2 hD hG
  have h1 := append_split_unique '(' _ _ _ _ e hp1.1 hp1.2
  have h2 := append_split_unique ')' _ _ _ _ h1.2 (hword _ _ isWord_paren_close hW2.2)
    (by
      intro hm
      rcases List.mem_append.mp hm with hm | hm
      · exact hword _ _ isWord_paren_close hDword hm
      · exact hword _ _ isWord_paren_close hGword hm)
  have hG0 : ∀ c r, G = c :: r → Char.isDigit c = false := by
    intro c r hcr
    rcases hG with h | ⟨r', h, _⟩
    · rw [h] at hcr; cases hcr
    · rw [h] at hcr
      cases hcr
      decide
  obtain ⟨D2, hD2, hswap⟩ := digits_tail_swap d d' D G (g ++ B) hd hd' hD hG0 h2.2
  have hnew : A ++ (typePrefix w1 w2 ++ d ++ g) ++ B = typePrefix W1 W2 ++ D2 ++ G := by
    have e2 : A ++ (typePrefix w1 w2 ++ d ++ g) ++ B
        = (A ++ 't' :: '_' :: w1) ++ '(' :: (w2 ++ ')' :: (d ++ (g ++ B))) := by
      simp [typePrefix]
    rw [e2, ← h1.1, ← h2.1, hswap]
    simp [typePrefix]
  rw [hnew]
  rw [hs] at hp
  exact passesFilters_renumber W1 W2 D D2 G hW1 hW2 hD hD2 hG hp

/-- One replacement of a key that passes the filters by its renumbered form
does not make a string pass the filters. -/
theorem passesFilters_of_stringsReplace1 (s f : Str) (id : Nat) (hf : passesFilters f)
    (hp : passesFilters (stringsReplace1 s f (renumbered f id))) : passesFilters s := by
  unfold stringsReplace1 at hp
  split at hp
  · exact hp
  · cases hidx : stringsIndex s f with
    | none =>
      rw [hidx] at hp
      exact hp
    | some j =>
      rw [hidx] at hp
      simp only at hp
      obtain ⟨w1, w2, d, g3, hfe, _, _, hd, _, hpre, _, hsuf⟩ := passesFilters_shape hf
      have hsplit := (stringsIndex_eq_some hidx).2.1
      unfold renumbered at hp
      rw [hpre, hsuf] at hp
      have hctx := passesFilters_in_context _ _ w1 w2 d (strconvItoa id) g3 hd
        (strconvItoa_digitRun id) hp
      rw [← hfe] at hctx
      rw [hsplit]
      exact hctx

/-- The entries of the table of a layout whose ids are at the capture: a key
that passes the filters and its renumbered form. -/
theorem typeRemappings_entries (input : StorageLayout) (hnd : (mapKeys input.Types).Nodup)
    (hcap : input.IdsAtCapture) :
    ∀ e ∈ typeRemappings input, passesFilters e.1 ∧ ∃ id, e.2 = renumbered e.1 id := by
  intro e he
  rw [typeRemappings_eq_expected input hnd] at he
  unfold expectedTable at he
  rw [List.mem_map] at he
  obtain ⟨⟨id, k⟩, hmem, rfl⟩ := he
  have hk := (mem_filteredKeys input k).mp (List.snd_mem_of_mem_enumFrom hmem)
  exact ⟨hk.2, id, stringsReplace1_renumbered hk.2 (hcap k hk.1 hk.2) id⟩

theorem passesFilters_of_applyMatches (ms : List typeRemapping) (s : Str)
    (hms : ∀ m ∈ ms, passesFilters m.oldType ∧ ∃ id, m.newType = renumbered m.oldType id)
    (hp : passesFilters (applyMatches ms s)) : passesFilters s := by
  unfold applyMatches at hp
  induction ms generalizing s with
  | nil => exact hp
  | cons m ms ih =>
    rw [List.foldl_cons] at hp
    have h1 := ih _ (fun x hx => hms x (List.mem_cons_of_mem _ hx)) hp
    obtain ⟨hm, id, hid⟩ := hms m (List.mem_cons_self _ _)
    rw [hid] at h1
    exact passesFilters_of_stringsReplace1 s m.oldType id hm h1

/-- A string that fails the filters of the first pass is rewritten, by the
table of a layout whose ids are at the capture, to a string that fails them. -/
theorem replaceType_keeps_unfiltered (order : RangeOrder) (hv : order.Valid)
    (input : StorageLayout) (hnd : (mapKeys input.Types).Nodup) (hcap : input.IdsAtCapture)
    (site : RangeSite) (s : Str) (hs : ¬ passesFilters s) :
    ¬ passesFilters (replaceType (order site (typeRemappings input)) s) := by
  have hperm := hv site (typeRemappings input)
  have hkeys : s ∉ mapKeys (order site (typeRemappings input)) := by
    intro hmem
    exact hs (typeRemappings_keys input s ((hperm.map Prod.fst).mem_iff.mp hmem))
  unfold replaceType
  simp only [mapGet_of_not_mem _ s [] hkeys, ne_eq, not_true_eq_false, if_false]
  intro hp
  apply hs
  apply passesFilters_of_applyMatches _ s _ hp
  intro m hm
  unfold collectMatches at hm
  rw [List.mem_map] at hm
  obtain ⟨e, he, rfl⟩ := hm
  exact typeRemappings_entries input hnd hcap e (hperm.mem_iff.mp (List.mem_filter.mp he).1)

/-! ## The table of a canonical layout -/

theorem filteredKeys_sorted (input : StorageLayout) (hnd : (mapKeys input.Types).Nodup) :
    (filteredKeys input).Pairwise (fun a b => strLt a b = true) :=
  (sorted_strLt_of_nodup (sortStrings_sorted _) (sortedOldTypes_nodup input hnd)).sublist
    (List.filter_sublist _)

theorem filteredKeys_length_le (input : StorageLayout) :
    (filteredKeys input).length ≤ input.Types.length := by
  unfold filteredKeys
  refine (List.length_filter_le _ _).trans ?_
  unfold sortedOldTypes
  rw [(sortStrings_perm _).length_eq]
  simp [mapKeys]

/-- Keys in increasing order that pass the filters, renumbered from `s` on
with ids of four digits, are in increasing order. -/
theorem renumbered_sorted (l : List Str) (s : Nat) (hs : 1000 ≤ s) (hl : s + l.length ≤ 10000)
    (hp : ∀ f ∈ l, passesFilters f) (hsorted : l.Pairwise (fun a b => strLt a b = true)) :
    ((List.enumFrom s l).map (fun e => renumbered e.2 e.1)).Pairwise
      (fun a b => strLt a b = true) := by
  induction l generalizing s with
  | nil => exact List.Pairwise.nil
  | cons f l ih =>
    rw [List.pairwise_cons] at hsorted
    simp only [List.enumFrom_cons, List.map_cons, List.pairwise_cons, List.length_cons] at hl ⊢
    constructor
    · intro x hx
      rw [List.mem_map] at hx
      obtain ⟨⟨id, f'⟩, hmem, rfl⟩ := hx
      have hge := List.le_fst_of_mem_enumFrom hmem
      have hlt := List.fst_lt_add_of_mem_enumFrom hmem
      have hf' := List.snd_mem_of_mem_enumFrom hmem
      simp only at hge hlt hf' ⊢
      exact strLt_renumbered (hp f (List.mem_cons_self _ _))
        (hp f' (List.mem_cons_of_mem _ hf')) (hsorted.1 f' hf') s id hs (by omega) (by omega)
    · exact ih (s + 1) (by omega) (by omega)
        (fun f' hf' => hp f' (List.mem_cons_of_mem _ hf')) hsorted.2

theorem renumberedKeys_sorted (input : StorageLayout) (hnd : (mapKeys input.Types).Nodup)
    (hsmall : input.Storage.length + input.Types.length ≤ 9000) :
    (renumberedKeys input).Pairwise (fun a b => strLt a b = true) := by
  unfold renumberedKeys
  have := filteredKeys_length_le input
  exact renumbered_sorted _ _ (by omega) (by omega)
    (fun f hf => ((mem_filteredKeys input f).mp hf).2) (filteredKeys_sorted input hnd)

theorem mem_renumberedKeys (input : StorageLayout) (k : Str) :
    k ∈ renumberedKeys input ↔
      ∃ j f, (filteredKeys input)[j]? = some f ∧
        k = renumbered f (1000 + input.Storage.length + j) := by
  unfold renumberedKeys
  simp only [List.mem_map, Prod.exists]
  constructor
  · rintro ⟨id, f, hmem, rfl⟩
    rw [List.mk_mem_enumFrom_iff_le_and_getElem?_sub] at hmem
    exact ⟨id - (1000 + input.Storage.length), f, hmem.2, by
      rw [Nat.add_sub_cancel' hmem.1]⟩
  · rintro ⟨j, f, hj, rfl⟩
    refine ⟨1000 + input.Storage.length + j, f, ?_, rfl⟩
    rw [List.mk_mem_enumFrom_iff_le_and_getElem?_sub]
    exact ⟨by omega, by rw [Nat.add_sub_cancel_left]; exact hj⟩

/-- The keys of the result of a run that pass the filters are the renumbered
keys of the input. -/
theorem mem_filteredKeys_canonicalize (order : RangeOrder) (hv : order.Valid)
    (input : StorageLayout) (hnd : (mapKeys input.Types).Nodup)
    (hcap : input.IdsAtCapture) (k : Str) :
    k ∈ filteredKeys (CanonicalizeASTIDs order input) ↔ k ∈ renumberedKeys input := by
  rw [mem_filteredKeys, mem_canonicalize_types, mem_rewrittenKeys, mem_renumberedKeys]
  constructor
  · rintro ⟨⟨n, old, hn, rfl⟩, hpass⟩
    have hold : old ∈ mapKeys input.Types :=
      (mem_sortedOldTypes input old).mp (List.getElem?_mem hn)
    by_cases hp : passesFilters old
    · obtain ⟨j, hj⟩ := List.mem_iff_getElem?.mp ((mem_filteredKeys input old).mpr ⟨hold, hp⟩)
      exact ⟨j, old, hj, replaceType_filtered order hv input hnd hcap _ j old hj⟩
    · exact absurd hpass (replaceType_keeps_unfiltered order hv input hnd hcap _ old hp)
  · rintro ⟨j, f, hj, rfl⟩
    have hf := (mem_filteredKeys input f).mp (List.getElem?_mem hj)
    obtain ⟨n, hn⟩ := List.mem_iff_getElem?.mp ((mem_sortedOldTypes input f).mpr hf.1)
    exact ⟨⟨n, f, hn, (replaceType_filtered order hv input hnd hcap _ j f hj).symm⟩,
      (renumbered_spec hf.2 _).1⟩

theorem eq_of_strLt_sorted {l₁ l₂ : List Str}
    (h₁ : l₁.Pairwise (fun a b => strLt a b = true))
    (h₂ : l₂.Pairwise (fun a b => strLt a b = true)) (hmem : ∀ x, x ∈ l₁ ↔ x ∈ l₂) :
    l₁ = l₂ :=
  List.eq_of_perm_of_sorted
    ((List.perm_ext_iff_of_nodup (nodup_of_strLt h₁) (nodup_of_strLt h₂)).mpr hmem)
    (show l₁.Sorted strLe from h₁.imp (fun hab => strLt_asymm hab))
    (show l₂.Sorted strLe from h₂.imp (fun hab => strLt_asymm hab))

theorem filteredKeys_canonicalize (order : RangeOrder) (hv : order.Valid)
    (input : StorageLayout) (hnd : (mapKeys input.Types).Nodup)
    (hcap : input.IdsAtCapture) (hsmall : input.Storage.length + input.Types.length ≤ 9000) :
    filteredKeys (CanonicalizeASTIDs order input) = renumberedKeys input :=
  eq_of_strLt_sorted
    (filteredKeys_sorted _ (nodup_of_strLt (canonicalize_types_sorted order input)))
    (renumberedKeys_sorted input hnd hsmall)
    (mem_filteredKeys_canonicalize order hv input hnd hcap)

/-- The table built from the result of a run maps each of its keys to itself,
for a layout with its ids at the capture and with at most 9000 slots and
types. -/
theorem typeRemappings_canonicalize_identity (order : RangeOrder) (hv : order.Valid)
    (input : StorageLayout) (hnd : (mapKeys input.Types).Nodup)
    (hcap : input.IdsAtCapture) (hsmall : input.Storage.length + input.Types.length ≤ 9000) :
    ∀ e ∈ typeRemappings (CanonicalizeASTIDs order input), e.2 = e.1 := by
  intro e he
  rw [typeRemappings_eq_expected _ (nodup_of_strLt (canonicalize_types_sorted order input))]
    at he
  unfold expectedTable at he
  rw [filteredKeys_canonicalize order hv input hnd hcap hsmall,
    canonicalize_storage_length] at he
  rw [List.mem_map] at he
  obtain ⟨⟨id, k⟩, hmem, rfl⟩ := he
  rw [List.mk_mem_enumFrom_iff_le_and_getElem?_sub] at hmem
  obtain ⟨hge, hk⟩ := hmem
  unfold renumberedKeys at hk
  rw [List.getElem?_map, List.getElem?_enumFrom] at hk
  cases hf : (filteredKeys input)[id - (1000 + input.Storage.length)]? with
  | none => rw [hf] at hk; cases hk
  | some f =>
    rw [hf] at hk
    simp only [Option.map_some', Option.some.injEq] at hk
    rw [Nat.add_sub_cancel' hge] at hk
    have hp := ((mem_filteredKeys input f).mp (List.getElem?_mem hf)).2
    simp only
    rw [← hk, (renumbered_spec hp id).2.1]
    unfold stringsReplace1
    rw [if_pos rfl]

/-! ## Ids whose digits occur in the name -/

/-- In `idInNameLayout` no key that fails the filters contains a key that
passes them, but the digit of the two ids first occurs in the names: both keys
are rewritten to `t_contract(A10021001)7`, and the output type map has one
entry for two input keys. -/
theorem ids_in_names_collide :
    (mapKeys idInNameLayout.Types).Nodup ∧ idInNameLayout.NoEmbeddedKey ∧
      ¬ idInNameLayout.IdsAtCapture ∧
      rewrittenKeys RangeOrder.asBuilt idInNameLayout
        = ["t_contract(A10021001)7".toList, "t_contract(A10021001)7".toList] ∧
      (CanonicalizeASTIDs RangeOrder.asBuilt idInNameLayout).Types.length = 1 := by
  refine ⟨?_, ?_, ?_, ?_, ?_⟩ <;> decide

/-! ## The claims -/

/-- C3. Slot ids follow slot order: when the slots of the input have pairwise
distinct `AstId`s, the `i`-th output slot has `AstId` `1000 + i`, whatever the
slot holds; the output ids are `1000, 1001, ...` in slot order and strictly
increasing along the slots. -/
theorem slot_ids_follow_slot_order (order : RangeOrder) (input : StorageLayout)
    (hd : input.slotIds.Nodup) :
    (∀ i, i < input.Storage.length →
        ((CanonicalizeASTIDs order input).Storage[i]?).map (fun slot => slot.AstId)
          = some (1000 + i)) ∧
      (CanonicalizeASTIDs order input).slotIds = List.range' 1000 input.Storage.length ∧
      (CanonicalizeASTIDs order input).slotIds.Sorted (· < ·) := by
  have h := slotIds_canonicalize order input hd
  refine ⟨?_, h, ?_⟩
  · intro i hi
    have h2 := congrArg (fun l => l[i]?) h
    simp only [StorageLayout.slotIds, List.getElem?_map] at h2
    rw [h2, List.getElem?_range' _ _ hi]
    simp
  · rw [h]
    exact List.pairwise_lt_range' 1000 _

/-- C3, at the layout `overlapLayout`, whose two slots have the ids 5 and 9. -/
theorem slot_ids_follow_slot_order_witness :
    overlapLayout.slotIds = [5, 9] ∧
      (∀ i, i < 2 →
        ((CanonicalizeASTIDs RangeOrder.reversed overlapLayout).Storage[i]?).map
          (fun slot => slot.AstId) = some (1000 + i)) ∧
      (CanonicalizeASTIDs RangeOrder.reversed overlapLayout).slotIds = [1000, 1001] ∧
      (CanonicalizeASTIDs RangeOrder.reversed overlapLayout).slotIds.Sorted (· < ·) :=
  ⟨by decide, slot_ids_follow_slot_order RangeOrder.reversed overlapLayout (by decide)⟩

/-- C4 as stated fails: the two slots of `sameIdLayout` carry the same `AstId`,
and both output slots get the id 1001. -/
theorem same_input_id_same_output_id :
    (CanonicalizeASTIDs RangeOrder.asBuilt sameIdLayout).slotIds = [1001, 1001] ∧
      ¬ (CanonicalizeASTIDs RangeOrder.asBuilt sameIdLayout).slotIds.Nodup := by
  decide

/-- C4, amended. When the slots of the input have pairwise distinct `AstId`s,
the `AstId`s of the output slots are pairwise distinct. -/
theorem slot_ids_distinct (order : RangeOrder) (input : StorageLayout)
    (hd : input.slotIds.Nodup) : (CanonicalizeASTIDs order input).slotIds.Nodup := by
  rw [slotIds_canonicalize order input hd]
  exact List.nodup_range' 1000 _

/-- C4 amended, at the layout `overlapLayout`. -/
theorem slot_ids_distinct_witness :
    overlapLayout.slotIds.Nodup ∧
      (CanonicalizeASTIDs RangeOrder.asBuilt overlapLayout).slotIds.Nodup :=
  ⟨by decide, slot_ids_distinct RangeOrder.asBuilt overlapLayout (by decide)⟩

/-- C5 as stated fails: the only slot of `oneSlotLayout` gets the id 1000,
which is the base counter itself and not greater than it. -/
theorem first_slot_gets_base :
    (CanonicalizeASTIDs RangeOrder.asBuilt oneSlotLayout).slotIds = [1000] ∧
      ¬ ∀ slot ∈ (CanonicalizeASTIDs RangeOrder.asBuilt oneSlotLayout).Storage,
          1000 < slot.AstId := by
  decide

/-- C5, amended. Every output slot's `AstId` is at least the base counter 1000
(and below 1000 plus the number of slots). -/
theorem slot_ids_at_least_base (order : RangeOrder) (input : StorageLayout)
    (slot : StorageLayoutEntry) (hs : slot ∈ (CanonicalizeASTIDs order input).Storage) :
    1000 ≤ slot.AstId ∧ slot.AstId < 1000 + input.Storage.length := by
  obtain ⟨i, hi⟩ := List.mem_iff_getElem?.mp hs
  rw [canonicalize_storage_getElem?] at hi
  cases hin : input.Storage[i]? with
  | none => rw [hin] at hi; cases hi
  | some src =>
    rw [hin] at hi
    simp only [Option.map_some', Option.some.injEq] at hi
    subst hi
    have hmem : src.AstId ∈ input.Storage.map (fun slot => slot.AstId) :=
      List.mem_map_of_mem _ (List.getElem?_mem hin)
    exact mapGet_assignSlotIds_bounds input.Storage [] 1000 src.AstId 0 hmem

/-- C5 amended, at the second output slot of `sameIdLayout`. -/
theorem slot_ids_at_least_base_witness :
    sameIdOutSlot ∈ (CanonicalizeASTIDs RangeOrder.asBuilt sameIdLayout).Storage ∧
      1000 ≤ sameIdOutSlot.AstId ∧
      sameIdOutSlot.AstId < 1000 + sameIdLayout.Storage.length :=
  ⟨by decide, slot_ids_at_least_base RangeOrder.asBuilt sameIdLayout sameIdOutSlot (by decide)⟩

/-- C8 as stated fails: `filepath.Join` drops the empty component of
`/home/user/optimism/packages//contracts/Foo.sol`, so the output is not the
components after `optimism` rejoined with slashes. -/
theorem join_drops_empty_component :
    stringsSplit "/home/user/optimism/packages//contracts/Foo.sol".toList
        = ["".toList, "home".toList, "user".toList] ++ "optimism".toList ::
            ["packages".toList, "".toList, "contracts".toList, "Foo.sol".toList] ∧
      stringsJoin ["packages".toList, "".toList, "contracts".toList, "Foo.sol".toList]
        = "packages//contracts/Foo.sol".toList ∧
      (CanonicalizeASTIDs RangeOrder.asBuilt
          (pathLayout "/home/user/optimism/packages//contracts/Foo.sol")).Storage.map
            (fun slot => slot.Contract) = ["packages/contracts/Foo.sol".toList] ∧
      (CanonicalizeASTIDs RangeOrder.asBuilt
          (pathLayout "/home/user/optimism/packages//contracts/Foo.sol")).Storage.map
            (fun slot => slot.Contract)
        ≠ [stringsJoin ["packages".toList, "".toList, "contracts".toList, "Foo.sol".toList]] := by
  decide

/-- C8, amended. For a slot whose `Contract` is an absolute path with a
component `optimism`, when every component after the first `optimism` is
non-empty and is neither `.` nor `..`, the output slot's `Contract` is these
components rejoined with slashes. -/
theorem contract_normalized (order : RangeOrder) (input : StorageLayout) (i : Nat)
    (slot : StorageLayoutEntry) (before after : List Str)
    (hs : input.Storage[i]? = some slot)
    (habs : filepathIsAbs slot.Contract = true)
    (hsplit : stringsSplit slot.Contract = before ++ "optimism".toList :: after)
    (hfirst : "optimism".toList ∉ before) (hreal : ∀ e ∈ after, realElem e) :
    ∃ out, (CanonicalizeASTIDs order input).Storage[i]? = some out ∧
      out.Contract = stringsJoin after := by
  rw [canonicalize_storage_getElem?, hs]
  exact ⟨_, rfl, normalizeContract_marked _ before after habs hsplit hfirst hreal⟩

/-- C8 amended, at the path `/home/user/build/optimism/packages/contracts/Foo.sol`. -/
theorem contract_normalized_witness :
    ∃ out, (CanonicalizeASTIDs RangeOrder.asBuilt
        (pathLayout "/home/user/build/optimism/packages/contracts/Foo.sol")).Storage[0]?
          = some out ∧
      out.Contract = stringsJoin ["packages".toList, "contracts".toList, "Foo.sol".toList] :=
  contract_normalized RangeOrder.asBuilt
    (pathLayout "/home/user/build/optimism/packages/contracts/Foo.sol") 0
    { AstId := 1, Contract := "/home/user/build/optimism/packages/contracts/Foo.sol".toList
      Label := "x".toList, Offset := 0, Slot := 0, Type_ := "t_uint256".toList }
    ["".toList, "home".toList, "user".toList, "build".toList]
    ["packages".toList, "contracts".toList, "Foo.sol".toList]
    (by decide) (by decide) (by decide) (by decide) (by decide)

/-- C9. A slot whose `Contract` is a relative path, or an absolute path none
of whose components is `optimism`, keeps its `Contract` exactly. -/
theorem contract_untouched (order : RangeOrder) (input : StorageLayout) (i : Nat)
    (slot : StorageLayoutEntry) (hs : input.Storage[i]? = some slot)
    (h : filepathIsAbs slot.Contract = false ∨
      "optimism".toList ∉ stringsSplit slot.Contract) :
    ∃ out, (CanonicalizeASTIDs order input).Storage[i]? = some out ∧
      out.Contract = slot.Contract := by
  rw [canonicalize_storage_getElem?, hs]
  exact ⟨_, rfl, normalizeContract_unchanged _ h⟩

/-- C9, at the relative path `contracts/Foo.sol` and at the absolute path
`/home/user/build/contracts/Foo.sol`, which has no component `optimism`. -/
theorem contract_untouched_witness :
    (∃ out, (CanonicalizeASTIDs RangeOrder.asBuilt fixedArrayLayout).Storage[0]? = some out ∧
      out.Contract = "contracts/Foo.sol".toList) ∧
    (∃ out, (CanonicalizeASTIDs RangeOrder.asBuilt
        (pathLayout "/home/user/build/contracts/Foo.sol")).Storage[0]? = some out ∧
      out.Contract = "/home/user/build/contracts/Foo.sol".toList) :=
  ⟨contract_untouched RangeOrder.asBuilt fixedArrayLayout 0
      { AstId := 3, Contract := "contracts/Foo.sol".toList, Label := "gap".toList
        Offset := 0, Slot := 0, Type_ := "t_array(t_uint256)10_storage".toList }
      (by decide) (Or.inl (by decide)),
    contract_untouched RangeOrder.asBuilt (pathLayout "/home/user/build/contracts/Foo.sol") 0
      { AstId := 1, Contract := "/home/user/build/contracts/Foo.sol".toList
        Label := "x".toList, Offset := 0, Slot := 0, Type_ := "t_uint256".toList }
      (by decide) (Or.inr (by decide))⟩

/-- C10. The output has as many slots as the input, and the `i`-th output slot
is the `i`-th input slot with the same `Label`, `Offset` and `Slot`, with
`Type` rewritten by `replaceType` on the table (in the order of that loop's
visit), `AstId` looked up in the id table and `Contract` normalized. -/
theorem slots_copied_in_order (order : RangeOrder) (input : StorageLayout) :
    (CanonicalizeASTIDs order input).Storage.length = input.Storage.length ∧
      ∀ i slot, input.Storage[i]? = some slot →
        ∃ out, (CanonicalizeASTIDs order input).Storage[i]? = some out ∧
          out.Label = slot.Label ∧ out.Offset = slot.Offset ∧ out.Slot = slot.Slot ∧
          out.Type_ = replaceType (order (.slotType i) (typeRemappings input)) slot.Type_ ∧
          out.AstId = mapGet (astIDRemappings input) slot.AstId 0 ∧
          out.Contract = normalizeContract slot.Contract := by
  refine ⟨?_, ?_⟩
  · unfold CanonicalizeASTIDs
    simp only [outSlots_length]
  · intro i slot hs
    rw [canonicalize_storage_getElem?, hs]
    exact ⟨_, rfl, rfl, rfl, rfl, rfl, rfl, rfl⟩

/-- C7. Composite substitution: with a table whose single entry is
`old -> new`, and a string `s` other than `old` in which `old` occurs,
`replaceType` returns `s` with the first occurrence of `old` replaced by `new`
and the text before and after it unchanged. -/
theorem replaceType_single_entry (old new s : Str) (hne : s ≠ old)
    (hc : stringsContains s old = true) :
    ∃ a b, s = a ++ old ++ b ∧ (∀ a' b', s = a' ++ old ++ b' → a.length ≤ a'.length) ∧
      replaceType [(old, new)] s = a ++ new ++ b := by
  have hget : mapGet [(old, new)] s [] = [] := by
    simp [mapGet, Ne.symm hne]
  have hrep : replaceType [(old, new)] s = stringsReplace1 s old new := by
    unfold replaceType
    simp [hget, collectMatches, applyMatches, hc]
  cases hj : stringsIndex s old with
  | none => simp [stringsContains, hj] at hc
  | some j =>
    obtain ⟨hlen, hsplit, hmin⟩ := stringsIndex_eq_some hj
    refine ⟨s.take j, s.drop (j + old.length), hsplit, ?_, ?_⟩
    · intro a' b' hab
      have := hmin a' b' hab
      simpa [List.length_take, Nat.min_eq_left hlen] using this
    · rw [hrep]
      unfold stringsReplace1
      split
      · next heq =>
        subst heq
        exact hsplit
      · simp [hj]

/-- C7, at the example of the specification: the table maps
`t_struct(Foo)500_storage` to `t_struct(Foo)1002_storage` and the string is
`t_mapping(t_address,t_struct(Foo)500_storage)`. -/
theorem replaceType_single_entry_witness :
    replaceType [("t_struct(Foo)500_storage".toList, "t_struct(Foo)1002_storage".toList)]
        "t_mapping(t_address,t_struct(Foo)500_storage)".toList
      = "t_mapping(t_address,t_struct(Foo)1002_storage)".toList ∧
    ∃ a b, "t_mapping(t_address,t_struct(Foo)500_storage)".toList
        = a ++ "t_struct(Foo)500_storage".toList ++ b ∧
      (∀ a' b', "t_mapping(t_address,t_struct(Foo)500_storage)".toList
        = a' ++ "t_struct(Foo)500_storage".toList ++ b' → a.length ≤ a'.length) ∧
      replaceType [("t_struct(Foo)500_storage".toList, "t_struct(Foo)1002_storage".toList)]
          "t_mapping(t_address,t_struct(Foo)500_storage)".toList
        = a ++ "t_struct(Foo)1002_storage".toList ++ b :=
  ⟨by decide,
    replaceType_single_entry "t_struct(Foo)500_storage".toList
      "t_struct(Foo)1002_storage".toList
      "t_mapping(t_address,t_struct(Foo)500_storage)".toList (by decide) (by decide)⟩

/-- C6 as stated fails: the key `t_array(t_contract(A)12)dyn_storage` of
`contractArrayLayout` contains `storage` and does not match
`remapAstIdStorage`, yet the output map stores its entry under
`t_array(t_contract(A)1001)dyn_storage`, because the old type of the contract
occurs in it. -/
theorem storage_key_rewritten_inside :
    "t_array(t_contract(A)12)dyn_storage".toList ∈ mapKeys contractArrayLayout.Types ∧
      stringsContains "t_array(t_contract(A)12)dyn_storage".toList "storage".toList = true ∧
      remapAstIdStorage "t_array(t_contract(A)12)dyn_storage".toList = false ∧
      replaceType (typeRemappings contractArrayLayout)
          "t_array(t_contract(A)12)dyn_storage".toList
        = "t_array(t_contract(A)1001)dyn_storage".toList ∧
      mapKeys (CanonicalizeASTIDs RangeOrder.asBuilt contractArrayLayout).Types
        = ["t_array(t_contract(A)1001)dyn_storage".toList, "t_contract(A)1001".toList] ∧
      "t_array(t_contract(A)12)dyn_storage".toList
        ∉ mapKeys (CanonicalizeASTIDs RangeOrder.asBuilt contractArrayLayout).Types := by
  decide

/-- C6, amended. A key `k` of the type map that contains `storage` and does
not match `remapAstIdStorage` is not a key of the table, so no id is given to
it; and when no old type of the table occurs in `k`, every call of
`replaceType` returns `k` itself, so `k` is a key of the output type map. -/
theorem storage_exception (order : RangeOrder) (hv : order.Valid) (input : StorageLayout)
    (k : Str) (hk : k ∈ mapKeys input.Types)
    (hs : stringsContains k "storage".toList = true) (hn : remapAstIdStorage k = false) :
    k ∉ mapKeys (typeRemappings input) ∧
      ((∀ old ∈ mapKeys (typeRemappings input), stringsContains k old = false) →
        (∀ site, replaceType (order site (typeRemappings input)) k = k) ∧
          k ∈ mapKeys (CanonicalizeASTIDs order input).Types) := by
  refine ⟨fun hmem => (typeRemappings_keys input k hmem).2.2 ⟨hs, hn⟩, fun hfree => ?_⟩
  have hsite : ∀ site, replaceType (order site (typeRemappings input)) k = k := by
    intro site
    apply replaceType_of_no_match
    intro old hold
    apply hfree
    exact ((hv site (typeRemappings input)).map Prod.fst).mem_iff.mp hold
  refine ⟨hsite, ?_⟩
  unfold CanonicalizeASTIDs
  rw [mapKeys_outTypes]
  obtain ⟨n, hn⟩ := List.mem_iff_getElem?.mp ((mem_sortedOldTypes input k).mpr hk)
  exact Or.inr ⟨n, k, hn, (hsite _).symm⟩

/-- C6 amended, at the key `t_array(t_uint256)10_storage` of
`fixedArrayLayout`, whose table has the single old type
`t_struct(Foo)500_storage`. -/
theorem storage_exception_witness :
    "t_array(t_uint256)10_storage".toList ∉ mapKeys (typeRemappings fixedArrayLayout) ∧
      (∀ site, replaceType (RangeOrder.reversed site (typeRemappings fixedArrayLayout))
        "t_array(t_uint256)10_storage".toList = "t_array(t_uint256)10_storage".toList) ∧
      "t_array(t_uint256)10_storage".toList
        ∈ mapKeys (CanonicalizeASTIDs RangeOrder.reversed fixedArrayLayout).Types :=
  ⟨(storage_exception RangeOrder.reversed RangeOrder.reversed_valid fixedArrayLayout
      "t_array(t_uint256)10_storage".toList (by decide) (by decide) (by decide)).1,
    (storage_exception RangeOrder.reversed RangeOrder.reversed_valid fixedArrayLayout
      "t_array(t_uint256)10_storage".toList (by decide) (by decide) (by decide)).2
      (by decide)⟩

/-- C1 fails on the code. `overlapLayout` is referentially closed and its type
keys are distinct; its table has the old types `t_contract(A)12` and
`t_contract(A)123`, and both occur in `t_mapping(t_address,t_contract(A)123)`.
When the loops of `replaceType` visit the table in the order it was built the
first slot's type becomes `t_mapping(t_address,t_contract(A)10023)`; when they
visit it in the opposite order it becomes
`t_mapping(t_address,t_contract(A)1003)`.  The two outputs differ. -/
theorem output_depends_on_range_order :
    overlapLayout.Closed ∧ (mapKeys overlapLayout.Types).Nodup ∧
      RangeOrder.asBuilt.Valid ∧ RangeOrder.reversed.Valid ∧
      typeRemappings overlapLayout
        = [("t_contract(A)12".toList, "t_contract(A)1002".toList),
            ("t_contract(A)123".toList, "t_contract(A)1003".toList)] ∧
      (CanonicalizeASTIDs RangeOrder.asBuilt overlapLayout).Storage.map (fun slot => slot.Type_)
        = ["t_mapping(t_address,t_contract(A)10023)".toList, "t_contract(A)1002".toList] ∧
      (CanonicalizeASTIDs RangeOrder.reversed overlapLayout).Storage.map (fun slot => slot.Type_)
        = ["t_mapping(t_address,t_contract(A)1003)".toList, "t_contract(A)1002".toList] ∧
      CanonicalizeASTIDs RangeOrder.asBuilt overlapLayout
        ≠ CanonicalizeASTIDs RangeOrder.reversed overlapLayout :=
  ⟨by decide, by decide, RangeOrder.asBuilt_valid, RangeOrder.reversed_valid, by decide,
    by decide, by decide, by decide⟩

/-- C2 fails on the code. `overlapLayout` is referentially closed; when the
loop of `replaceType` run for the first slot visits the table from its last
entry and the loop run for the type key visits it from its first, the first
output slot has the type `t_mapping(t_address,t_contract(A)1003)` while the
output type map has the key `t_mapping(t_address,t_contract(A)10023)`: the
slot's type is no key of the output type map. -/
theorem closure_broken_by_range_order :
    overlapLayout.Closed ∧ RangeOrder.slotsReversed.Valid ∧
      (CanonicalizeASTIDs RangeOrder.slotsReversed overlapLayout).Storage.map
          (fun slot => slot.Type_)
        = ["t_mapping(t_address,t_contract(A)1003)".toList, "t_contract(A)1002".toList] ∧
      mapKeys (CanonicalizeASTIDs RangeOrder.slotsReversed overlapLayout).Types
        = ["t_address".toList, "t_contract(A)1002".toList, "t_contract(A)1003".toList,
            "t_mapping(t_address,t_contract(A)10023)".toList] ∧
      ¬ (CanonicalizeASTIDs RangeOrder.slotsReversed overlapLayout).Closed :=
  ⟨by decide, RangeOrder.slotsReversed_valid, by decide, by decide, by decide⟩

/-- C15. Type ids continue the slot counter in sorted key order: for a type
map with distinct keys, the table equals the table described by the
specification; its keys are the keys of the type map that pass the filters,
in strictly increasing order, and the `j`-th of them is mapped to itself with
the first occurrence of its captured digits replaced by the decimal form of
`1000 + n + j`, `n` being the number of slots; every such id is greater than
the `AstId` of every output slot. -/
theorem type_ids_continue_slot_counter (order : RangeOrder) (input : StorageLayout)
    (hnd : (mapKeys input.Types).Nodup) :
    typeRemappings input = expectedTable input ∧
      mapKeys (typeRemappings input) = filteredKeys input ∧
      (∀ k, k ∈ filteredKeys input ↔ k ∈ mapKeys input.Types ∧ passesFilters k) ∧
      (filteredKeys input).Pairwise (fun a b => strLt a b = true) ∧
      (∀ j k, (filteredKeys input)[j]? = some k →
        (typeRemappings input)[j]? = some (k,
          stringsReplace1 k (capturedId k) (strconvItoa (1000 + input.Storage.length + j)))) ∧
      ∀ slot ∈ (CanonicalizeASTIDs order input).Storage, ∀ j,
        slot.AstId < 1000 + input.Storage.length + j := by
  have htab := typeRemappings_eq_expected input hnd
  have hsorted : (filteredKeys input).Pairwise (fun a b => strLt a b = true) :=
    (sorted_strLt_of_nodup (sortStrings_sorted _) (sortedOldTypes_nodup input hnd)).sublist
      (List.filter_sublist _)
  refine ⟨htab, ?_, ?_, hsorted, ?_, ?_⟩
  · rw [htab]
    unfold expectedTable mapKeys
    rw [List.map_map]
    exact List.enumFrom_map_snd _ _
  · intro k
    unfold filteredKeys
    rw [List.mem_filter, mem_sortedOldTypes]
    simp
  · intro j k hj
    rw [htab]
    unfold expectedTable
    rw [List.getElem?_map, List.getElem?_enumFrom, hj]
    rfl
  · intro slot hs j
    obtain ⟨i, hi⟩ := List.mem_iff_getElem?.mp hs
    rw [canonicalize_storage_getElem?] at hi
    cases hin : input.Storage[i]? with
    | none => rw [hin] at hi; cases hi
    | some src =>
      rw [hin] at hi
      simp only [Option.map_some', Option.some.injEq] at hi
      subst hi
      have hmem : src.AstId ∈ input.Storage.map (fun slot => slot.AstId) :=
        List.mem_map_of_mem _ (List.getElem?_mem hin)
      have := (mapGet_assignSlotIds_bounds input.Storage [] 1000 src.AstId 0 hmem).2
      show mapGet (astIDRemappings input) src.AstId 0 < _
      unfold astIDRemappings
      omega

/-- C15, at the layout `overlapLayout`, which has two slots: its two contract
types get the ids 1002 and 1003. -/
theorem type_ids_continue_slot_counter_witness :
    typeRemappings overlapLayout
        = [("t_contract(A)12".toList, "t_contract(A)1002".toList),
            ("t_contract(A)123".toList, "t_contract(A)1003".toList)] ∧
      typeRemappings overlapLayout = expectedTable overlapLayout ∧
      mapKeys (typeRemappings overlapLayout) = filteredKeys overlapLayout ∧
      (∀ k, k ∈ filteredKeys overlapLayout ↔
        k ∈ mapKeys overlapLayout.Types ∧ passesFilters k) ∧
      (filteredKeys overlapLayout).Pairwise (fun a b => strLt a b = true) ∧
      (∀ j k, (filteredKeys overlapLayout)[j]? = some k →
        (typeRemappings overlapLayout)[j]? = some (k,
          stringsReplace1 k (capturedId k)
            (strconvItoa (1000 + overlapLayout.Storage.length + j)))) ∧
      ∀ slot ∈ (CanonicalizeASTIDs RangeOrder.asBuilt overlapLayout).Storage, ∀ j,
        slot.AstId < 1000 + overlapLayout.Storage.length + j :=
  ⟨by decide, type_ids_continue_slot_counter RangeOrder.asBuilt overlapLayout (by decide)⟩

/-- C17. Sorting removes the dependence on the enumeration order in the first
pass: two layouts with the same slots whose type maps are enumerations of the
same entries in different orders have the same table. -/
theorem table_independent_of_enumeration (L₁ L₂ : StorageLayout)
    (hs : L₁.Storage = L₂.Storage) (hp : L₁.Types.Perm L₂.Types) :
    typeRemappings L₁ = typeRemappings L₂ := by
  unfold typeRemappings
  rw [typeLoop_eq, typeLoop_eq, hs]
  unfold sortedOldTypes mapKeys
  rw [sortStrings_eq_of_perm (hp.map Prod.fst)]

/-- C17, at `overlapLayout` and the same layout with its type map enumerated
in the opposite order. -/
theorem table_independent_of_enumeration_witness :
    overlapLayoutReversed.Types ≠ overlapLayout.Types ∧
      typeRemappings overlapLayoutReversed = typeRemappings overlapLayout :=
  ⟨by decide,
    table_independent_of_enumeration overlapLayoutReversed overlapLayout rfl
      (List.reverse_perm _)⟩

/-- C12 as stated fails: in the table with the entries `a -> x` and
`ab -> ""`, the string `ab` is a key whose value is empty, so the fast path is
not taken; both old strings occur in `ab`, and `replaceType` returns `xb`. -/
theorem empty_value_skips_fast_path :
    ("ab".toList, "".toList) ∈ [("a".toList, "x".toList), ("ab".toList, "".toList)] ∧
      (mapKeys [("a".toList, "x".toList), ("ab".toList, "".toList)]).Nodup ∧
      replaceType [("a".toList, "x".toList), ("ab".toList, "".toList)] "ab".toList
        = "xb".toList ∧
      replaceType [("a".toList, "x".toList), ("ab".toList, "".toList)] "ab".toList
        ≠ "".toList := by
  decide

/-- C12, amended. For every table (a map: distinct keys) and every string `s`
that is a key of it with a non-empty value, `replaceType` returns the value the
table maps `s` to. -/
theorem replaceType_exact_match (t : Table) (s v : Str) (hnd : (mapKeys t).Nodup)
    (hmem : (s, v) ∈ t) (hv : v ≠ []) : replaceType t s = v := by
  unfold replaceType
  simp only [mapGet_of_mem t s v [] hnd hmem]
  rw [if_pos hv]

/-- C12 amended, at the key `t_struct(Foo)500_storage` of the table of
`fixedArrayLayout`. -/
theorem replaceType_exact_match_witness :
    ("t_struct(Foo)500_storage".toList, "t_struct(Foo)1002_storage".toList)
        ∈ typeRemappings fixedArrayLayout ∧
      replaceType (typeRemappings fixedArrayLayout) "t_struct(Foo)500_storage".toList
        = "t_struct(Foo)1002_storage".toList :=
  ⟨by decide,
    replaceType_exact_match (typeRemappings fixedArrayLayout)
      "t_struct(Foo)500_storage".toList "t_struct(Foo)1002_storage".toList
      (by decide) (by decide) (by decide)⟩

/-- C11 as stated fails: in `collisionLayout` the keys
`t_array(t_contract(A)1001)dyn_storage` and `t_array(t_contract(A)12)dyn_storage`
are both rewritten to `t_array(t_contract(A)1001)dyn_storage`; the entry of
the second, written later, replaces the entry of the first, so the output
entry under the rewritten key of the first key has the label and the size of
the second. -/
theorem later_key_overwrites_entry :
    "t_array(t_contract(A)1001)dyn_storage".toList ∈ mapKeys collisionLayout.Types ∧
      replaceType (typeRemappings collisionLayout)
          "t_array(t_contract(A)1001)dyn_storage".toList
        = "t_array(t_contract(A)1001)dyn_storage".toList ∧
      (mapGet collisionLayout.Types "t_array(t_contract(A)1001)dyn_storage".toList
          StorageLayoutType.zero).NumberOfBytes = 64 ∧
      (mapFind (CanonicalizeASTIDs RangeOrder.asBuilt collisionLayout).Types
          "t_array(t_contract(A)1001)dyn_storage".toList).map
            (fun entry => (entry.Label, entry.NumberOfBytes))
        = some ("contract A[]".toList, 32) := by
  decide

/-- C11, amended. For the `j`-th sorted key `k` of the input type map, when no
key later in the sorted order is rewritten to the same output key, the output
type map holds under the rewritten key of `k` the entry of `k` with
`Encoding`, `Label` and `NumberOfBytes` copied, `Key` and `Value` rewritten by
`replaceType`, and `Base` rewritten when it is not empty and empty otherwise. -/
theorem type_entries_carried_over (order : RangeOrder) (input : StorageLayout) (j : Nat)
    (k : Str) (hk : (sortedOldTypes input)[j]? = some k)
    (hlast : ∀ j' k', j < j' → (sortedOldTypes input)[j']? = some k' →
      replaceType (order (.typeKey j') (typeRemappings input)) k'
        ≠ replaceType (order (.typeKey j) (typeRemappings input)) k) :
    k ∈ mapKeys input.Types ∧
      mapFind (CanonicalizeASTIDs order input).Types
          (replaceType (order (.typeKey j) (typeRemappings input)) k)
        = some
          { Encoding := (mapGet input.Types k StorageLayoutType.zero).Encoding
            Label := (mapGet input.Types k StorageLayoutType.zero).Label
            NumberOfBytes := (mapGet input.Types k StorageLayoutType.zero).NumberOfBytes
            Key := replaceType (order (.fieldKey j) (typeRemappings input))
              (mapGet input.Types k StorageLayoutType.zero).Key
            Value := replaceType (order (.fieldValue j) (typeRemappings input))
              (mapGet input.Types k StorageLayoutType.zero).Value
            Base :=
              if (mapGet input.Types k StorageLayoutType.zero).Base ≠ [] then
                replaceType (order (.fieldBase j) (typeRemappings input))
                  (mapGet input.Types k StorageLayoutType.zero).Base
              else [] } := by
  refine ⟨(mem_sortedOldTypes input k).mp (List.getElem?_mem hk), ?_⟩
  have h := mapFind_outTypes_of_last order input.Types (typeRemappings input) 0
    (sortedOldTypes input) [] j k hk
    (by
      intro n' k' hn' hk'
      simpa [outType] using hlast n' k' hn' hk')
  simpa [outType, CanonicalizeASTIDs] using h

/-- C11 amended, at the struct type of `fixedArrayLayout`, the second of its
three sorted keys. -/
theorem type_entries_carried_over_witness :
    "t_struct(Foo)500_storage".toList ∈ mapKeys fixedArrayLayout.Types ∧
      mapFind (CanonicalizeASTIDs RangeOrder.asBuilt fixedArrayLayout).Types
          "t_struct(Foo)1002_storage".toList
        = some
          { Encoding := "inplace".toList, Label := "struct Foo".toList
            NumberOfBytes := 32, Key := [], Value := [], Base := [] } :=
  type_entries_carried_over RangeOrder.asBuilt fixedArrayLayout 1
    "t_struct(Foo)500_storage".toList (by decide)
    (by
      intro j' k' hj' hk'
      have hlen : (sortedOldTypes fixedArrayLayout).length = 3 := by decide
      have hlt := (List.getElem?_eq_some.mp hk').1
      have h2 : j' = 2 := by omega
      subst h2
      have hk2 : (sortedOldTypes fixedArrayLayout)[2]? = some "t_uint256".toList := by decide
      rw [hk2] at hk'
      cases hk'
      decide)

/-- C13. Totality: for every input layout, slots with types missing from the
type map included, `CanonicalizeASTIDs` with its partial steps checked returns
a layout, the one the function computes.  None of the partial steps can fail:
every match of `remapTypeRe` has the whole match and three groups, so group 2
exists; the marker index found in the path components is below their number,
so the slice from the next index is in range; and the `AstId` of every slot is
a key of the id table. -/
theorem canonicalize_total (order : RangeOrder) (input : StorageLayout) :
    CanonicalizeASTIDsChecked order input = some (CanonicalizeASTIDs order input) ∧
      (∀ s found, found ∈ remapTypeReFindAll s → found.length = 4) ∧
      (∀ elements x idx, slicesIndex elements x = some idx → idx + 1 ≤ elements.length) ∧
      ∀ slot ∈ input.Storage, slot.AstId ∈ mapKeys (astIDRemappings input) := by
  have hids : ∀ slot ∈ input.Storage, slot.AstId ∈ mapKeys (astIDRemappings input) :=
    fun slot hs => mapKeys_assignSlotIds _ _ _ _ (Or.inl (List.mem_map_of_mem _ hs))
  refine ⟨?_, ?_, fun _ _ _ h => slicesIndex_lt h, hids⟩
  · unfold CanonicalizeASTIDsChecked
    simp only [typeLoopChecked_eq, outSlotsChecked_eq _ _ _ _ _ hids]
    rfl
  · intro s found hf
    unfold remapTypeReFindAll at hf
    split at hf
    · cases hf
    · simp only [List.mem_singleton] at hf
      rw [hf]
      rfl

/-- C16 fails on the code. The key `t_contract(ERC20)20` of `erc20Layout`
passes the filters and its capture groups are `t_contract(ERC20)`, `20` and
the empty string; the first occurrence of `20` in the key lies in the name, so
the table maps the key to `t_contract(ERC1001)20`, and not to
`t_contract(ERC20)1001`: the prefix is changed and the id is kept. -/
theorem digits_replaced_inside_name :
    passesFilters "t_contract(ERC20)20".toList ∧
      remapTypeRe "t_contract(ERC20)20".toList
        = some ("t_contract(ERC20)".toList, "20".toList, []) ∧
      typeRemappings erc20Layout
        = [("t_contract(ERC20)20".toList, "t_contract(ERC1001)20".toList)] ∧
      mapGet (typeRemappings erc20Layout) "t_contract(ERC20)20".toList []
        ≠ "t_contract(ERC20)".toList ++ strconvItoa 1001 ++ [] := by
  refine ⟨?_, ?_, ?_, ?_⟩ <;> decide

/-- C14 fails on the code. `overlapLayout` is referentially closed and its
slots have distinct `AstId`s.  When in the first run the loops of `replaceType`
for the slots visit the table from its last entry and the other loops from its
first, the result is not referentially closed, and a second run (with any
order, here the order in which the table was built) leaves the first slot's
type `t_mapping(t_address,t_contract(A)1003)` outside the keys of the type
map.  The slot ids of the second run are again 1000 and 1001. -/
theorem recanonicalized_layout_not_closed :
    overlapLayout.Closed ∧ overlapLayout.slotIds.Nodup ∧
      RangeOrder.slotsReversed.Valid ∧ RangeOrder.asBuilt.Valid ∧
      (CanonicalizeASTIDs RangeOrder.asBuilt
          (CanonicalizeASTIDs RangeOrder.slotsReversed overlapLayout)).slotIds = [1000, 1001] ∧
      (CanonicalizeASTIDs RangeOrder.asBuilt
          (CanonicalizeASTIDs RangeOrder.slotsReversed overlapLayout)).Storage.map
            (fun slot => slot.Type_)
        = ["t_mapping(t_address,t_contract(A)1003)".toList, "t_contract(A)1002".toList] ∧
      mapKeys (CanonicalizeASTIDs RangeOrder.asBuilt
          (CanonicalizeASTIDs RangeOrder.slotsReversed overlapLayout)).Types
        = ["t_address".toList, "t_contract(A)1002".toList, "t_contract(A)1003".toList,
            "t_mapping(t_address,t_contract(A)10023)".toList] ∧
      ¬ (CanonicalizeASTIDs RangeOrder.asBuilt
          (CanonicalizeASTIDs RangeOrder.slotsReversed overlapLayout)).Closed :=
  ⟨by decide, by decide, RangeOrder.slotsReversed_valid, RangeOrder.asBuilt_valid,
    by decide, by decide, by decide, by decide⟩

/-- C18 fails on the code. The table of `chainLayout` maps `t_contract(A)1002`
to `t_contract(A)1001` and `t_contract(A)12` to `t_contract(A)1002`. The string
`t_mapping(t_contract(A)12,t_contract(A)1002)` is not a key of it, and the two
old types occur in it once each, at positions that do not overlap.  Applying
the entries in the order of the table gives
`t_mapping(t_contract(A)1002,t_contract(A)1001)`; applying them in the
opposite order gives `t_mapping(t_contract(A)1001,t_contract(A)1002)`, because
the first replacement creates an earlier occurrence of the other old type. -/
theorem order_matters_without_overlap :
    chainLayout.Closed ∧
      typeRemappings chainLayout
        = [("t_contract(A)1002".toList, "t_contract(A)1001".toList),
            ("t_contract(A)12".toList, "t_contract(A)1002".toList)] ∧
      "t_mapping(t_contract(A)12,t_contract(A)1002)".toList
        ∉ mapKeys (typeRemappings chainLayout) ∧
      occurrences "t_mapping(t_contract(A)12,t_contract(A)1002)".toList
        "t_contract(A)12".toList = [10] ∧
      occurrences "t_mapping(t_contract(A)12,t_contract(A)1002)".toList
        "t_contract(A)1002".toList = [26] ∧
      nonOverlapping (typeRemappings chainLayout)
        "t_mapping(t_contract(A)12,t_contract(A)1002)".toList ∧
      replaceType (typeRemappings chainLayout)
          "t_mapping(t_contract(A)12,t_contract(A)1002)".toList
        = "t_mapping(t_contract(A)1002,t_contract(A)1001)".toList ∧
      replaceType (typeRemappings chainLayout).reverse
          "t_mapping(t_contract(A)12,t_contract(A)1002)".toList
        = "t_mapping(t_contract(A)1001,t_contract(A)1002)".toList ∧
      replaceType (typeRemappings chainLayout)
          "t_mapping(t_contract(A)12,t_contract(A)1002)".toList
        ≠ replaceType (typeRemappings chainLayout).reverse
          "t_mapping(t_contract(A)12,t_contract(A)1002)".toList := by
  refine ⟨?_, ?_, ?_, ?_, ?_, ?_, ?_, ?_, ?_⟩ <;> decide

/-- C20 as stated fails. `manySlotsLayout` is referentially closed and its
8999 slots have distinct `AstId`s.  The first run gives its two contract types
the ids 9999 and 10000, in the order of the old keys.  In the order of strings
`t_contract(A)10000` comes before `t_contract(A)9999`, so the second run gives
the key that carries 10000 the id 9999 and the key that carries 9999 the id
10000: the second run exchanges the two and its result differs from the result
of the first. -/
theorem renumbering_not_stable_past_9999 :
    manySlotsLayout.Closed ∧ manySlotsLayout.slotIds.Nodup ∧
      typeRemappings manySlotsLayout
        = [("t_contract(A)1".toList, "t_contract(A)9999".toList),
            ("t_contract(A)2".toList, "t_contract(A)10000".toList)] ∧
      typeRemappings (CanonicalizeASTIDs RangeOrder.asBuilt manySlotsLayout)
        = [("t_contract(A)10000".toList, "t_contract(A)9999".toList),
            ("t_contract(A)9999".toList, "t_contract(A)10000".toList)] ∧
      CanonicalizeASTIDs RangeOrder.asBuilt
          (CanonicalizeASTIDs RangeOrder.asBuilt manySlotsLayout)
        ≠ CanonicalizeASTIDs RangeOrder.asBuilt manySlotsLayout := by
  unfold manySlotsLayout
  have hlen := slotsLayout_length 8999
  have hlen2 := canonicalize_storage_length RangeOrder.asBuilt (slotsLayout 8999)
  have htypes := slotsLayout_types 8999
  refine ⟨slotsLayout_closed 8999, ?_, ?_, ?_, ?_⟩
  · rw [slotsLayout_slotIds]
    exact List.nodup_range 8999
  · rw [typeRemappings_eq_tableFor, hlen, htypes]
    decide
  · rw [typeRemappings_eq_tableFor, canonicalize_types_eq_typesFor, hlen2, hlen, htypes]
    decide
  · intro h
    have ht := congrArg (fun L => L.Types) h
    simp only [canonicalize_types_eq_typesFor, hlen2, hlen, htypes] at ht
    revert ht
    decide

/-- C20, amended. Take an input layout whose slots have pairwise distinct
`AstId`s, which has at most 9000 slots and type entries together (so that
every id given out has four digits), and in whose type keys that pass the
filters of the first pass the captured digits first occur at the position of
the id.  Then, whatever the orders in which the `range` loops of the two runs
visit their tables, a second run returns the result of the first: same slots,
same type keys and same type entries. -/
theorem canonical_layout_fixed (order₁ order₂ : RangeOrder) (input : StorageLayout)
    (hv₁ : order₁.Valid) (hv₂ : order₂.Valid) (hd : input.slotIds.Nodup)
    (hnd : (mapKeys input.Types).Nodup)
    (hsmall : input.Storage.length + input.Types.length ≤ 9000)
    (hcap : input.IdsAtCapture) :
    CanonicalizeASTIDs order₂ (CanonicalizeASTIDs order₁ input)
      = CanonicalizeASTIDs order₁ input :=
  second_run_of_identity_table order₁ order₂ input hv₂ hd
    (typeRemappings_canonicalize_identity order₁ hv₁ input hnd hcap hsmall)

/-- C20 amended, at `mixedLayout`, the first run visiting the table in the
order in which it was built and the second in the opposite order. -/
theorem canonical_layout_fixed_witness :
    mixedLayout.slotIds.Nodup ∧ (mapKeys mixedLayout.Types).Nodup ∧
      mixedLayout.Storage.length + mixedLayout.Types.length ≤ 9000 ∧
      mixedLayout.IdsAtCapture ∧
      CanonicalizeASTIDs RangeOrder.reversed
          (CanonicalizeASTIDs RangeOrder.asBuilt mixedLayout)
        = CanonicalizeASTIDs RangeOrder.asBuilt mixedLayout :=
  ⟨by decide, by decide, by decide, by decide,
    canonical_layout_fixed RangeOrder.asBuilt RangeOrder.reversed mixedLayout
      RangeOrder.asBuilt_valid RangeOrder.reversed_valid (by decide) (by decide) (by decide)
      (by decide)⟩

end Ast
